import Mathlib

/-!
Query planning and filter splitting of the docstore drivers.

A shallow embedding of the query code of `internal/docstore`:

* `driver`: the backend-agnostic `Filter` and `Query` values and
  `NewActionListError` (`driver/driver.go`);
* `firedocstore`: `splitFilters`, the local filter evaluation, the iterator and
  `queryToProto` (`firedocstore/query.go`);
* `dynamodocstore`: the planner exercised by `dynamodocstore/query_test.go`;
* `memdocstore`: the comparator, the filter evaluation, `RunGetQuery`,
  `RunDeleteQuery` and the iterator (`memdocstore/query.go`), and the scalar
  methods of the codec (`memdocstore/codec.go`).

A Go panic is the error of `Except String`; a Go `error` result is a value of
`driver.Error`.

Go slices of strings are embedded as `Option (List String)`, where `none` is the
nil slice, because `splitFilters` tests its range field path against `nil`.
-/

namespace driver

/-- The Go type `[]string` of a field path: `none` is the nil slice, `some l` a
non-nil slice holding the segments `l` (possibly none at all). -/
abbrev FieldPath := Option (List String)

/-- The Go builtin `len` on a field path; the nil slice has length zero. -/
def fpLen : FieldPath → Nat
  | none => 0
  | some l => l.length

/-- The segments of a field path; the nil slice has none. -/
def fpElems : FieldPath → List String
  | none => []
  | some l => l

/-- A float64, kept exactly: a finite value is `num * 2 ^ exp`. -/
inductive Float64 where
  | finite (num : Int) (exp : Int)
  | inf (negative : Bool)
  | nan
  deriving DecidableEq, Repr

/-- A Go string value: its bytes, in order. Go orders strings byte by byte. -/
abbrev GoString := List Nat

/-- The dynamic values an `interface{}` of a filter or a document field can hold,
by reflect kind: nil, bool, string, the signed integer kinds, the unsigned integer
kinds, the float kinds, `[]byte`, and every other kind (lists, maps, complex
numbers). The float kinds come in two forms, because `isNaN` of firedocstore
switches on the dynamic type and not on the kind: `float` is a value of the type
`float32` or `float64` itself, and `definedFloat` is a value of a defined type
whose kind is a float kind (`type myFloat float64`). -/
inductive Value where
  | null
  | bool (b : Bool)
  | str (s : GoString)
  | int (i : Int)
  | uint (n : Nat)
  | float (f : Float64)
  | definedFloat (f : Float64)
  | bytes (b : List Nat)
  | other
  deriving DecidableEq, Repr

/-- The constant `driver.EqualOp`. -/
def EqualOp : String := "="

/-- The struct `driver.Filter`. -/
structure Filter where
  FieldPath : FieldPath
  Op : String
  Value : Value
  deriving DecidableEq, Repr

/-- The struct `driver.Query` (the `BeforeQuery` callback is left out: neither
the splitter nor the planner calls it). -/
structure Query where
  FieldPaths : List FieldPath
  Filters : List Filter
  Limit : Int
  deriving DecidableEq, Repr

end driver

namespace firedocstore

open driver

/-- Modelled from the spec: `fpEqual` is called by `splitFilters` but declared in
a file of `firedocstore` that is not under `src/`. The spec speaks of filters "on
that same field path": two field paths are the same when they hold the same
segments in the same order. -/
def fpEqual (fp1 fp2 : FieldPath) : Bool :=
  fpElems fp1 == fpElems fp2

/-- The three variables the loop of `splitFilters` updates. -/
structure SplitState where
  rangeFP : FieldPath
  sendToFirestore : List Filter
  evaluateLocally : List Filter
  deriving DecidableEq, Repr

/-- One iteration of the `for _, f := range fs` loop of `splitFilters`. -/
def splitStep (st : SplitState) (f : Filter) : SplitState :=
  if f.Op = EqualOp then
    { st with sendToFirestore := st.sendToFirestore ++ [f] }
  else if st.rangeFP = none || fpEqual st.rangeFP f.FieldPath then
    { st with rangeFP := f.FieldPath, sendToFirestore := st.sendToFirestore ++ [f] }
  else
    { st with evaluateLocally := st.evaluateLocally ++ [f] }

/-- The function `splitFilters` of `firedocstore/query.go`: the filters sent to
Firestore and the filters evaluated on the client. -/
def splitFilters (fs : List Filter) : List Filter × List Filter :=
  let st := fs.foldl splitStep { rangeFP := none, sendToFirestore := [], evaluateLocally := [] }
  (st.sendToFirestore, st.evaluateLocally)

/-- The first filter of the input whose operator is not `=`, if any: the filter
that fixes the range field in the spec's description of the splitter. -/
def firstInequality (fs : List Filter) : Option Filter :=
  fs.find? (fun f => f.Op != EqualOp)

/-- The spec's greedy first-seen rule, as a predicate on one filter of the input
`fs`: the filter goes to the local set when its operator is not `=` and its field
path is not that of the first non-equality filter of `fs`. -/
def localBySpec (fs : List Filter) (f : Filter) : Bool :=
  match firstInequality fs with
  | none => false
  | some g => f.Op != EqualOp && f.FieldPath != g.FieldPath

/-- A filter list obeys the backend rule when all its non-equality filters are
on one field path. -/
def oneInequalityField (fs : List Filter) : Prop :=
  ∀ f ∈ fs, ∀ g ∈ fs, f.Op ≠ EqualOp → g.Op ≠ EqualOp → f.FieldPath = g.FieldPath

/-- The filter list of the spec's example: `A = 1`, `B > 1`, `C < 2`. -/
def exampleFilters : List Filter :=
  [ { FieldPath := some ["A"], Op := "=", Value := Value.int 1 },
    { FieldPath := some ["B"], Op := ">", Value := Value.int 1 },
    { FieldPath := some ["C"], Op := "<", Value := Value.int 2 } ]

end firedocstore

namespace dynamodocstore

open driver

/-- The Go function `strings.Join`. -/
def stringsJoin : List String → String → String
  | [], _ => ""
  | [a], _ => a
  | a :: b :: rest, sep => a ++ sep ++ stringsJoin (b :: rest) sep

/-- The attribute name a field path stands for: its segments joined by dots, the
inverse of the `strings.Split(qf, ".")` of `TestGlobalFieldsIncluded`. -/
def fieldName (fp : FieldPath) : String :=
  stringsJoin (fpElems fp) "."

/-- The constant `docstore.RevisionField`, which `TestPlanQuery` expects as
`DocstoreRevision` among the attribute names. -/
def RevisionField : String := "DocstoreRevision"

/-- The projection of a secondary index; the spec's data model gives it three
forms: all fields, keys only, or an explicit set of fields. -/
inductive Projection where
  | ALL
  | KEYS_ONLY
  | INCLUDE (NonKeyAttributes : List String)
  deriving DecidableEq, Repr

/-- The spec's IndexDescription of a secondary index: its name, its partition key,
its sort key (the empty string when it has none, as in `keySchema(p, "")` of the
tests) and its projection. -/
structure IndexDescription where
  IndexName : String
  PartitionKey : String
  SortKey : String
  Projection : Projection
  deriving DecidableEq, Repr

/-- The fields of `collection` that `TestPlanQuery` sets: the table name, the
table keys (`sortKey` is empty when the table has none) and the secondary indexes
of the table description, in declaration order. -/
structure collection where
  table : String
  partitionKey : String
  sortKey : String
  LocalSecondaryIndexes : List IndexDescription
  GlobalSecondaryIndexes : List IndexDescription
  deriving DecidableEq, Repr

/-- The test helper `indexProjection` of `query_test.go`: nil fields mean ALL, an
empty list KEYS_ONLY, anything else INCLUDE of the listed fields. -/
def indexProjection (fields : Option (List String)) : Projection :=
  match fields with
  | none => Projection.ALL
  | some [] => Projection.KEYS_ONLY
  | some (f :: fs) => Projection.INCLUDE (f :: fs)

/-- The part of `dynamodb.ScanInput` the planner fills. The filter expression is
kept as the list of filters it is built from and the projection expression as the
list of attribute names; the empty list stands for an absent expression. -/
structure ScanInput where
  TableName : String
  FilterExpression : List Filter
  ProjectionExpression : List String
  deriving DecidableEq, Repr

/-- The part of `dynamodb.QueryInput` the planner fills; `IndexName` is `none`
for a query on the table itself. Expressions are kept as in `ScanInput`. -/
structure QueryInput where
  TableName : String
  IndexName : Option String
  KeyConditionExpression : List Filter
  FilterExpression : List Filter
  ProjectionExpression : List String
  deriving DecidableEq, Repr

/-- The result of planning, with the two fields `TestPlanQuery` reads: exactly
one of `scanIn` and `queryIn` is set. -/
structure queryRunner where
  scanIn : Option ScanInput
  queryIn : Option QueryInput
  deriving DecidableEq, Repr

/-- Modelled from the spec: `queryRunner.queryPlan` is not under `src/`. The spec
gives the three plan descriptions `"Table"`, `"Scan"` and `Index: "<name>"`. -/
def queryRunner.queryPlan (r : queryRunner) : String :=
  match r.scanIn, r.queryIn with
  | some _, _ => "Scan"
  | none, some qi =>
    match qi.IndexName with
    | some n => "Index: \"" ++ n ++ "\""
    | none => "Table"
  | none, none => "Scan"

/-- Modelled from the spec: the test for "the query's filters include an equality
filter on that partition key" (section 4.3), for the key attribute `field`. -/
def hasEqualityFilter (q : Query) (field : String) : Bool :=
  q.Filters.any (fun f => f.Op == EqualOp && fieldName f.FieldPath == field)

/-- Modelled from the spec: the test for "a sort key that is mentioned in the
query" (the comments of `TestPlanQuery`; the spec's "sort key filter"). A sort key
is optional: the empty name, which stands for no sort key, has no filter. -/
def hasFilter (q : Query) (field : String) : Bool :=
  field != "" && q.Filters.any (fun f => fieldName f.FieldPath == field)

/-- Modelled from the spec: projection coverage of a local index, which is not
under `src/`. `TestPlanQuery` fixes it: a keys-only local index serves a query
that names its fields (the backend reads the other fields from the table) and
does not serve a query for the entire document; an ALL projection serves both. -/
def localFieldsIncluded (q : Query) (li : IndexDescription) : Bool :=
  !q.FieldPaths.isEmpty || li.Projection == Projection.ALL

/-- Modelled from the spec: the attributes stored in a global index, used by
`globalFieldsIncluded`, which is not under `src/`: the keys of the table and of
the index ("when the projection includes only table and index keys", says
`TestGlobalFieldsIncluded` of KEYS_ONLY) and the non-key attributes an INCLUDE
projection lists. -/
def indexFields (c : collection) (gi : IndexDescription) : List String :=
  [c.partitionKey, gi.PartitionKey]
    ++ (if c.sortKey != "" then [c.sortKey] else [])
    ++ (if gi.SortKey != "" then [gi.SortKey] else [])
    ++ (match gi.Projection with
        | Projection.INCLUDE nka => nka
        | _ => [])

/-- Modelled from the spec: `collection.globalFieldsIncluded` is not under `src/`
(only `TestGlobalFieldsIncluded` is). The spec asks that "the index's projection
covers all fields required by the query's FieldPaths", where empty FieldPaths
mean the entire document: an ALL projection covers every query, and any other
projection covers a query that names its fields, all of them stored in the
index. -/
def globalFieldsIncluded (c : collection) (q : Query) (gi : IndexDescription) : Bool :=
  match gi.Projection with
  | Projection.ALL => true
  | _ =>
    if q.FieldPaths.isEmpty then false
    else q.FieldPaths.all (fun fp => (indexFields c gi).contains (fieldName fp))

/-- Modelled from the spec: the fields the planner requests, "the query's
FieldPaths (plus an implicit revision/version field always required)". A query
for the entire document requests no projection; `TestPlanQuery` expects the
revision field after the caller's fields. -/
def requiredFieldPaths (q : Query) : List FieldPath :=
  if q.FieldPaths.isEmpty then []
  else if q.FieldPaths.any (fun fp => fieldName fp == RevisionField) then q.FieldPaths
  else q.FieldPaths ++ [some [RevisionField]]

/-- The access path chosen by the planner: `none` is a full scan; otherwise the
name of the chosen index (`none` for the table itself) and the partition and sort
key the key condition is formed on. -/
abbrev Queryable := Option (Option String × String × String)

/-- The choice of a secondary index as access path. -/
def useIndex (i : IndexDescription) : Queryable :=
  some (some i.IndexName, i.PartitionKey, i.SortKey)

/-- Modelled from the spec: the access-path selection of section 4.3, which is not
under `src/`, with the order of `TestPlanQuery` where the spec leaves it open.
An index or the table is eligible when the query has an equality filter on its
partition key. In preference order:
1. the table, eligible "with its own sort key filter" ("given the choice of
   querying the table or a local index, prefer the table");
2. the first local index that is eligible, has "a sort key that is mentioned in
   the query" and whose projection covers the query;
3. the first global index, in declaration order, that is eligible, has a sort key
   mentioned in the query and whose projection covers the query;
4. the table when eligible: it is "always preferred over a full scan" and over an
   index whose projection does not cover the requested fields;
5. the first eligible global index, in declaration order ("ties between multiple
   global indexes are broken by declaration order"); the spec consults the
   projection only to prefer an index over the table, and keeps the scan for the
   case of item 6;
6. the full scan, "the fallback when no equality filter exists on any partition
   key (table or index)". -/
def bestQueryable (c : collection) (q : Query) : Queryable :=
  if hasEqualityFilter q c.partitionKey && hasFilter q c.sortKey then
    some (none, c.partitionKey, c.sortKey)
  else
    match c.LocalSecondaryIndexes.find? (fun li =>
        hasEqualityFilter q li.PartitionKey && hasFilter q li.SortKey
          && localFieldsIncluded q li) with
    | some li => useIndex li
    | none =>
      match c.GlobalSecondaryIndexes.find? (fun gi =>
          hasEqualityFilter q gi.PartitionKey && hasFilter q gi.SortKey
            && globalFieldsIncluded c q gi) with
      | some gi => useIndex gi
      | none =>
        if hasEqualityFilter q c.partitionKey then
          some (none, c.partitionKey, c.sortKey)
        else
          match c.GlobalSecondaryIndexes.find? (fun gi =>
              hasEqualityFilter q gi.PartitionKey) with
          | some gi => useIndex gi
          | none => none

/-- The test of item 3 of `bestQueryable` on a global index, for the query with its
required fields: the partition key of the index has an equality filter, its sort
key has a filter and its projection covers the query. -/
def globalKeysMatch (c : collection) (q : Query) (gi : IndexDescription) : Bool :=
  hasEqualityFilter q gi.PartitionKey && hasFilter q gi.SortKey
    && globalFieldsIncluded c { q with FieldPaths := requiredFieldPaths q } gi

/-- Following the words of the claim C8 and of section 4.3 of the spec, for
comparison with `localFieldsIncluded`: "the index projection covers the fields the
query requires", where the required fields are the query's FieldPaths "plus an
implicit revision/version field always required" and a query for the entire
document requires every field. The attributes that a secondary index stores are
those of `indexFields`. -/
def specProjectionCovers (c : collection) (q : Query) (i : IndexDescription) : Bool :=
  match i.Projection with
  | Projection.ALL => true
  | _ =>
    !q.FieldPaths.isEmpty &&
      (requiredFieldPaths q).all (fun fp => (indexFields c i).contains (fieldName fp))

/-- Modelled from the spec: whether a filter belongs to the key condition, which
"is formed from equality/range filters on the chosen index's partition and sort
key". -/
def isKeyCondition (pkey skey : String) (f : Filter) : Bool :=
  fieldName f.FieldPath == pkey || (skey != "" && fieldName f.FieldPath == skey)

/-- Modelled from the spec: `collection.planQuery` is not under `src/` (only
`TestPlanQuery` is). The projection is the required fields; the access path is
chosen by `bestQueryable` on the query with its required fields; a scan carries
every filter as its filter expression; a query carries the filters on the chosen
keys as key condition and "every other filter, whether or not it targets a key
attribute" as filter expression, each in input order. The planner of this backend
keeps no filter for local evaluation. "Planning never fails for a well-formed
Query": the error result of the Go signature is never produced. -/
def planQuery (c : collection) (q : Query) : Except String queryRunner :=
  let fps := requiredFieldPaths q
  let projection := fps.map fieldName
  match bestQueryable c { q with FieldPaths := fps } with
  | none =>
    Except.ok {
      scanIn := some {
        TableName := c.table
        FilterExpression := q.Filters
        ProjectionExpression := projection }
      queryIn := none }
  | some (indexName, pkey, skey) =>
    Except.ok {
      scanIn := none
      queryIn := some {
        TableName := c.table
        IndexName := indexName
        KeyConditionExpression := q.Filters.filter (isKeyCondition pkey skey)
        FilterExpression := q.Filters.filter (fun f => !isKeyCondition pkey skey f)
        ProjectionExpression := projection } }

/-- The Index Catalog is consistent: every local index shares the partition key of
the table, and the sort key of a secondary index is an attribute other than its
partition key. -/
def collection.consistent (c : collection) : Bool :=
  c.LocalSecondaryIndexes.all (fun li =>
    li.PartitionKey == c.partitionKey && li.SortKey != li.PartitionKey)
  && c.GlobalSecondaryIndexes.all (fun gi => gi.SortKey != gi.PartitionKey)

/-- The query on the table itself that carries the filters `kc` as key condition
and the filters `fe` as filter expression. -/
def tableQuery (c : collection) (q : Query) (kc fe : List Filter) : queryRunner :=
  { scanIn := none
    queryIn := some {
      TableName := c.table
      IndexName := none
      KeyConditionExpression := kc
      FilterExpression := fe
      ProjectionExpression := (requiredFieldPaths q).map fieldName } }

/-- The query on the secondary index `i` that carries the filters on the keys of
`i` as key condition and the other filters as filter expression. -/
def indexQuery (c : collection) (q : Query) (i : IndexDescription) : queryRunner :=
  { scanIn := none
    queryIn := some {
      TableName := c.table
      IndexName := some i.IndexName
      KeyConditionExpression := q.Filters.filter (isKeyCondition i.PartitionKey i.SortKey)
      FilterExpression := q.Filters.filter (fun f => !isKeyCondition i.PartitionKey i.SortKey f)
      ProjectionExpression := (requiredFieldPaths q).map fieldName } }

/-- The full scan of the table that carries the filters `fe` as filter
expression. -/
def tableScan (c : collection) (q : Query) (fe : List Filter) : queryRunner :=
  { scanIn := some {
      TableName := c.table
      FilterExpression := fe
      ProjectionExpression := (requiredFieldPaths q).map fieldName }
    queryIn := none }

/-- The collection of `TestPlanQuery` with a table sort key, an ALL-projection
local index on `localS` and a global index keyed on `other`. -/
def exampleCollection : collection :=
  { table := "T", partitionKey := "tableP", sortKey := "tableS"
    LocalSecondaryIndexes :=
      [{ IndexName := "local", PartitionKey := "tableP", SortKey := "localS",
         Projection := indexProjection none }]
    GlobalSecondaryIndexes :=
      [{ IndexName := "global", PartitionKey := "other", SortKey := "",
         Projection := indexProjection none }] }

/-- The global index of `exampleCollection`. -/
def globalIndexOther : IndexDescription :=
  { IndexName := "global", PartitionKey := "other", SortKey := "",
    Projection := indexProjection none }

/-- The filter `field op 1` of `TestPlanQuery`. -/
def testFilter (field op : String) : Filter :=
  { FieldPath := some [field], Op := op, Value := Value.int 1 }

/-- A table with partition key `tableP`, no sort key, and two global indexes on the
partition key `other`, in this order: `g1` with sort key `a` and `g2` with sort
key `b`, both with an ALL projection. -/
def twoGlobalIndexes : collection :=
  { table := "T", partitionKey := "tableP", sortKey := ""
    LocalSecondaryIndexes := []
    GlobalSecondaryIndexes :=
      [{ IndexName := "g1", PartitionKey := "other", SortKey := "a",
         Projection := Projection.ALL },
       { IndexName := "g2", PartitionKey := "other", SortKey := "b",
         Projection := Projection.ALL }] }

/-- The table of `TestPlanQuery` named `t`, with partition key `tableP` and sort
key `sk`, whose only secondary index is the local index `local` with sort key
`localS` and projection `p`. -/
def localIndexCollection (t sk : String) (p : Projection) : collection :=
  { table := t, partitionKey := "tableP", sortKey := sk
    LocalSecondaryIndexes :=
      [{ IndexName := "local", PartitionKey := "tableP", SortKey := "localS",
         Projection := p }]
    GlobalSecondaryIndexes := [] }

/-- The local index of `localIndexCollection`. -/
def localIndex (p : Projection) : IndexDescription :=
  { IndexName := "local", PartitionKey := "tableP", SortKey := "localS", Projection := p }

/-- The query `tableP = v1 AND localS <= v2`. -/
def localIndexQuery (fps : List FieldPath) (limit : Int) (v1 v2 : Value) : Query :=
  { FieldPaths := fps
    Filters := [{ FieldPath := some ["tableP"], Op := "=", Value := v1 },
                { FieldPath := some ["localS"], Op := "<=", Value := v2 }]
    Limit := limit }

/-- A field is the named key when there is such a key (a key name is empty when
the key is absent) and the field has its name. -/
def isKey (key field : String) : Prop :=
  key ≠ "" ∧ field = key

/-- The collection a case of `TestPlanQuery` sets up: table `T` with partition
key `tableP` and sort key `tableSortKey`; a local index `local` on
`localIndexSortKey` when that name is non-empty; a global index `global` on
`globalIndexPartitionKey` and `globalIndexSortKey` when the former is
non-empty. -/
def testCollection (tableSortKey localIndexSortKey : String)
    (localIndexFields : Option (List String))
    (globalIndexPartitionKey globalIndexSortKey : String)
    (globalIndexFields : Option (List String)) : collection :=
  { table := "T", partitionKey := "tableP", sortKey := tableSortKey
    LocalSecondaryIndexes :=
      if localIndexSortKey = "" then []
      else [{ IndexName := "local", PartitionKey := "tableP", SortKey := localIndexSortKey,
              Projection := indexProjection localIndexFields }]
    GlobalSecondaryIndexes :=
      if globalIndexPartitionKey = "" then []
      else [{ IndexName := "global", PartitionKey := globalIndexPartitionKey,
              SortKey := globalIndexSortKey,
              Projection := indexProjection globalIndexFields }] }

/-- A query of `TestPlanQuery`: top-level field paths and filters, no limit. -/
def testQuery (fields : List String) (filters : List Filter) : Query :=
  { FieldPaths := fields.map (fun f => some [f]), Filters := filters, Limit := 0 }

/-- What a case of `TestPlanQuery` compares: the plan description, the index
name, and the attribute names of the key condition, of the filter expression and
of the projection. -/
def planSummary (r : Except String queryRunner) :
    Option (String × Option String × List String × List String × List String) :=
  match r with
  | Except.error _ => none
  | Except.ok r =>
    match r.scanIn, r.queryIn with
    | some si, _ =>
      some (r.queryPlan, none, [], si.FilterExpression.map (fun f => fieldName f.FieldPath),
        si.ProjectionExpression)
    | none, some qi =>
      some (r.queryPlan, qi.IndexName,
        qi.KeyConditionExpression.map (fun f => fieldName f.FieldPath),
        qi.FilterExpression.map (fun f => fieldName f.FieldPath),
        qi.ProjectionExpression)
    | none, none => none

end dynamodocstore

namespace driver

/-- A Go `error` value, as far as the iterators tell errors apart: `io.EOF` or any
other error. -/
inductive Error where
  | EOF
  | other (msg : String)
  deriving DecidableEq, Repr

/-- Modelled from the spec: a decoded document, seen only through its read
interface "get(fieldPath) -> value or not-found". `driver.Document` with its
method `Get`, and the `getAtFieldPath` of memdocstore, are not under `src/`; a
document is taken as its lookup function, which returns the value at a field path
or an error. -/
structure Document where
  Get : FieldPath → Except Error Value

/-- Whether an evaluation that may panic returned true. -/
def returnedTrue (r : Except String Bool) : Bool :=
  match r with
  | Except.ok true => true
  | _ => false

end driver

namespace big

/-- The Go type `big.Float` as `toBigFloat` uses it: a binary floating-point
number `mant * 2 ^ exp`, or an infinity. The setters are called on a zero `Float`,
whose precision they raise to 64 bits for `SetInt64` and `SetUint64` and to 53
bits for `SetFloat64`, so that "rounding will have no effect" (package
documentation): the value is kept exactly. -/
inductive Float where
  | finite (mant : Int) (exp : Int)
  | inf (negative : Bool)
  deriving DecidableEq, Repr

/-- Three-way comparison of two integers: -1, 0 or +1. -/
def intCmp (a b : Int) : Int :=
  if a < b then -1 else if a = b then 0 else 1

/-- The method `(*big.Float).Cmp`: -1, 0 or +1 as `x` is below, equal to or above
`y`; two finite values are brought to their smaller exponent and compared as
integers. -/
def Float.Cmp (x y : Float) : Int :=
  match x, y with
  | Float.finite m1 e1, Float.finite m2 e2 =>
    intCmp (m1 * 2 ^ (e1 - min e1 e2).toNat) (m2 * 2 ^ (e2 - min e1 e2).toNat)
  | Float.inf n1, Float.inf n2 => if n1 = n2 then 0 else if n1 then -1 else 1
  | Float.inf n, Float.finite _ _ => if n then -1 else 1
  | Float.finite _ _, Float.inf n => if n then 1 else -1

/-- The exact rational value of a finite `big.Float`. -/
def Float.toRat : Float → Option ℚ
  | Float.finite m e => some ((m : ℚ) * (2 : ℚ) ^ e)
  | Float.inf _ => none

end big

namespace gostrings

open driver

/-- The Go operator `<` on strings: byte-wise lexicographic order; a proper
beginning of a string is below the string. -/
def less : GoString → GoString → Bool
  | [], [] => false
  | [], _ :: _ => true
  | _ :: _, [] => false
  | a :: s, b :: t => if a < b then true else if b < a then false else less s t

/-- The Go function `strings.Compare`: 0 if `a == b`, -1 if `a < b`, +1
otherwise. -/
def Compare (a b : GoString) : Int :=
  if a = b then 0 else if less a b then -1 else 1

end gostrings

namespace memdocstore

open driver

/-- Modelled from the spec: `getAtFieldPath` of memdocstore is not under `src/`; it
is the read interface of the stored document. -/
def getAtFieldPath (doc : Document) (fp : FieldPath) : Except Error Value :=
  doc.Get fp

/-- The function `applyComparison` of `memdocstore/query.go`. A Go panic is the
error of `Except String`. -/
def applyComparison (op : String) (c : Int) : Except String Bool :=
  if op = EqualOp then Except.ok (decide (c = 0))
  else if op = ">" then Except.ok (decide (c > 0))
  else if op = "<" then Except.ok (decide (c < 0))
  else if op = ">=" then Except.ok (decide (c ≥ 0))
  else if op = "<=" then Except.ok (decide (c ≤ 0))
  else Except.error "bad op"

/-- The function `toBigFloat` of `memdocstore/query.go`, on the reflect kind of
the value, so that a float of a defined type is converted as a `float64` is:
`none` is the nil pointer. `SetFloat64` "panics with ErrNaN if x is a NaN"
(package documentation of `math/big`). -/
def toBigFloat (x : Value) : Except String (Option big.Float) :=
  match x with
  | Value.int i => Except.ok (some (big.Float.finite i 0))
  | Value.uint n => Except.ok (some (big.Float.finite n 0))
  | Value.float (Float64.finite m e) => Except.ok (some (big.Float.finite m e))
  | Value.float (Float64.inf n) => Except.ok (some (big.Float.inf n))
  | Value.float Float64.nan => Except.error "ErrNaN"
  | Value.definedFloat (Float64.finite m e) => Except.ok (some (big.Float.finite m e))
  | Value.definedFloat (Float64.inf n) => Except.ok (some (big.Float.inf n))
  | Value.definedFloat Float64.nan => Except.error "ErrNaN"
  | _ => Except.ok none

/-- The function `compare` of `memdocstore/query.go`. Both operands are converted
before either conversion is tested for nil. -/
def compare (x1 x2 : Value) : Except String (Int × Bool) :=
  match x1, x2 with
  | Value.str s1, Value.str s2 => Except.ok (gostrings.Compare s1 s2, true)
  | _, _ =>
    match toBigFloat x1 with
    | Except.error p => Except.error p
    | Except.ok bf1 =>
      match toBigFloat x2 with
      | Except.error p => Except.error p
      | Except.ok bf2 =>
        match bf1, bf2 with
        | some a, some b => Except.ok (a.Cmp b, true)
        | _, _ => Except.ok (0, false)

/-- The function `filterMatches` of `memdocstore/query.go`. -/
def filterMatches (f : Filter) (doc : Document) : Except String Bool :=
  match getAtFieldPath doc f.FieldPath with
  | Except.error _ => Except.ok false
  | Except.ok docval =>
    match compare docval f.Value with
    | Except.error p => Except.error p
    | Except.ok (c, ok) => if !ok then Except.ok false else applyComparison f.Op c

/-- The function `filtersMatch` of `memdocstore/query.go`: the loop returns false
at the first filter that does not match. -/
def filtersMatch : List Filter → Document → Except String Bool
  | [], _ => Except.ok true
  | f :: fs, doc =>
    match filterMatches f doc with
    | Except.error p => Except.error p
    | Except.ok m => if !m then Except.ok false else filtersMatch fs doc

/-- The field `docs` of the memdocstore `collection`, a Go map from key to stored
document, as the list of its entries in the order in which a `range` loop visits
them. -/
structure collection where
  docs : List (String × Document)

/-- The struct `docIterator` of `memdocstore/query.go`; `err` is `none` for the
nil error. -/
structure docIterator where
  docs : List Document
  fieldPaths : List FieldPath
  err : Option Error

/-- The loop of `RunGetQuery` over the documents still to visit, with the slice
`docs` collected so far. -/
def runGetLoop (q : Query) : List Document → List Document → Except String (List Document)
  | [], docs => Except.ok docs
  | doc :: rest, docs =>
    if q.Limit > 0 ∧ (docs.length : Int) = q.Limit then Except.ok docs
    else
      match filtersMatch q.Filters doc with
      | Except.error p => Except.error p
      | Except.ok m => runGetLoop q rest (if m then docs ++ [doc] else docs)

/-- The method `RunGetQuery` of `memdocstore/query.go`; it returns a nil error
unless it panics. -/
def RunGetQuery (c : collection) (q : Query) : Except String docIterator :=
  match runGetLoop q (c.docs.map Prod.snd) [] with
  | Except.error p => Except.error p
  | Except.ok docs => Except.ok { docs := docs, fieldPaths := q.FieldPaths, err := none }

/-- What one call of `Next` does besides changing the iterator: the error it
returns (`none` for nil) and the stored document it handed to `decodeDoc`, if
any. -/
structure NextResult where
  err : Option Error
  decoded : Option Document

/-- The method `docIterator.Next` of `memdocstore/query.go`. The function
`decodeDoc` of `codec.go` calls `setAtFieldPath` and `Document.Decode`, which are
not under `src/`; it is taken as the parameter `decodeDoc`, which gives the error
that decoding a stored document for the field paths returns (`none` for nil). -/
def docIterator.Next (decodeDoc : Document → List FieldPath → Option Error)
    (it : docIterator) : docIterator × NextResult :=
  match it.err with
  | some e => (it, { err := some e, decoded := none })
  | none =>
    match it.docs with
    | [] => ({ it with err := some Error.EOF }, { err := some Error.EOF, decoded := none })
    | d :: rest =>
      match decodeDoc d it.fieldPaths with
      | some e => ({ it with err := some e }, { err := some e, decoded := some d })
      | none => ({ it with docs := rest }, { err := none, decoded := some d })

/-- The method `docIterator.Stop` of `memdocstore/query.go`. -/
def docIterator.Stop (it : docIterator) : docIterator :=
  { it with err := some Error.EOF }

/-- A call on an iterator: `Next` or `Stop`. -/
inductive Call where
  | next
  | stop
  deriving DecidableEq, Repr

/-- The iterator after a sequence of calls, and the results of the `Next` calls
among them, in order. -/
def docIterator.run (decodeDoc : Document → List FieldPath → Option Error) :
    List Call → docIterator → docIterator × List NextResult
  | [], it => (it, [])
  | Call.next :: cs, it =>
    let r := it.Next decodeDoc
    let rs := docIterator.run decodeDoc cs r.1
    (rs.1, r.2 :: rs.2)
  | Call.stop :: cs, it => docIterator.run decodeDoc cs it.Stop

end memdocstore

namespace driver

/-- The document whose every field holds the value `v`. -/
def constDocument (v : Value) : Document :=
  { Get := fun _ => Except.ok v }

/-- The document that has no field. -/
def emptyDocument : Document :=
  { Get := fun _ => Except.error (Error.other "not found") }

/-- The document with the two top-level fields `B` and `C`. -/
def documentBC (b c : Value) : Document :=
  { Get := fun fp =>
      if fp = some ["B"] then Except.ok b
      else if fp = some ["C"] then Except.ok c
      else Except.error (Error.other "not found") }

/-- The query `B > 1 AND C < 2` with a limit. -/
def exampleQuery (fps : List FieldPath) (limit : Int) : Query :=
  { FieldPaths := fps
    Filters := [{ FieldPath := some ["B"], Op := ">", Value := Value.int 1 },
                { FieldPath := some ["C"], Op := "<", Value := Value.int 2 }]
    Limit := limit }

/-- The query `C < 2 AND B > 1` with a limit. -/
def exampleQueryCB (fps : List FieldPath) (limit : Int) : Query :=
  { FieldPaths := fps
    Filters := [{ FieldPath := some ["C"], Op := "<", Value := Value.int 2 },
                { FieldPath := some ["B"], Op := ">", Value := Value.int 1 }]
    Limit := limit }

end driver

namespace firedocstore

open driver

/-- The function `applyComparison` of `firedocstore/query.go`. A Go panic is the
error of `Except String`. -/
def applyComparison (op : String) (c : Int) : Except String Bool :=
  if op = EqualOp then Except.ok (decide (c = 0))
  else if op = ">" then Except.ok (decide (c > 0))
  else if op = "<" then Except.ok (decide (c < 0))
  else if op = ">=" then Except.ok (decide (c ≥ 0))
  else if op = "<=" then Except.ok (decide (c ≤ 0))
  else Except.error "bad op"

/-- The function `toBigFloat` of `firedocstore/query.go`, on the reflect kind of
the value, so that a float of a defined type is converted as a `float64` is:
`none` is the nil pointer. `SetFloat64` "panics with ErrNaN if x is a NaN"
(package documentation of `math/big`). -/
def toBigFloat (x : Value) : Except String (Option big.Float) :=
  match x with
  | Value.int i => Except.ok (some (big.Float.finite i 0))
  | Value.uint n => Except.ok (some (big.Float.finite n 0))
  | Value.float (Float64.finite m e) => Except.ok (some (big.Float.finite m e))
  | Value.float (Float64.inf n) => Except.ok (some (big.Float.inf n))
  | Value.float Float64.nan => Except.error "ErrNaN"
  | Value.definedFloat (Float64.finite m e) => Except.ok (some (big.Float.finite m e))
  | Value.definedFloat (Float64.inf n) => Except.ok (some (big.Float.inf n))
  | Value.definedFloat Float64.nan => Except.error "ErrNaN"
  | _ => Except.ok none

/-- The function `evaluateFilter` of `firedocstore/query.go`. -/
def evaluateFilter (f : Filter) (doc : Document) : Except String Bool :=
  match doc.Get f.FieldPath with
  | Except.error _ => Except.ok false
  | Except.ok val =>
    match val with
    | Value.str lhs =>
      match f.Value with
      | Value.str rhs => applyComparison f.Op (gostrings.Compare lhs rhs)
      | _ => Except.ok false
    | _ =>
      match toBigFloat val with
      | Except.error p => Except.error p
      | Except.ok lf =>
        match toBigFloat f.Value with
        | Except.error p => Except.error p
        | Except.ok rf =>
          match lf, rf with
          | some a, some b => applyComparison f.Op (a.Cmp b)
          | _, _ => Except.ok false

/-- The loop over the local filters in `evaluateLocalFilters`. -/
def evaluateFilters : List Filter → Document → Except String Bool
  | [], _ => Except.ok true
  | f :: fs, doc =>
    match evaluateFilter f doc with
    | Except.error p => Except.error p
    | Except.ok m => if !m then Except.ok false else evaluateFilters fs doc

/-- The method `docIterator.evaluateLocalFilters` of `firedocstore/query.go`, on a
backend document of type `PDoc`. The functions `driver.NewDocument` and
`decodeDoc` of firedocstore are not under `src/`; together they are the parameter
`decodeDoc`, which gives the decoded document or the error. The result is the
pair the Go function returns, under the panics of `Except String`. -/
def evaluateLocalFilters {PDoc : Type} (decodeDoc : PDoc → Except Error Document)
    (localFilters : List Filter) (pdoc : PDoc) : Except String (Except Error Bool) :=
  if localFilters.length = 0 then Except.ok (Except.ok true)
  else
    match decodeDoc pdoc with
    | Except.error e => Except.ok (Except.error e)
    | Except.ok doc =>
      match evaluateFilters localFilters doc with
      | Except.error p => Except.error p
      | Except.ok m => Except.ok (Except.ok m)

/-- What one `Recv` on the stream of a running query gives: an error, a response
without a document (partial progress), or a response with a document. -/
inductive Recv (PDoc : Type) where
  | err (e : Error)
  | progress
  | document (pdoc : PDoc)

/-- The method `docIterator.nextResponse` of `firedocstore/query.go`, on the
results the stream still has to give; a stream that has given all its results
gives `io.EOF`. It returns what is left of the stream and the document of the
response, or the error. -/
def nextResponse {PDoc : Type} (decodeDoc : PDoc → Except Error Document)
    (localFilters : List Filter) :
    List (Recv PDoc) → Except String (List (Recv PDoc) × Except Error PDoc)
  | [] => Except.ok ([], Except.error Error.EOF)
  | Recv.err e :: rest => Except.ok (rest, Except.error e)
  | Recv.progress :: rest => nextResponse decodeDoc localFilters rest
  | Recv.document pdoc :: rest =>
    match evaluateLocalFilters decodeDoc localFilters pdoc with
    | Except.error p => Except.error p
    | Except.ok (Except.error e) => Except.ok (rest, Except.error e)
    | Except.ok (Except.ok true) => Except.ok (rest, Except.ok pdoc)
    | Except.ok (Except.ok false) => nextResponse decodeDoc localFilters rest

/-- The documents that repeated calls of `nextResponse` give until the first
error, in order. -/
def responses {PDoc : Type} (decodeDoc : PDoc → Except Error Document)
    (localFilters : List Filter) : List (Recv PDoc) → Except String (List PDoc)
  | [] => Except.ok []
  | Recv.err _ :: _ => Except.ok []
  | Recv.progress :: rest => responses decodeDoc localFilters rest
  | Recv.document pdoc :: rest =>
    match evaluateLocalFilters decodeDoc localFilters pdoc with
    | Except.error p => Except.error p
    | Except.ok (Except.error _) => Except.ok []
    | Except.ok (Except.ok m) =>
      match responses decodeDoc localFilters rest with
      | Except.error p => Except.error p
      | Except.ok ds => Except.ok (if m then pdoc :: ds else ds)

/-- The operators of `pb.StructuredQuery_UnaryFilter`. -/
inductive UnaryOperator where
  | OPERATOR_UNSPECIFIED
  | IS_NAN
  | IS_NULL
  deriving DecidableEq, Repr

/-- The operators of `pb.StructuredQuery_FieldFilter` that `filterToProto`
uses. -/
inductive FieldOperator where
  | LESS_THAN
  | LESS_THAN_OR_EQUAL
  | GREATER_THAN
  | GREATER_THAN_OR_EQUAL
  | EQUAL
  deriving DecidableEq, Repr

/-- The message `pb.StructuredQuery_FieldReference`. -/
structure FieldReference where
  FieldPath : String
  deriving DecidableEq, Repr

/-- The two kinds of `pb.StructuredQuery_Filter` that `filterToProto` builds, with
encoded values of type `PValue`. -/
inductive ProtoFilter (PValue : Type) where
  | UnaryFilter (Field : FieldReference) (Op : UnaryOperator)
  | FieldFilter (Field : FieldReference) (Op : FieldOperator) (Value : PValue)

/-- The field `Where` of the structured query: one filter used directly, or a
composite filter whose operator is AND. -/
inductive WhereFilter (PValue : Type) where
  | single (f : ProtoFilter PValue)
  | compositeAND (Filters : List (ProtoFilter PValue))

/-- The fields of `pb.StructuredQuery` that `queryToProto` sets; `none` is a nil
field. -/
structure StructuredQuery (PValue : Type) where
  From : List String
  Select : Option (List FieldReference)
  Limit : Option Int
  Where : Option (WhereFilter PValue)

/-- The functions of firedocstore that `queryToProto` and `filterToProto` call and
that are not under `src/`, taken as parameters: `toServiceFieldPath`, which writes
a field path in the form of the service, and `encodeValue`, which encodes a
filter value or fails. -/
structure Codec (PValue : Type) where
  toServiceFieldPath : FieldPath → String
  encodeValue : Value → Except Error PValue

/-- The function `fieldRef` of `firedocstore/query.go`. -/
def fieldRef {PValue : Type} (codec : Codec PValue) (fp : FieldPath) : FieldReference :=
  { FieldPath := codec.toServiceFieldPath fp }

/-- The function `isNaN` of `firedocstore/query.go`: a type switch on the types
`float32` and `float64`, whose default case returns false. A NaN of a defined
float type is in the default case. -/
def isNaN (x : Value) : Bool :=
  match x with
  | Value.float Float64.nan => true
  | _ => false

/-- The function `unaryOpFor` of `firedocstore/query.go`. -/
def unaryOpFor (value : Value) : UnaryOperator × Bool :=
  if value = Value.null then (UnaryOperator.IS_NULL, true)
  else if isNaN value then (UnaryOperator.IS_NAN, true)
  else (UnaryOperator.OPERATOR_UNSPECIFIED, false)

/-- The function `filterToProto` of `firedocstore/query.go`; the texts of its
errors leave out the formatted value and operator. -/
def filterToProto {PValue : Type} (codec : Codec PValue) (f : Filter) :
    Except Error (ProtoFilter PValue) :=
  match unaryOpFor f.Value with
  | (uop, true) =>
    if f.Op ≠ EqualOp then Except.error (Error.other "firestore: must use = when comparing")
    else Except.ok (ProtoFilter.UnaryFilter (fieldRef codec f.FieldPath) uop)
  | (_, false) =>
    match
      (if f.Op = "<" then some FieldOperator.LESS_THAN
       else if f.Op = "<=" then some FieldOperator.LESS_THAN_OR_EQUAL
       else if f.Op = ">" then some FieldOperator.GREATER_THAN
       else if f.Op = ">=" then some FieldOperator.GREATER_THAN_OR_EQUAL
       else if f.Op = EqualOp then some FieldOperator.EQUAL
       else none) with
    | none => Except.error (Error.other "invalid operator")
    | some op =>
      match codec.encodeValue f.Value with
      | Except.error e => Except.error e
      | Except.ok pv => Except.ok (ProtoFilter.FieldFilter (fieldRef codec f.FieldPath) op pv)

/-- The loop of `queryToProto` over the filters to send: it stops at the first
filter that `filterToProto` refuses. -/
def filtersToProto {PValue : Type} (codec : Codec PValue) :
    List Filter → Except Error (List (ProtoFilter PValue))
  | [] => Except.ok []
  | f :: fs =>
    match filterToProto codec f with
    | Except.error e => Except.error e
    | Except.ok pf =>
      match filtersToProto codec fs with
      | Except.error e => Except.error e
      | Except.ok pfs => Except.ok (pf :: pfs)

/-- The Go conversion `int32(x)` of an `int`: the value modulo `2 ^ 32`, in the
range of a signed 32-bit integer. -/
def int32 (x : Int) : Int :=
  (x + 2 ^ 31) % 2 ^ 32 - 2 ^ 31

/-- The method `collection.queryToProto` of `firedocstore/query.go`, for the
collection whose ID, `path.Base(c.collPath)`, is `collID`: the structured query
and the filters to evaluate on the client, or the error. -/
def queryToProto {PValue : Type} (codec : Codec PValue) (collID : String) (q : Query) :
    Except Error (StructuredQuery PValue × List Filter) :=
  let select : Option (List FieldReference) :=
    if q.FieldPaths.length > 0 then some (q.FieldPaths.map (fieldRef codec)) else none
  let limit : Option Int := if q.Limit > 0 then some (int32 q.Limit) else none
  let split := splitFilters q.Filters
  match filtersToProto codec split.1 with
  | Except.error e => Except.error e
  | Except.ok pfs =>
    let whereFilter : Option (WhereFilter PValue) :=
      match pfs with
      | [] => none
      | [pf] => some (WhereFilter.single pf)
      | _ => some (WhereFilter.compositeAND pfs)
    Except.ok ({ From := [collID], Select := select, Limit := limit, Where := whereFilter },
      split.2)

/-- Modelled from the spec: the backend of C17, which is not part of the
repository: on the documents of the collection in their order, it returns those
that satisfy every native filter, the first `limit` of them when the query has a
limit. A filter is satisfied as `evaluateFilter` decides it. -/
def backendRunQuery (native : List Filter) (limit : Option Int) (coll : List Document) :
    List Document :=
  let sat := coll.filter (fun d => native.all (fun f => returnedTrue (evaluateFilter f d)))
  match limit with
  | none => sat
  | some n => sat.take n.toNat

/-- The documents that satisfy the full filter set of a query, in the order of
the collection, the first `limit` of them when the limit is positive. -/
def fullQueryResult (q : Query) (coll : List Document) : List Document :=
  let sat := coll.filter (fun d => q.Filters.all (fun f => returnedTrue (evaluateFilter f d)))
  if q.Limit > 0 then sat.take q.Limit.toNat else sat

end firedocstore

namespace memdocstore

open driver

/-- The exact value of a numeric operand: of an integer of any signed or unsigned
width and of a finite float; no other operand has one. -/
def numericValue : Value → Option ℚ
  | Value.int i => some (i : ℚ)
  | Value.uint n => some (n : ℚ)
  | Value.float (Float64.finite m e) => some ((m : ℚ) * (2 : ℚ) ^ e)
  | Value.definedFloat (Float64.finite m e) => some ((m : ℚ) * (2 : ℚ) ^ e)
  | _ => none

/-- The sign of a rational number as the integer -1, 0 or +1. -/
def signOf (r : ℚ) : Int :=
  if r < 0 then -1 else if r = 0 then 0 else 1

end memdocstore

namespace memdocstore

open driver

/-- Whether a value is of the string kind. -/
def isString : Value → Bool
  | Value.str _ => true
  | _ => false

/-- Whether a value is of a numeric kind: a signed or an unsigned integer or a
float. -/
def isNumber : Value → Bool
  | Value.int _ => true
  | Value.uint _ => true
  | Value.float _ => true
  | Value.definedFloat _ => true
  | _ => false

/-- Whether a value is a NaN of a float kind, of whatever type. -/
def isNaNOfFloatKind : Value → Bool
  | Value.float Float64.nan => true
  | Value.definedFloat Float64.nan => true
  | _ => false

/-- The operand pairs that C13 calls incomparable: a string and a number, in
either order, or a pair one of whose values is neither a string nor a number. -/
def incomparable (x y : Value) : Bool :=
  (isString x && isNumber y) || (isNumber x && isString y)
    || (!isString x && !isNumber x) || (!isString y && !isNumber y)

end memdocstore

namespace memdocstore

open driver

/-- The stored documents of a collection that match every filter of a query, in
the iteration order of the collection. -/
def matchingDocs (c : collection) (q : Query) : List Document :=
  (c.docs.map Prod.snd).filter (fun d => returnedTrue (filtersMatch q.Filters d))

/-- A collection of three documents under the keys `k1`, `k2` and `k3`. -/
def exampleCollection : collection :=
  { docs := [("k1", documentBC (Value.int 2) (Value.int 5)),
             ("k2", documentBC (Value.int 2) (Value.int 1)),
             ("k3", documentBC (Value.int 3) (Value.int 0))] }

/-- A collection of two documents, the first of which holds a NaN. -/
def nanCollection : collection :=
  { docs := [("k1", documentBC (Value.float Float64.nan) (Value.int 5)),
             ("k2", documentBC (Value.int 2) (Value.int 1))] }

end memdocstore

namespace firedocstore

open driver

/-- A stand-in for the functions of firedocstore that are not under `src/`, for
the evaluation of examples: field paths are written with dots and values are
sent as they are. -/
def exampleCodec : Codec Value :=
  { toServiceFieldPath := fun fp => dynamodocstore.stringsJoin (fpElems fp) "."
    encodeValue := fun v => Except.ok v }

end firedocstore


namespace driver

/-- An item of `driver.ActionListError`: the position of an action and its
error. -/
structure ActionListErrorItem where
  Index : Nat
  Err : Error
  deriving DecidableEq, Repr

/-- The Go type `driver.ActionListError`, a slice of items: `none` is the nil
slice. -/
abbrev ActionListError := Option (List ActionListErrorItem)

/-- The items of an `ActionListError`; the nil slice has none. -/
def ActionListError.items (alerr : ActionListError) : List ActionListErrorItem :=
  match alerr with
  | none => []
  | some l => l

/-- The Go builtin `append` of one item to a slice that may be nil: the result is
never nil. -/
def appendItem (alerr : ActionListError) (x : ActionListErrorItem) : ActionListError :=
  some (alerr.items ++ [x])

/-- The loop of `NewActionListError` from the index `i` on, over the errors still
to visit (`none` is the nil error), with the slice `alerr` built so far. -/
def newActionListErrorLoop : Nat → List (Option Error) → ActionListError → ActionListError
  | _, [], alerr => alerr
  | i, err :: rest, alerr =>
    newActionListErrorLoop (i + 1) rest
      (match err with
       | some e => appendItem alerr { Index := i, Err := e }
       | none => alerr)

/-- The function `NewActionListError` of `driver/driver.go`. -/
def NewActionListError (errs : List (Option Error)) : ActionListError :=
  newActionListErrorLoop 0 errs none

end driver

namespace memdocstore

open driver

/-- The Go conversion `int64(x)` of an integer: the value modulo `2 ^ 64`, in the
range of a signed 64-bit integer. -/
def int64 (x : Int) : Int :=
  (x + 2 ^ 63) % 2 ^ 64 - 2 ^ 63

/-- The Go conversion `uint64(x)` of an integer: the value modulo `2 ^ 64`. -/
def uint64 (x : Int) : Nat :=
  (x % 2 ^ 64).toNat

/-- The method `encoder.EncodeNil` of `memdocstore/codec.go`: the value it
stores. -/
def encoder.EncodeNil : Value := Value.null

/-- The method `encoder.EncodeBool` of `memdocstore/codec.go`. -/
def encoder.EncodeBool (x : Bool) : Value := Value.bool x

/-- The method `encoder.EncodeInt` of `memdocstore/codec.go`, on an int64. -/
def encoder.EncodeInt (x : Int) : Value := Value.int x

/-- The method `encoder.EncodeUint` of `memdocstore/codec.go`, on a uint64: it
stores `int64(x)`. -/
def encoder.EncodeUint (x : Nat) : Value := Value.int (int64 x)

/-- The method `encoder.EncodeBytes` of `memdocstore/codec.go`. -/
def encoder.EncodeBytes (x : List Nat) : Value := Value.bytes x

/-- The method `encoder.EncodeFloat` of `memdocstore/codec.go`, on a float64. -/
def encoder.EncodeFloat (x : Float64) : Value := Value.float x

/-- The method `encoder.EncodeString` of `memdocstore/codec.go`. -/
def encoder.EncodeString (x : GoString) : Value := Value.str x

/-- The method `decoder.AsBool` of `memdocstore/codec.go`, on the stored value. A
failed type assertion gives the zero value and false. -/
def decoder.AsBool (val : Value) : Bool × Bool :=
  match val with
  | Value.bool b => (b, true)
  | _ => (false, false)

/-- The method `decoder.AsString` of `memdocstore/codec.go`. -/
def decoder.AsString (val : Value) : GoString × Bool :=
  match val with
  | Value.str s => (s, true)
  | _ => ([], false)

/-- The method `decoder.AsInt` of `memdocstore/codec.go`. In a stored value the
signed integer kind is int64, the only one the encoder stores. -/
def decoder.AsInt (val : Value) : Int × Bool :=
  match val with
  | Value.int i => (i, true)
  | _ => (0, false)

/-- The method `decoder.AsUint` of `memdocstore/codec.go`: it asserts an int64
and converts it with `uint64(i)`. -/
def decoder.AsUint (val : Value) : Nat × Bool :=
  match val with
  | Value.int i => (uint64 i, true)
  | _ => (uint64 0, false)

/-- The method `decoder.AsFloat` of `memdocstore/codec.go`, a type assertion to
`float64`. In a stored value the float kind is float64, the only one the encoder
stores. -/
def decoder.AsFloat (val : Value) : Float64 × Bool :=
  match val with
  | Value.float f => (f, true)
  | _ => (Float64.finite 0 0, false)

/-- The method `decoder.AsBytes` of `memdocstore/codec.go`. -/
def decoder.AsBytes (val : Value) : List Nat × Bool :=
  match val with
  | Value.bytes b => (b, true)
  | _ => ([], false)

/-- The Go builtin `delete(m, key)` on the entries of a map. -/
def deleteKey (docs : List (String × Document)) (key : String) : List (String × Document) :=
  docs.filter (fun kd => kd.1 != key)

/-- The loop of `RunDeleteQuery` over the entries still to visit, with the
entries the map holds so far. -/
def runDeleteLoop (q : Query) :
    List (String × Document) → List (String × Document) →
      Except String (List (String × Document))
  | [], docs => Except.ok docs
  | (key, doc) :: rest, docs =>
    match filtersMatch q.Filters doc with
    | Except.error p => Except.error p
    | Except.ok m => runDeleteLoop q rest (if m then deleteKey docs key else docs)

/-- The method `RunDeleteQuery` of `memdocstore/query.go`: the collection after
the call and the error it returns, which is always nil. -/
def RunDeleteQuery (c : collection) (q : Query) : Except String (collection × Option Error) :=
  match runDeleteLoop q c.docs c.docs with
  | Except.error p => Except.error p
  | Except.ok docs => Except.ok ({ docs := docs }, none)

/-- The entries of a collection that do not match every filter of a query. -/
def remainingDocs (c : collection) (q : Query) : List (String × Document) :=
  c.docs.filter (fun kd => !returnedTrue (filtersMatch q.Filters kd.2))

/-- The relation that one of the five operators states between two rational
numbers; no other operator states one. -/
def relationHolds (op : String) (x v : ℚ) : Option Bool :=
  if op = EqualOp then some (decide (x = v))
  else if op = ">" then some (decide (x > v))
  else if op = "<" then some (decide (x < v))
  else if op = ">=" then some (decide (x ≥ v))
  else if op = "<=" then some (decide (x ≤ v))
  else none

end memdocstore

namespace firedocstore

open driver

/-- What `newDocIterator` does: the request it hands to the `RunQuery` of the
client, `none` when it does not call it, and what it returns: the error, or the
local filters of the iterator. -/
structure NewDocIteratorResult (PValue : Type) where
  runQueryRequest : Option (StructuredQuery PValue)
  result : Except Error (List Filter)

/-- The method `collection.newDocIterator` of `firedocstore/query.go`. The
callback `q.BeforeQuery` (`none` when nil) and the `RunQuery` of the client are
parameters; each gives the error it returns, `none` for nil. -/
def newDocIterator {PValue : Type} (codec : Codec PValue) (collID : String)
    (beforeQuery : Option (StructuredQuery PValue → Option Error))
    (runQuery : StructuredQuery PValue → Option Error) (q : Query) :
    NewDocIteratorResult PValue :=
  match queryToProto codec collID q with
  | Except.error e => { runQueryRequest := none, result := Except.error e }
  | Except.ok (sq, localFilters) =>
    match (match beforeQuery with
           | none => none
           | some callback => callback sq) with
    | some e => { runQueryRequest := none, result := Except.error e }
    | none =>
      match runQuery sq with
      | some e => { runQueryRequest := some sq, result := Except.error e }
      | none => { runQueryRequest := some sq, result := Except.ok localFilters }

/-- The five operators that `driver.Filter` permits. -/
def fiveOperators : List String := ["=", ">", "<", ">=", "<="]

/-- The Firestore operator that matches one of the five operators. -/
def matchingOperator (op : String) : Option FieldOperator :=
  if op = "=" then some FieldOperator.EQUAL
  else if op = ">" then some FieldOperator.GREATER_THAN
  else if op = "<" then some FieldOperator.LESS_THAN
  else if op = ">=" then some FieldOperator.GREATER_THAN_OR_EQUAL
  else if op = "<=" then some FieldOperator.LESS_THAN_OR_EQUAL
  else none

end firedocstore


namespace driver

/-- The items that C22 names for the errors from the index `i` on: one item for
every non-nil error, with its index, in increasing index order. -/
def nonNilItems : Nat → List (Option Error) → List ActionListErrorItem
  | _, [] => []
  | i, some e :: rest => { Index := i, Err := e } :: nonNilItems (i + 1) rest
  | i, none :: rest => nonNilItems (i + 1) rest

end driver

namespace firedocstore

open driver

/-! ## The filter splitter -/

theorem fpEqual_some_eq (p : List String) (fp : FieldPath) (h : fp ≠ none) :
    fpEqual (some p) fp = (fp == some p) := by
  cases fp with
  | none => exact absurd rfl h
  | some q =>
    by_cases hq : q = p
    · subst hq; simp [fpEqual, fpElems]
    · have hp : ¬ p = q := fun e => hq e.symm
      simp [fpEqual, fpElems, hq, hp]

theorem ne_none_of_fpLen (fp : FieldPath) (h : fpLen fp ≠ 0) : fp ≠ none := by
  intro e
  subst e
  exact h rfl

/-- Once the range field path is set, the rest of the loop keeps it and sorts
each filter by its operator and field path alone. -/
theorem foldl_splitStep_fixed (p : List String) (fs : List Filter) :
    ∀ st : SplitState, st.rangeFP = some p → (∀ f ∈ fs, f.FieldPath ≠ none) →
      fs.foldl splitStep st =
        { rangeFP := some p
          sendToFirestore := st.sendToFirestore ++
            fs.filter (fun f => f.Op == EqualOp || f.FieldPath == some p)
          evaluateLocally := st.evaluateLocally ++
            fs.filter (fun f => !(f.Op == EqualOp || f.FieldPath == some p)) } := by
  induction fs with
  | nil =>
    intro st hst _
    cases st
    simp_all
  | cons f fs ih =>
    intro st hst hfs
    have hf : f.FieldPath ≠ none := hfs f (List.mem_cons_self _ _)
    have hrest : ∀ g ∈ fs, g.FieldPath ≠ none := fun g hg => hfs g (List.mem_cons_of_mem _ hg)
    rw [List.foldl_cons]
    by_cases hop : f.Op = EqualOp
    · have hstep : splitStep st f = { st with sendToFirestore := st.sendToFirestore ++ [f] } := by
        simp [splitStep, hop]
      rw [ih (splitStep st f) (by rw [hstep]; exact hst) hrest, hstep]
      simp [hop]
    · by_cases hpath : f.FieldPath = some p
      · have hstep : splitStep st f =
            { st with rangeFP := f.FieldPath, sendToFirestore := st.sendToFirestore ++ [f] } := by
          simp [splitStep, hop, hst, hpath, fpEqual, fpElems]
        rw [ih (splitStep st f) (by rw [hstep]; exact hpath) hrest, hstep]
        simp [hpath]
      · have hstep : splitStep st f =
            { st with evaluateLocally := st.evaluateLocally ++ [f] } := by
          simp [splitStep, hop, hst, fpEqual_some_eq p f.FieldPath hf, hpath]
        rw [ih (splitStep st f) (by rw [hstep]; exact hst) hrest, hstep]
        simp [hop, hpath]

theorem firstInequality_cons_eq (f : Filter) (fs : List Filter) (h : f.Op = EqualOp) :
    firstInequality (f :: fs) = firstInequality fs := by
  simp [firstInequality, List.find?_cons, h]

theorem firstInequality_cons_ne (f : Filter) (fs : List Filter) (h : f.Op ≠ EqualOp) :
    firstInequality (f :: fs) = some f := by
  simp [firstInequality, List.find?_cons, h]

/-- While no range field path is set, the loop sorts the filters by the spec's
first-seen rule. -/
theorem foldl_splitStep_unset (fs : List Filter) :
    ∀ st : SplitState, st.rangeFP = none → (∀ f ∈ fs, f.FieldPath ≠ none) →
      (fs.foldl splitStep st).sendToFirestore =
          st.sendToFirestore ++ fs.filter (fun f => !localBySpec fs f) ∧
      (fs.foldl splitStep st).evaluateLocally =
          st.evaluateLocally ++ fs.filter (localBySpec fs) := by
  induction fs with
  | nil => intro st _ _; simp
  | cons f fs ih =>
    intro st hst hfs
    have hf : f.FieldPath ≠ none := hfs f (List.mem_cons_self _ _)
    have hrest : ∀ g ∈ fs, g.FieldPath ≠ none := fun g hg => hfs g (List.mem_cons_of_mem _ hg)
    rw [List.foldl_cons]
    by_cases hop : f.Op = EqualOp
    · have hstep : splitStep st f = { st with sendToFirestore := st.sendToFirestore ++ [f] } := by
        simp [splitStep, hop]
      have hloc : localBySpec (f :: fs) = localBySpec fs := by
        funext g; simp [localBySpec, firstInequality_cons_eq f fs hop]
      have hself : localBySpec fs f = false := by
        unfold localBySpec
        cases firstInequality fs <;> simp [hop]
      obtain ⟨h1, h2⟩ := ih (splitStep st f) (by rw [hstep]; exact hst) hrest
      rw [h1, h2, hstep]
      simp [List.filter_cons, hloc, hself]
    · obtain ⟨q, hq⟩ := Option.ne_none_iff_exists'.mp hf
      have hstep : splitStep st f =
          { st with rangeFP := f.FieldPath, sendToFirestore := st.sendToFirestore ++ [f] } := by
        simp [splitStep, hop, hst]
      have hloc : ∀ g, localBySpec (f :: fs) g = (g.Op != EqualOp && g.FieldPath != some q) := by
        intro g; simp [localBySpec, firstInequality_cons_ne f fs hop, hq]
      have hfun1 : (fun g => !localBySpec (f :: fs) g) =
          (fun g : Filter => g.Op == EqualOp || g.FieldPath == some q) := by
        funext g
        rw [hloc g]
        by_cases h1 : g.Op = EqualOp <;> by_cases h2 : g.FieldPath = some q <;> simp [bne, h1, h2]
      have hfun2 : localBySpec (f :: fs) =
          (fun g : Filter => !(g.Op == EqualOp || g.FieldPath == some q)) := by
        funext g
        rw [hloc g]
        by_cases h1 : g.Op = EqualOp <;> by_cases h2 : g.FieldPath = some q <;> simp [bne, h1, h2]
      rw [foldl_splitStep_fixed q fs (splitStep st f) (by rw [hstep]; exact hq) hrest, hstep]
      rw [hfun1, hfun2]
      simp [List.filter_cons, hop, hq]

/-- On field paths that are not nil, `splitFilters` is the spec's rule applied
to each filter in turn. -/
theorem splitFilters_eq_filter (fs : List Filter) (h : ∀ f ∈ fs, f.FieldPath ≠ none) :
    splitFilters fs = (fs.filter (fun f => !localBySpec fs f), fs.filter (localBySpec fs)) := by
  obtain ⟨h1, h2⟩ := foldl_splitStep_unset fs
    { rangeFP := none, sendToFirestore := [], evaluateLocally := [] } rfl h
  simp only [splitFilters]
  rw [h1, h2]
  simp

theorem firstInequality_some (fs : List Filter) (g : Filter) (h : firstInequality fs = some g) :
    g ∈ fs ∧ g.Op ≠ EqualOp := by
  unfold firstInequality at h
  refine ⟨List.mem_of_find?_eq_some h, ?_⟩
  have := List.find?_some h
  simpa using this

theorem firstInequality_exists (fs : List Filter) (f : Filter) (hf : f ∈ fs)
    (hop : f.Op ≠ EqualOp) : ∃ g, firstInequality fs = some g := by
  cases hfi : firstInequality fs with
  | some g => exact ⟨g, rfl⟩
  | none =>
    unfold firstInequality at hfi
    rw [List.find?_eq_none] at hfi
    have := hfi f hf
    simp [hop] at this

theorem localBySpec_iff (fs : List Filter) (f : Filter) :
    localBySpec fs f = true ↔
      f.Op ≠ EqualOp ∧ ∃ g, firstInequality fs = some g ∧ f.FieldPath ≠ g.FieldPath := by
  unfold localBySpec
  cases firstInequality fs with
  | none => simp
  | some g => simp

/-- The loop of `splitFilters`, from any state, only appends: what it appends to
the two lists are subsequences of the input that together hold every filter
occurrence of the input once. -/
theorem foldl_splitStep_partition (fs : List Filter) :
    ∀ st : SplitState, ∃ a b : List Filter,
      (fs.foldl splitStep st).sendToFirestore = st.sendToFirestore ++ a ∧
      (fs.foldl splitStep st).evaluateLocally = st.evaluateLocally ++ b ∧
      a.Sublist fs ∧ b.Sublist fs ∧ (a ++ b).Perm fs ∧ a.length + b.length = fs.length := by
  induction fs with
  | nil => intro st; exact ⟨[], [], by simp⟩
  | cons f fs ih =>
    intro st
    obtain ⟨a, b, h1, h2, h3, h4, h5, h6⟩ := ih (splitStep st f)
    rw [List.foldl_cons]
    by_cases hop : f.Op = EqualOp
    · refine ⟨f :: a, b, ?_, ?_, h3.cons₂ f, h4.cons f, ?_, ?_⟩
      · rw [h1]; simp [splitStep, hop]
      · rw [h2]; simp [splitStep, hop]
      · simpa using h5
      · simp; omega
    · by_cases hr : (st.rangeFP = none || fpEqual st.rangeFP f.FieldPath) = true
      · refine ⟨f :: a, b, ?_, ?_, h3.cons₂ f, h4.cons f, ?_, ?_⟩
        · rw [h1]; simp only [splitStep, if_neg hop, if_pos hr]; simp
        · rw [h2]; simp only [splitStep, if_neg hop, if_pos hr]
        · simpa using h5
        · simp; omega
      · refine ⟨a, f :: b, ?_, ?_, h3.cons f, h4.cons₂ f, ?_, ?_⟩
        · rw [h1]; simp only [splitStep, if_neg hop, if_neg hr]
        · rw [h2]; simp only [splitStep, if_neg hop, if_neg hr]; simp
        · exact (List.perm_middle).trans (h5.cons f)
        · simp; omega

/-- C1: for every filter list whose field paths are non-empty, `splitFilters`
classifies by the greedy first-seen rule. The local list is the input filtered by
the rule and the native list is the input filtered by its negation, both in input
order; so a filter is in the local list if and only if it is an input filter
whose operator is not `=` and whose field path differs from the field path of the
first non-equality filter of the input, and every other input filter is in the
native list. -/
theorem splitFilters_greedy_first_seen (fs : List Filter)
    (h : ∀ f ∈ fs, fpLen f.FieldPath ≠ 0) :
    (splitFilters fs).1 = fs.filter (fun f => !localBySpec fs f) ∧
    (splitFilters fs).2 = fs.filter (localBySpec fs) ∧
    (∀ f, f ∈ (splitFilters fs).2 ↔
      f ∈ fs ∧ f.Op ≠ EqualOp ∧
        ∃ g, firstInequality fs = some g ∧ f.FieldPath ≠ g.FieldPath) ∧
    (∀ f, f ∈ (splitFilters fs).1 ↔
      f ∈ fs ∧ ¬ (f.Op ≠ EqualOp ∧
        ∃ g, firstInequality fs = some g ∧ f.FieldPath ≠ g.FieldPath)) := by
  have hsplit := splitFilters_eq_filter fs (fun f hf => ne_none_of_fpLen _ (h f hf))
  refine ⟨by rw [hsplit], by rw [hsplit], ?_, ?_⟩
  · intro f
    rw [hsplit]
    simp only [List.mem_filter, localBySpec_iff]
  · intro f
    rw [hsplit]
    simp only [List.mem_filter, Bool.not_eq_true', ← Bool.not_eq_true, localBySpec_iff]

/-- C1, at the spec's example: `[A = 1, B > 1, C < 2]` has non-empty field paths,
is split by the first-seen rule, and gives native `[A = 1, B > 1]` and local
`[C < 2]`. -/
theorem splitFilters_greedy_first_seen_witness :
    (∀ f ∈ exampleFilters, fpLen f.FieldPath ≠ 0) ∧
    ((splitFilters exampleFilters).1 =
        exampleFilters.filter (fun f => !localBySpec exampleFilters f) ∧
      (splitFilters exampleFilters).2 = exampleFilters.filter (localBySpec exampleFilters)) ∧
    splitFilters exampleFilters =
      ([ { FieldPath := some ["A"], Op := "=", Value := Value.int 1 },
         { FieldPath := some ["B"], Op := ">", Value := Value.int 1 } ],
       [ { FieldPath := some ["C"], Op := "<", Value := Value.int 2 } ]) :=
  ⟨by decide,
   ⟨(splitFilters_greedy_first_seen exampleFilters (by decide)).1,
    (splitFilters_greedy_first_seen exampleFilters (by decide)).2.1⟩,
   by decide⟩

/-- C2: for every filter list whose field paths are non-empty, the native list
returned by `splitFilters` carries non-equality operators on at most one field
path: any two of its non-equality filters have equal field paths. -/
theorem splitFilters_native_one_inequality_field (fs : List Filter)
    (h : ∀ f ∈ fs, fpLen f.FieldPath ≠ 0) :
    oneInequalityField (splitFilters fs).1 := by
  have hsplit := splitFilters_eq_filter fs (fun f hf => ne_none_of_fpLen _ (h f hf))
  rw [hsplit]
  have key : ∀ f ∈ fs.filter (fun f => !localBySpec fs f), f.Op ≠ EqualOp →
      ∃ g, firstInequality fs = some g ∧ f.FieldPath = g.FieldPath := by
    intro f hf hop
    rw [List.mem_filter] at hf
    obtain ⟨g, hg⟩ := firstInequality_exists fs f hf.1 hop
    refine ⟨g, hg, ?_⟩
    by_contra hne
    have hl : localBySpec fs f = true := (localBySpec_iff fs f).mpr ⟨hop, g, hg, hne⟩
    simp [hl] at hf
  intro f hf g hg hfop hgop
  obtain ⟨a, ha, hfa⟩ := key f hf hfop
  obtain ⟨b, hb, hgb⟩ := key g hg hgop
  rw [ha] at hb
  cases hb
  rw [hfa, hgb]

/-- C2, at the filter list `[A = 1, B > 1, C < 2]`. -/
theorem splitFilters_native_one_inequality_field_witness :
    (∀ f ∈ exampleFilters, fpLen f.FieldPath ≠ 0) ∧
    oneInequalityField (splitFilters exampleFilters).1 :=
  ⟨by decide, splitFilters_native_one_inequality_field exampleFilters (by decide)⟩

/-- C3: `splitFilters` is an order-preserving partition of its input, for every
filter list: the native list and the local list are subsequences of the input in
input order, together they hold each filter occurrence of the input exactly once
(the two lists appended are a permutation of the input, and their lengths sum to
the input length), and every filter of either list is a filter of the input. -/
theorem splitFilters_order_preserving_partition (fs : List Filter) :
    (splitFilters fs).1.Sublist fs ∧
    (splitFilters fs).2.Sublist fs ∧
    ((splitFilters fs).1 ++ (splitFilters fs).2).Perm fs ∧
    (splitFilters fs).1.length + (splitFilters fs).2.length = fs.length ∧
    (∀ f, f ∈ (splitFilters fs).1 ∨ f ∈ (splitFilters fs).2 ↔ f ∈ fs) := by
  obtain ⟨a, b, h1, h2, h3, h4, h5, h6⟩ := foldl_splitStep_partition fs
    { rangeFP := none, sendToFirestore := [], evaluateLocally := [] }
  have e1 : (splitFilters fs).1 = a := by simpa [splitFilters] using h1
  have e2 : (splitFilters fs).2 = b := by simpa [splitFilters] using h2
  rw [e1, e2]
  refine ⟨h3, h4, h5, h6, ?_⟩
  intro f
  rw [← List.mem_append]
  exact h5.mem_iff

/-- C4: the native list returned by `splitFilters` is a maximal eligible subset
of the input, for every filter list whose field paths are non-empty: the native
list obeys the one-inequality-field rule, and the native list with any filter of
the local list added breaks it. -/
theorem splitFilters_native_maximal (fs : List Filter)
    (h : ∀ f ∈ fs, fpLen f.FieldPath ≠ 0) :
    oneInequalityField (splitFilters fs).1 ∧
    ∀ f ∈ (splitFilters fs).2, ¬ oneInequalityField ((splitFilters fs).1 ++ [f]) := by
  have hsplit := splitFilters_eq_filter fs (fun f hf => ne_none_of_fpLen _ (h f hf))
  refine ⟨?_, ?_⟩
  · rw [hsplit]
    intro f hf g hg hfop hgop
    rw [List.mem_filter] at hf hg
    obtain ⟨a, ha⟩ := firstInequality_exists fs f hf.1 hfop
    have hfa : f.FieldPath = a.FieldPath := by
      by_contra hne
      have hl : localBySpec fs f = true := (localBySpec_iff fs f).mpr ⟨hfop, a, ha, hne⟩
      simp [hl] at hf
    have hga : g.FieldPath = a.FieldPath := by
      by_contra hne
      have hl : localBySpec fs g = true := (localBySpec_iff fs g).mpr ⟨hgop, a, ha, hne⟩
      simp [hl] at hg
    rw [hfa, hga]
  · rw [hsplit]
    intro f hf hone
    rw [List.mem_filter] at hf
    obtain ⟨hop, g, hg, hne⟩ := (localBySpec_iff fs f).mp hf.2
    obtain ⟨hgmem, hgop⟩ := firstInequality_some fs g hg
    have hgnat : g ∈ fs.filter (fun f => !localBySpec fs f) := by
      rw [List.mem_filter]
      refine ⟨hgmem, ?_⟩
      have : localBySpec fs g = false := by
        rw [← Bool.not_eq_true, localBySpec_iff]
        rintro ⟨_, g2, hg2, hne2⟩
        rw [hg] at hg2
        cases hg2
        exact hne2 rfl
      simp [this]
    exact hne (hone f (by simp) g (by simp [hgnat]) hop hgop)

/-- C4, at the filter list `[A = 1, B > 1, C < 2]`. -/
theorem splitFilters_native_maximal_witness :
    (∀ f ∈ exampleFilters, fpLen f.FieldPath ≠ 0) ∧
    oneInequalityField (splitFilters exampleFilters).1 ∧
    ∀ f ∈ (splitFilters exampleFilters).2,
      ¬ oneInequalityField ((splitFilters exampleFilters).1 ++ [f]) :=
  ⟨by decide, splitFilters_native_maximal exampleFilters (by decide)⟩

end firedocstore

namespace dynamodocstore

open driver

/-! ## The planner -/

theorem find?_never {α : Type} (l : List α) : l.find? (fun _ => false) = none := by
  induction l with
  | nil => rfl
  | cons a l ih => simp [List.find?_cons, ih]

theorem find?_holds {α : Type} (p : α → Bool) (l : List α) (a : α)
    (h : l.find? p = some a) : p a = true :=
  List.find?_some h

theorem fieldName_single (s : String) : fieldName (some [s]) = s := rfl

theorem hasEqualityFilter_iff (q : Query) (field : String) :
    hasEqualityFilter q field = true ↔
      ∃ f ∈ q.Filters, f.Op = EqualOp ∧ fieldName f.FieldPath = field := by
  simp [hasEqualityFilter, List.any_eq_true]

theorem hasFilter_iff (q : Query) (field : String) :
    hasFilter q field = true ↔
      field ≠ "" ∧ ∃ f ∈ q.Filters, fieldName f.FieldPath = field := by
  simp [hasFilter, List.any_eq_true]

theorem requiredFieldPaths_isEmpty (q : Query) :
    (requiredFieldPaths q).isEmpty = q.FieldPaths.isEmpty := by
  unfold requiredFieldPaths
  cases hq : q.FieldPaths with
  | nil => simp
  | cons a l =>
    by_cases hr : ((a :: l).any (fun fp => fieldName fp == RevisionField)) = true
    · simp only [List.isEmpty_cons, if_pos hr]
      simp
    · simp only [List.isEmpty_cons, if_neg hr]
      simp

theorem planQuery_of_scan (c : collection) (q : Query)
    (h : bestQueryable c { q with FieldPaths := requiredFieldPaths q } = none) :
    planQuery c q = Except.ok (tableScan c q q.Filters) := by
  simp only [planQuery, h, tableScan]

theorem planQuery_of_table (c : collection) (q : Query) (pkey skey : String)
    (h : bestQueryable c { q with FieldPaths := requiredFieldPaths q }
      = some (none, pkey, skey)) :
    planQuery c q = Except.ok (tableQuery c q
      (q.Filters.filter (isKeyCondition pkey skey))
      (q.Filters.filter (fun f => !isKeyCondition pkey skey f))) := by
  simp only [planQuery, h, tableQuery]

theorem planQuery_of_index (c : collection) (q : Query) (i : IndexDescription)
    (h : bestQueryable c { q with FieldPaths := requiredFieldPaths q } = useIndex i) :
    planQuery c q = Except.ok (indexQuery c q i) := by
  simp only [useIndex] at h
  simp only [planQuery, h, indexQuery]

theorem queryPlan_tableScan (c : collection) (q : Query) (fe : List Filter) :
    (tableScan c q fe).queryPlan = "Scan" := rfl

theorem queryPlan_tableQuery (c : collection) (q : Query) (kc fe : List Filter) :
    (tableQuery c q kc fe).queryPlan = "Table" := rfl

theorem queryPlan_indexQuery (c : collection) (q : Query) (i : IndexDescription) :
    (indexQuery c q i).queryPlan = "Index: \"" ++ i.IndexName ++ "\"" := rfl

/-- The model of the planner gives the plans that the first eight cases of
`TestPlanQuery` expect. -/
theorem TestPlanQuery_cases_table :
    planSummary (planQuery (testCollection "" "" none "" "" none) (testQuery [] []))
      = some ("Scan", none, [], [], []) ∧
    planSummary (planQuery (testCollection "" "" none "" "" none)
        (testQuery [] [testFilter "tableP" "="]))
      = some ("Table", none, ["tableP"], [], []) ∧
    planSummary (planQuery (testCollection "tableS" "" none "" "" none)
        (testQuery [] [testFilter "tableP" "="]))
      = some ("Table", none, ["tableP"], [], []) ∧
    planSummary (planQuery (testCollection "" "" none "" "" none)
        (testQuery [] [testFilter "other" "="]))
      = some ("Scan", none, [], ["other"], []) ∧
    planSummary (planQuery (testCollection "" "" none "" "" none)
        (testQuery [] [testFilter "tableP" ">"]))
      = some ("Scan", none, [], ["tableP"], []) ∧
    planSummary (planQuery (testCollection "" "" none "" "" none)
        (testQuery [] [testFilter "tableP" "=", testFilter "other" "<="]))
      = some ("Table", none, ["tableP"], ["other"], []) ∧
    planSummary (planQuery (testCollection "tableS" "" none "" "" none)
        (testQuery [] [testFilter "tableP" "=", testFilter "tableS" "<="]))
      = some ("Table", none, ["tableP", "tableS"], [], []) ∧
    planSummary (planQuery (testCollection "tableS" "localS" none "" "" none)
        (testQuery [] [testFilter "tableP" "=", testFilter "localS" "<=",
          testFilter "tableS" ">"]))
      = some ("Table", none, ["tableP", "tableS"], ["localS"], []) :=
  ⟨rfl, rfl, rfl, rfl, rfl, rfl, rfl, rfl⟩

/-- The model of the planner gives the plans that the cases of `TestPlanQuery`
with a secondary index expect. -/
theorem TestPlanQuery_cases_index :
    planSummary (planQuery (testCollection "" "localS" none "" "" none)
        (testQuery [] [testFilter "tableP" "=", testFilter "localS" "<="]))
      = some ("Index: \"local\"", some "local", ["tableP", "localS"], [], []) ∧
    planSummary (planQuery (testCollection "" "localS" (some []) "" "" none)
        (testQuery [] [testFilter "tableP" "=", testFilter "localS" "<="]))
      = some ("Table", none, ["tableP"], ["localS"], []) ∧
    planSummary (planQuery (testCollection "" "localS" (some []) "" "" none)
        (testQuery ["tableP", "localS"] [testFilter "tableP" "=", testFilter "localS" "<="]))
      = some ("Index: \"local\"", some "local", ["tableP", "localS"], [],
          ["tableP", "localS", "DocstoreRevision"]) ∧
    planSummary (planQuery (testCollection "" "" none "other" "" none)
        (testQuery [] [testFilter "other" "="]))
      = some ("Index: \"global\"", some "global", ["other"], [], []) ∧
    planSummary (planQuery (testCollection "" "" none "tableP" "globalS" none)
        (testQuery [] [testFilter "tableP" "=", testFilter "globalS" "<="]))
      = some ("Index: \"global\"", some "global", ["tableP", "globalS"], [], []) ∧
    planSummary (planQuery (testCollection "" "" none "tableP" "globalS" (some ["other"]))
        (testQuery [] [testFilter "tableP" "=", testFilter "globalS" "<="]))
      = some ("Table", none, ["tableP"], ["globalS"], []) ∧
    planSummary (planQuery (testCollection "" "" none "tableP" "globalS" (some ["other"]))
        (testQuery ["other"] [testFilter "tableP" "=", testFilter "globalS" "<="]))
      = some ("Table", none, ["tableP"], ["globalS"], ["other", "DocstoreRevision"]) ∧
    planSummary (planQuery (testCollection "" "" none "tableP" "globalS"
          (some ["other", "DocstoreRevision"]))
        (testQuery ["other"] [testFilter "tableP" "=", testFilter "globalS" "<="]))
      = some ("Index: \"global\"", some "global", ["tableP", "globalS"], [],
          ["other", "DocstoreRevision"]) :=
  ⟨rfl, rfl, rfl, rfl, rfl, rfl, rfl, rfl⟩

/-- The model of `globalFieldsIncluded` gives the results that
`TestGlobalFieldsIncluded` expects: for each list of query fields, the coverage
by an ALL, a KEYS_ONLY and an INCLUDE `f`, `g` projection. -/
theorem TestGlobalFieldsIncluded_cases :
    [[], ["tableS", "globalP"], ["f", "g"], ["f", "g", "tableP", "globalS"],
        ["f", "g", "h"]].map
      (fun queryFields => [none, some [], some ["f", "g"]].map (fun fields =>
        globalFieldsIncluded
          { table := "T", partitionKey := "tableP", sortKey := "tableS",
            LocalSecondaryIndexes := [], GlobalSecondaryIndexes := [] }
          (testQuery queryFields [])
          { IndexName := "global", PartitionKey := "globalP", SortKey := "globalS",
            Projection := indexProjection fields }))
    = [[true, false, false], [true, true, true], [true, false, true],
       [true, false, true], [true, false, false]] := by
  decide

theorem consistent_local (c : collection) (hc : c.consistent = true)
    (li : IndexDescription) (hli : li ∈ c.LocalSecondaryIndexes) :
    li.PartitionKey = c.partitionKey ∧ li.SortKey ≠ li.PartitionKey := by
  simp only [collection.consistent, Bool.and_eq_true, List.all_eq_true] at hc
  have := hc.1 li hli
  simpa using this

theorem consistent_global (c : collection) (hc : c.consistent = true)
    (gi : IndexDescription) (hgi : gi ∈ c.GlobalSecondaryIndexes) :
    gi.SortKey ≠ gi.PartitionKey := by
  simp only [collection.consistent, Bool.and_eq_true, List.all_eq_true] at hc
  have := hc.2 gi hgi
  simpa using this

/-- The planner queries the table when the table is eligible and no secondary
index is eligible with a filter on its sort key and a covering projection. -/
theorem bestQueryable_table (c : collection) (q : Query)
    (ht : hasEqualityFilter q c.partitionKey = true)
    (hl : ∀ li ∈ c.LocalSecondaryIndexes,
      (hasEqualityFilter q li.PartitionKey && hasFilter q li.SortKey
        && localFieldsIncluded q li) = false)
    (hg : ∀ gi ∈ c.GlobalSecondaryIndexes,
      (hasEqualityFilter q gi.PartitionKey && hasFilter q gi.SortKey
        && globalFieldsIncluded c q gi) = false) :
    bestQueryable c q = some (none, c.partitionKey, c.sortKey) := by
  have h1 : c.LocalSecondaryIndexes.find? (fun li =>
      hasEqualityFilter q li.PartitionKey && hasFilter q li.SortKey
        && localFieldsIncluded q li) = none := by
    rw [List.find?_eq_none]
    intro li hli hp
    rw [hl li hli] at hp
    exact absurd hp (by simp)
  have h2 : c.GlobalSecondaryIndexes.find? (fun gi =>
      hasEqualityFilter q gi.PartitionKey && hasFilter q gi.SortKey
        && globalFieldsIncluded c q gi) = none := by
    rw [List.find?_eq_none]
    intro gi hgi hp
    rw [hg gi hgi] at hp
    exact absurd hp (by simp)
  unfold bestQueryable
  rw [h1, h2]
  simp [ht]

/-- The planner queries the first local index when that index is eligible with a
filter on its sort key and a covering projection, and the table has no filter on
a sort key of its own. -/
theorem bestQueryable_local_head (c : collection) (q : Query) (li : IndexDescription)
    (rest : List IndexDescription) (hc : c.LocalSecondaryIndexes = li :: rest)
    (ht : hasFilter q c.sortKey = false)
    (h1 : hasEqualityFilter q li.PartitionKey = true)
    (h2 : hasFilter q li.SortKey = true)
    (h3 : localFieldsIncluded q li = true) :
    bestQueryable c q = useIndex li := by
  unfold bestQueryable
  rw [hc]
  simp [ht, List.find?_cons, h1, h2, h3]

/-- C5: for every query whose only filter is an equality filter on the table
partition key, on every table, with or without a sort key, and every consistent
index catalog, `planQuery` succeeds with a query on the table itself, not a scan:
a `QueryInput` without index name whose key condition is the partition-key
filter, with no filter expression, and the plan description is `Table`. -/
theorem planQuery_partition_equality_is_table_query (c : collection) (q : Query)
    (f : Filter) (hc : c.consistent = true) (hq : q.Filters = [f])
    (hop : f.Op = EqualOp) (hfield : fieldName f.FieldPath = c.partitionKey) :
    planQuery c q = Except.ok (tableQuery c q [f] []) ∧
    (tableQuery c q [f] []).scanIn = none ∧
    (tableQuery c q [f] []).queryPlan = "Table" := by
  refine ⟨?_, rfl, rfl⟩
  have hE : ∀ x, hasEqualityFilter { q with FieldPaths := requiredFieldPaths q } x = true
      ↔ c.partitionKey = x := by
    intro x
    rw [hasEqualityFilter_iff]
    simp [hq, hop, hfield]
  have hF : ∀ x, hasFilter { q with FieldPaths := requiredFieldPaths q } x = true
      → c.partitionKey = x := by
    intro x hx
    rw [hasFilter_iff] at hx
    simpa [hq, hfield] using hx.2
  have hb := bestQueryable_table c { q with FieldPaths := requiredFieldPaths q }
    ((hE _).mpr rfl)
    (fun li hli => by
      rw [← Bool.not_eq_true]
      intro hp
      simp only [Bool.and_eq_true] at hp
      exact (consistent_local c hc li hli).2
        (((hF _ hp.1.2).symm).trans ((hE _).mp hp.1.1)))
    (fun gi hgi => by
      rw [← Bool.not_eq_true]
      intro hp
      simp only [Bool.and_eq_true] at hp
      exact consistent_global c hc gi hgi
        (((hF _ hp.1.2).symm).trans ((hE _).mp hp.1.1)))
  rw [planQuery_of_table c q _ _ hb, hq]
  simp [isKeyCondition, hfield]

/-- C5, at the table of `TestPlanQuery` with a sort key, a local index and a
global index, for the query `tableP = 1`. -/
theorem planQuery_partition_equality_is_table_query_witness :
    (exampleCollection.consistent = true ∧
      (testFilter "tableP" "=").Op = EqualOp ∧
      fieldName (testFilter "tableP" "=").FieldPath = exampleCollection.partitionKey) ∧
    (planQuery exampleCollection ⟨[], [testFilter "tableP" "="], 0⟩
        = Except.ok (tableQuery exampleCollection ⟨[], [testFilter "tableP" "="], 0⟩
            [testFilter "tableP" "="] []) ∧
      (tableQuery exampleCollection ⟨[], [testFilter "tableP" "="], 0⟩
        [testFilter "tableP" "="] []).scanIn = none ∧
      (tableQuery exampleCollection ⟨[], [testFilter "tableP" "="], 0⟩
        [testFilter "tableP" "="] []).queryPlan = "Table") :=
  ⟨⟨by decide, rfl, rfl⟩,
   planQuery_partition_equality_is_table_query exampleCollection
     ⟨[], [testFilter "tableP" "="], 0⟩ (testFilter "tableP" "=") (by decide) rfl rfl rfl⟩

/-- C6: for every query with no filters, whatever its field paths and limit, and
for every table and index topology, `planQuery` succeeds with a full scan: a
`ScanInput` on the table whose filter expression is empty and no `QueryInput`,
and the plan description is `Scan`. -/
theorem planQuery_no_filters_is_scan (c : collection) (fps : List FieldPath) (limit : Int) :
    planQuery c ⟨fps, [], limit⟩ = Except.ok (tableScan c ⟨fps, [], limit⟩ []) ∧
    (tableScan c ⟨fps, [], limit⟩ []).queryIn = none ∧
    (∃ si, (tableScan c ⟨fps, [], limit⟩ []).scanIn = some si ∧
      si.TableName = c.table ∧ si.FilterExpression = []) ∧
    (tableScan c ⟨fps, [], limit⟩ []).queryPlan = "Scan" := by
  refine ⟨?_, rfl, ⟨_, rfl, rfl, rfl⟩, rfl⟩
  have hb : bestQueryable c
      { (⟨fps, [], limit⟩ : Query) with FieldPaths := requiredFieldPaths ⟨fps, [], limit⟩ }
      = none := by
    simp [bestQueryable, hasEqualityFilter, find?_never]
  exact planQuery_of_scan c ⟨fps, [], limit⟩ hb

theorem find?_eq_some_split {α : Type} (p : α → Bool) (l : List α) (a : α)
    (h : l.find? p = some a) :
    p a = true ∧ ∃ pre post, l = pre ++ a :: post ∧ ∀ x ∈ pre, p x = false := by
  induction l with
  | nil => simp at h
  | cons b l ih =>
    by_cases hb : p b = true
    · simp only [List.find?_cons, hb, Option.some.injEq] at h
      subst h
      exact ⟨hb, [], l, rfl, fun x hx => by cases hx⟩
    · have hb2 : p b = false := by simpa using hb
      simp only [List.find?_cons, hb2] at h
      obtain ⟨ha, pre, post, hl, hpre⟩ := ih h
      refine ⟨ha, b :: pre, post, by rw [hl]; rfl, ?_⟩
      intro x hx
      rcases List.mem_cons.mp hx with rfl | hx
      · exact hb2
      · exact hpre x hx

/-- With no equality filter on the table partition key and an equality filter on
the partition key of some global index, the planner chooses a global index: the
first, in declaration order, that passes the test of item 3, and when there is
none the first whose partition key has an equality filter. -/
theorem bestQueryable_global (c : collection) (q : Query) (gi : IndexDescription)
    (hc : c.consistent = true) (hgi : gi ∈ c.GlobalSecondaryIndexes)
    (heq : ∃ f ∈ q.Filters, f.Op = EqualOp ∧ fieldName f.FieldPath = gi.PartitionKey)
    (hnt : ¬ ∃ f ∈ q.Filters, f.Op = EqualOp ∧ fieldName f.FieldPath = c.partitionKey) :
    ∃ pre gj post, c.GlobalSecondaryIndexes = pre ++ gj :: post ∧
      hasEqualityFilter q gj.PartitionKey = true ∧
      ((globalKeysMatch c q gj = true ∧ ∀ g ∈ pre, globalKeysMatch c q g = false) ∨
        ((∀ g ∈ c.GlobalSecondaryIndexes, globalKeysMatch c q g = false) ∧
          ∀ g ∈ pre, hasEqualityFilter q g.PartitionKey = false)) ∧
      bestQueryable c { q with FieldPaths := requiredFieldPaths q } = useIndex gj := by
  have hE : ∀ x, hasEqualityFilter { q with FieldPaths := requiredFieldPaths q } x = true ↔
      ∃ f ∈ q.Filters, f.Op = EqualOp ∧ fieldName f.FieldPath = x :=
    fun x => hasEqualityFilter_iff _ x
  have hT : hasEqualityFilter { q with FieldPaths := requiredFieldPaths q } c.partitionKey
      = false := by
    rw [← Bool.not_eq_true, hE]
    exact hnt
  have hL : c.LocalSecondaryIndexes.find? (fun li =>
      hasEqualityFilter { q with FieldPaths := requiredFieldPaths q } li.PartitionKey
        && hasFilter { q with FieldPaths := requiredFieldPaths q } li.SortKey
        && localFieldsIncluded { q with FieldPaths := requiredFieldPaths q } li) = none := by
    rw [List.find?_eq_none]
    intro li hli hp
    simp only [Bool.and_eq_true] at hp
    rw [(consistent_local c hc li hli).1, hT] at hp
    exact absurd hp.1.1 (by simp)
  unfold bestQueryable
  rw [hL, hT]
  simp only [Bool.false_and, Bool.false_eq_true, if_false]
  cases h3 : c.GlobalSecondaryIndexes.find? (fun gi =>
      hasEqualityFilter { q with FieldPaths := requiredFieldPaths q } gi.PartitionKey
        && hasFilter { q with FieldPaths := requiredFieldPaths q } gi.SortKey
        && globalFieldsIncluded c { q with FieldPaths := requiredFieldPaths q } gi) with
  | some gj =>
    obtain ⟨hp, pre, post, hl, hpre⟩ := find?_eq_some_split _ _ gj h3
    have hp2 := hp
    simp only [Bool.and_eq_true] at hp2
    exact ⟨pre, gj, post, hl, hp2.1.1, Or.inl ⟨hp, hpre⟩, rfl⟩
  | none =>
    have hnone : ∀ g ∈ c.GlobalSecondaryIndexes, globalKeysMatch c q g = false := by
      intro g hg
      rw [List.find?_eq_none] at h3
      have := h3 g hg
      rw [← Bool.not_eq_true]
      exact this
    cases h5 : c.GlobalSecondaryIndexes.find? (fun gi =>
        hasEqualityFilter { q with FieldPaths := requiredFieldPaths q } gi.PartitionKey) with
    | some gj =>
      obtain ⟨hp, pre, post, hl, hpre⟩ := find?_eq_some_split _ _ gj h5
      exact ⟨pre, gj, post, hl, hp, Or.inr ⟨hnone, hpre⟩, rfl⟩
    | none =>
      rw [List.find?_eq_none] at h5
      exact absurd ((hE _).mpr heq) (h5 gi hgi)

/-- C7, as amended: for every query that has an equality filter on the partition
key of a global secondary index `gi` and no equality filter on the table
partition key, on a consistent index catalog, `planQuery` succeeds with a query
on one global index `gj` whose partition key has an equality filter in the
query. The index `gj` is the first one, in declaration order, whose partition key
has an equality filter, whose sort key has a filter and whose projection covers
the query; when no global index is such, it is the first one, in declaration
order, whose partition key has an equality filter. The `QueryInput` names `gj`,
every equality filter on the partition key of `gj` is in its key condition, and
the plan description is `Index: "<name of gj>"`. The chosen `gj` is `gi` itself
when `gi` is the only global index whose partition key has an equality filter. -/
theorem planQuery_global_index_selected (c : collection) (q : Query) (gi : IndexDescription)
    (hc : c.consistent = true) (hgi : gi ∈ c.GlobalSecondaryIndexes)
    (heq : ∃ f ∈ q.Filters, f.Op = EqualOp ∧ fieldName f.FieldPath = gi.PartitionKey)
    (hnt : ¬ ∃ f ∈ q.Filters, f.Op = EqualOp ∧ fieldName f.FieldPath = c.partitionKey) :
    ∃ pre gj post, c.GlobalSecondaryIndexes = pre ++ gj :: post ∧
      (∃ f ∈ q.Filters, f.Op = EqualOp ∧ fieldName f.FieldPath = gj.PartitionKey) ∧
      ((globalKeysMatch c q gj = true ∧ ∀ g ∈ pre, globalKeysMatch c q g = false) ∨
        ((∀ g ∈ c.GlobalSecondaryIndexes, globalKeysMatch c q g = false) ∧
          ∀ g ∈ pre, ¬ ∃ f ∈ q.Filters,
            f.Op = EqualOp ∧ fieldName f.FieldPath = g.PartitionKey)) ∧
      planQuery c q = Except.ok (indexQuery c q gj) ∧
      (indexQuery c q gj).scanIn = none ∧
      (∃ qi, (indexQuery c q gj).queryIn = some qi ∧
        qi.IndexName = some gj.IndexName ∧
        ∀ f ∈ q.Filters, f.Op = EqualOp → fieldName f.FieldPath = gj.PartitionKey →
          f ∈ qi.KeyConditionExpression) ∧
      (indexQuery c q gj).queryPlan = "Index: \"" ++ gj.IndexName ++ "\"" ∧
      ((∀ g ∈ c.GlobalSecondaryIndexes,
          (∃ f ∈ q.Filters, f.Op = EqualOp ∧ fieldName f.FieldPath = g.PartitionKey) → g = gi)
        → gj = gi) := by
  obtain ⟨pre, gj, post, hl, hgjE, hsel, hb⟩ := bestQueryable_global c q gi hc hgi heq hnt
  have hgj : gj ∈ c.GlobalSecondaryIndexes := by
    rw [hl]
    exact List.mem_append_right _ (List.mem_cons_self _ _)
  have hgjE2 := (hasEqualityFilter_iff q gj.PartitionKey).mp hgjE
  refine ⟨pre, gj, post, hl, hgjE2, ?_, planQuery_of_index c q gj hb, rfl, ?_, rfl, ?_⟩
  · rcases hsel with h | ⟨h1, h2⟩
    · exact Or.inl h
    · refine Or.inr ⟨h1, ?_⟩
      intro g hg hex
      have := h2 g hg
      rw [(hasEqualityFilter_iff q g.PartitionKey).mpr hex] at this
      cases this
  · refine ⟨_, rfl, rfl, ?_⟩
    intro f hf _ hfield
    simp [List.mem_filter, hf, isKeyCondition, hfield]
  · intro huniq
    exact huniq gj hgj hgjE2

/-- C7, at the collection of `TestPlanQuery` whose only global index is keyed on
`other`, for the query `other = 1`: the plan is `Index: "global"`. -/
theorem planQuery_global_index_selected_witness :
    (exampleCollection.consistent = true ∧
      globalIndexOther ∈ exampleCollection.GlobalSecondaryIndexes ∧
      (∃ f ∈ [testFilter "other" "="],
        f.Op = EqualOp ∧ fieldName f.FieldPath = globalIndexOther.PartitionKey) ∧
      ¬ ∃ f ∈ [testFilter "other" "="],
        f.Op = EqualOp ∧ fieldName f.FieldPath = exampleCollection.partitionKey) ∧
    planQuery exampleCollection ⟨[], [testFilter "other" "="], 0⟩ =
      Except.ok (indexQuery exampleCollection ⟨[], [testFilter "other" "="], 0⟩
        globalIndexOther) ∧
    (indexQuery exampleCollection ⟨[], [testFilter "other" "="], 0⟩
      globalIndexOther).queryPlan = "Index: \"global\"" := by
  have hc : exampleCollection.consistent = true := by decide
  have hgi : globalIndexOther ∈ exampleCollection.GlobalSecondaryIndexes := by decide
  have heq : ∃ f ∈ [testFilter "other" "="],
      f.Op = EqualOp ∧ fieldName f.FieldPath = globalIndexOther.PartitionKey := by decide
  have hnt : ¬ ∃ f ∈ [testFilter "other" "="],
      f.Op = EqualOp ∧ fieldName f.FieldPath = exampleCollection.partitionKey := by decide
  obtain ⟨_, gj, _, _, _, _, hplan, _, _, _, huniq⟩ :=
    planQuery_global_index_selected exampleCollection ⟨[], [testFilter "other" "="], 0⟩
      globalIndexOther hc hgi heq hnt
  have hsame : gj = globalIndexOther := huniq (by decide)
  rw [hsame] at hplan
  exact ⟨⟨hc, hgi, heq, hnt⟩, hplan, rfl⟩

/-- C7, the counterexample to the claim as it was stated: the table has the two
global indexes `g1` and `g2`, both with the partition key `other`, and no query
has an equality filter on the table partition key. The query `other = 1` has an
equality filter on the partition key of `g2`, and `planQuery` selects `g1`, the
first declared; the query `other = 1 AND b < 1` has an equality filter on the
partition key of `g1`, and `planQuery` selects `g2`, whose sort key `b` has a
filter. In either case an index that meets the conditions of the claim is not
the one that the `QueryInput` names. -/
theorem planQuery_global_index_selected_counterexample :
    twoGlobalIndexes.consistent = true ∧
    twoGlobalIndexes.GlobalSecondaryIndexes.map
      (fun g => (g.IndexName, g.PartitionKey, g.SortKey)) =
        [("g1", "other", "a"), ("g2", "other", "b")] ∧
    (∃ f ∈ [testFilter "other" "="], f.Op = EqualOp ∧ fieldName f.FieldPath = "other") ∧
    (¬ ∃ f ∈ [testFilter "other" "=", testFilter "b" "<"],
      f.Op = EqualOp ∧ fieldName f.FieldPath = twoGlobalIndexes.partitionKey) ∧
    planSummary (planQuery twoGlobalIndexes ⟨[], [testFilter "other" "="], 0⟩) =
      some ("Index: \"g1\"", some "g1", ["other"], [], []) ∧
    planSummary (planQuery twoGlobalIndexes
        ⟨[], [testFilter "other" "=", testFilter "b" "<"], 0⟩) =
      some ("Index: \"g2\"", some "g2", ["other", "b"], [], []) := by
  refine ⟨by decide, by decide, by decide, by decide, by decide, by decide⟩

/-- The plan of the query `tableP = v1 AND localS <= v2` on the table with the
local index `local`, by the coverage test of the planner. -/
theorem planQuery_local_index_by_localFieldsIncluded (t sk : String) (p : Projection)
    (fps : List FieldPath) (limit : Int) (v1 v2 : Value)
    (hsk1 : sk ≠ "tableP") (hsk2 : sk ≠ "localS") :
    (localFieldsIncluded (localIndexQuery fps limit v1 v2) (localIndex p) = true →
      planQuery (localIndexCollection t sk p) (localIndexQuery fps limit v1 v2) =
        Except.ok (indexQuery (localIndexCollection t sk p)
          (localIndexQuery fps limit v1 v2) (localIndex p)) ∧
      (∃ qi, (indexQuery (localIndexCollection t sk p)
          (localIndexQuery fps limit v1 v2) (localIndex p)).queryIn = some qi ∧
        qi.IndexName = some "local" ∧
        qi.KeyConditionExpression = (localIndexQuery fps limit v1 v2).Filters ∧
        qi.FilterExpression = []) ∧
      (indexQuery (localIndexCollection t sk p)
        (localIndexQuery fps limit v1 v2) (localIndex p)).queryPlan = "Index: \"local\"") ∧
    (localFieldsIncluded (localIndexQuery fps limit v1 v2) (localIndex p) = false →
      planQuery (localIndexCollection t sk p) (localIndexQuery fps limit v1 v2) =
        Except.ok (tableQuery (localIndexCollection t sk p)
          (localIndexQuery fps limit v1 v2)
          [{ FieldPath := some ["tableP"], Op := "=", Value := v1 }]
          [{ FieldPath := some ["localS"], Op := "<=", Value := v2 }]) ∧
      (tableQuery (localIndexCollection t sk p) (localIndexQuery fps limit v1 v2)
          [{ FieldPath := some ["tableP"], Op := "=", Value := v1 }]
          [{ FieldPath := some ["localS"], Op := "<=", Value := v2 }]).queryPlan = "Table") ∧
    (localFieldsIncluded (localIndexQuery fps limit v1 v2) (localIndex p) = true ↔
      fps ≠ [] ∨ p = Projection.ALL) := by
  have hcov : localFieldsIncluded { (localIndexQuery fps limit v1 v2) with
        FieldPaths := requiredFieldPaths (localIndexQuery fps limit v1 v2) } (localIndex p)
      = localFieldsIncluded (localIndexQuery fps limit v1 v2) (localIndex p) := by
    simp only [localFieldsIncluded, requiredFieldPaths_isEmpty]
  have hET : hasEqualityFilter { (localIndexQuery fps limit v1 v2) with
        FieldPaths := requiredFieldPaths (localIndexQuery fps limit v1 v2) } "tableP"
      = true := by
    rw [hasEqualityFilter_iff]
    exact ⟨_, List.mem_cons_self _ _, rfl, rfl⟩
  have hFS : hasFilter { (localIndexQuery fps limit v1 v2) with
        FieldPaths := requiredFieldPaths (localIndexQuery fps limit v1 v2) } "localS"
      = true := by
    rw [hasFilter_iff]
    exact ⟨by decide, _, List.mem_cons_of_mem _ (List.mem_cons_self _ _), rfl⟩
  have hFsk : hasFilter { (localIndexQuery fps limit v1 v2) with
        FieldPaths := requiredFieldPaths (localIndexQuery fps limit v1 v2) } sk
      = false := by
    rw [← Bool.not_eq_true, hasFilter_iff]
    rintro ⟨_, f, hf, hname⟩
    simp only [localIndexQuery, List.mem_cons, List.mem_singleton, List.not_mem_nil,
      or_false] at hf
    rcases hf with rfl | rfl
    · exact hsk1 hname.symm
    · exact hsk2 hname.symm
  have hne : ("localS" == sk) = false := by
    simpa using fun e : "localS" = sk => hsk2 e.symm
  refine ⟨?_, ?_, ?_⟩
  · intro hincl
    refine ⟨?_, ⟨_, rfl, rfl, ?_, ?_⟩, rfl⟩
    · exact planQuery_of_index _ _ _
        (bestQueryable_local_head (localIndexCollection t sk p) _ (localIndex p) [] rfl
          hFsk hET hFS (hcov.trans hincl))
    · simp [localIndexQuery, localIndex, List.filter_cons, isKeyCondition, fieldName,
        fpElems, stringsJoin]
    · simp [localIndexQuery, localIndex, List.filter_cons, isKeyCondition, fieldName,
        fpElems, stringsJoin]
  · intro hincl
    refine ⟨?_, rfl⟩
    have hb := bestQueryable_table (localIndexCollection t sk p)
      { (localIndexQuery fps limit v1 v2) with
        FieldPaths := requiredFieldPaths (localIndexQuery fps limit v1 v2) } hET
      (fun li hli => by
        have hli2 : li = localIndex p := by simpa [localIndexCollection, localIndex] using hli
        rw [hli2, hcov, hincl, Bool.and_false])
      (fun gi hgi => by simp [localIndexCollection] at hgi)
    rw [planQuery_of_table _ _ _ _ hb]
    have hk : (localIndexQuery fps limit v1 v2).Filters.filter
        (isKeyCondition (localIndexCollection t sk p).partitionKey
          (localIndexCollection t sk p).sortKey)
        = [{ FieldPath := some ["tableP"], Op := "=", Value := v1 }] := by
      simp [localIndexQuery, localIndexCollection, List.filter_cons, isKeyCondition,
        fieldName, fpElems, stringsJoin, hne]
    have hf : (localIndexQuery fps limit v1 v2).Filters.filter
        (fun f => !isKeyCondition (localIndexCollection t sk p).partitionKey
          (localIndexCollection t sk p).sortKey f)
        = [{ FieldPath := some ["localS"], Op := "<=", Value := v2 }] := by
      simp [localIndexQuery, localIndexCollection, List.filter_cons, isKeyCondition,
        fieldName, fpElems, stringsJoin, hne]
    rw [hk, hf]
  · simp [localFieldsIncluded, localIndexQuery, localIndex, List.isEmpty_iff]

/-- A projection that covers the fields the query requires is an ALL projection or
the projection of an index used by a query that names its fields. -/
theorem specProjectionCovers_imp (c : collection) (q : Query) (i : IndexDescription)
    (h : specProjectionCovers c q i = true) :
    q.FieldPaths ≠ [] ∨ i.Projection = Projection.ALL := by
  unfold specProjectionCovers at h
  cases hp : i.Projection with
  | ALL => exact Or.inr rfl
  | KEYS_ONLY =>
    rw [hp] at h
    simp only [Bool.and_eq_true, Bool.not_eq_true', List.isEmpty_eq_false] at h
    exact Or.inl h.1
  | INCLUDE nka =>
    rw [hp] at h
    simp only [Bool.and_eq_true, Bool.not_eq_true', List.isEmpty_eq_false] at h
    exact Or.inl h.1

/-- C8, as amended: on a table with partition key `tableP`, any sort key other
than `tableP` and `localS` (or none), and a local index `local` with sort key
`localS`, the query `tableP = v1 AND localS <= v2` is planned on the local index
when the query names the fields it wants or the index projection is ALL: the key
condition holds both filters and the plan is `Index: "local"`. It is planned as a
`Table` query with `tableP = v1` as key condition and `localS <= v2` as filter
expression when the query asks for the entire document and the index projection
is not ALL, for instance KEYS_ONLY. An index projection that covers the fields
the query requires is in the first case. -/
theorem planQuery_local_index_or_table (t sk : String) (p : Projection)
    (fps : List FieldPath) (limit : Int) (v1 v2 : Value)
    (hsk1 : sk ≠ "tableP") (hsk2 : sk ≠ "localS") :
    (fps ≠ [] ∨ p = Projection.ALL →
      planQuery (localIndexCollection t sk p) (localIndexQuery fps limit v1 v2) =
        Except.ok (indexQuery (localIndexCollection t sk p)
          (localIndexQuery fps limit v1 v2) (localIndex p)) ∧
      (∃ qi, (indexQuery (localIndexCollection t sk p)
          (localIndexQuery fps limit v1 v2) (localIndex p)).queryIn = some qi ∧
        qi.IndexName = some "local" ∧
        qi.KeyConditionExpression = (localIndexQuery fps limit v1 v2).Filters ∧
        qi.FilterExpression = []) ∧
      (indexQuery (localIndexCollection t sk p)
        (localIndexQuery fps limit v1 v2) (localIndex p)).queryPlan = "Index: \"local\"") ∧
    (fps = [] ∧ p ≠ Projection.ALL →
      planQuery (localIndexCollection t sk p) (localIndexQuery fps limit v1 v2) =
        Except.ok (tableQuery (localIndexCollection t sk p)
          (localIndexQuery fps limit v1 v2)
          [{ FieldPath := some ["tableP"], Op := "=", Value := v1 }]
          [{ FieldPath := some ["localS"], Op := "<=", Value := v2 }]) ∧
      (tableQuery (localIndexCollection t sk p) (localIndexQuery fps limit v1 v2)
          [{ FieldPath := some ["tableP"], Op := "=", Value := v1 }]
          [{ FieldPath := some ["localS"], Op := "<=", Value := v2 }]).queryPlan = "Table") ∧
    (specProjectionCovers (localIndexCollection t sk p) (localIndexQuery fps limit v1 v2)
        (localIndex p) = true → fps ≠ [] ∨ p = Projection.ALL) := by
  obtain ⟨h1, h2, h3⟩ :=
    planQuery_local_index_by_localFieldsIncluded t sk p fps limit v1 v2 hsk1 hsk2
  refine ⟨fun h => h1 (h3.mpr h), ?_, ?_⟩
  · rintro ⟨hfps, hp⟩
    apply h2
    rw [← Bool.not_eq_true, h3]
    rintro (h | h)
    · exact h hfps
    · exact hp h
  · intro h
    exact specProjectionCovers_imp _ _ _ h

/-- C8, at the table of `TestPlanQuery` with sort key `tableS` and a KEYS_ONLY
local index: the query for the entire document falls back to the table, the
query that names its fields uses the local index. -/
theorem planQuery_local_index_or_table_witness :
    ("tableS" ≠ "tableP" ∧ "tableS" ≠ "localS") ∧
    (planQuery (localIndexCollection "T" "tableS" Projection.KEYS_ONLY)
        (localIndexQuery [] 0 (Value.int 1) (Value.int 1)) =
      Except.ok (tableQuery (localIndexCollection "T" "tableS" Projection.KEYS_ONLY)
        (localIndexQuery [] 0 (Value.int 1) (Value.int 1))
        [testFilter "tableP" "="] [testFilter "localS" "<="])) ∧
    (planQuery (localIndexCollection "T" "tableS" Projection.KEYS_ONLY)
        (localIndexQuery [some ["tableP"], some ["localS"]] 0 (Value.int 1) (Value.int 1)) =
      Except.ok (indexQuery (localIndexCollection "T" "tableS" Projection.KEYS_ONLY)
        (localIndexQuery [some ["tableP"], some ["localS"]] 0 (Value.int 1) (Value.int 1))
        (localIndex Projection.KEYS_ONLY))) :=
  ⟨⟨by decide, by decide⟩,
   ((planQuery_local_index_or_table "T" "tableS" Projection.KEYS_ONLY [] 0
      (Value.int 1) (Value.int 1) (by decide) (by decide)).2.1 ⟨rfl, by decide⟩).1,
   ((planQuery_local_index_or_table "T" "tableS" Projection.KEYS_ONLY
      [some ["tableP"], some ["localS"]] 0
      (Value.int 1) (Value.int 1) (by decide) (by decide)).1 (Or.inl (by decide))).1⟩

/-- C8, the counterexample to the claim as it was stated, the case "good
projection" of `TestPlanQuery`: on the table with a KEYS_ONLY local index on
`localS`, the query `tableP = 1 AND localS <= 1` for the fields `tableP` and
`localS` requires the revision field `DocstoreRevision` as well, which the index
projection excludes; the plan is the local index all the same, not the table. -/
theorem planQuery_local_index_or_table_counterexample :
    (requiredFieldPaths
        (localIndexQuery [some ["tableP"], some ["localS"]] 0 (Value.int 1) (Value.int 1))).map
      fieldName = ["tableP", "localS", "DocstoreRevision"] ∧
    (indexFields (localIndexCollection "T" "" Projection.KEYS_ONLY)
      (localIndex Projection.KEYS_ONLY)).contains "DocstoreRevision" = false ∧
    specProjectionCovers (localIndexCollection "T" "" Projection.KEYS_ONLY)
      (localIndexQuery [some ["tableP"], some ["localS"]] 0 (Value.int 1) (Value.int 1))
      (localIndex Projection.KEYS_ONLY) = false ∧
    planSummary (planQuery (localIndexCollection "T" "" Projection.KEYS_ONLY)
        (localIndexQuery [some ["tableP"], some ["localS"]] 0 (Value.int 1) (Value.int 1))) =
      some ("Index: \"local\"", some "local", ["tableP", "localS"], [],
        ["tableP", "localS", "DocstoreRevision"]) := by
  refine ⟨by decide, by decide, by decide, by decide⟩

/-- C9: for every query that consists of an equality filter on the table
partition key and a filter, with any operator, on a field that is not a key of
the table or of any index, in either order, on a consistent index catalog,
`planQuery` succeeds with a `Table` query whose key condition is the
partition-key equality and whose filter expression is the other filter: both
filters of the query are sent to the backend. -/
theorem planQuery_other_filter_is_native (c : collection) (q : Query) (fP fO : Filter)
    (hc : c.consistent = true)
    (hq : q.Filters = [fP, fO] ∨ q.Filters = [fO, fP])
    (hop : fP.Op = EqualOp) (hfield : fieldName fP.FieldPath = c.partitionKey)
    (ho1 : fieldName fO.FieldPath ≠ c.partitionKey)
    (ho2 : fieldName fO.FieldPath ≠ c.sortKey)
    (ho3 : ∀ i ∈ c.LocalSecondaryIndexes ++ c.GlobalSecondaryIndexes,
      fieldName fO.FieldPath ≠ i.PartitionKey ∧ fieldName fO.FieldPath ≠ i.SortKey) :
    planQuery c q = Except.ok (tableQuery c q [fP] [fO]) ∧
    (tableQuery c q [fP] [fO]).scanIn = none ∧
    (∃ qi, (tableQuery c q [fP] [fO]).queryIn = some qi ∧ qi.IndexName = none ∧
      qi.KeyConditionExpression = [fP] ∧ qi.FilterExpression = [fO] ∧
      ∀ f ∈ q.Filters, f ∈ qi.KeyConditionExpression ∨ f ∈ qi.FilterExpression) ∧
    (tableQuery c q [fP] [fO]).queryPlan = "Table" := by
  have hmem : ∀ f, f ∈ q.Filters ↔ f = fP ∨ f = fO := by
    intro f
    rcases hq with h | h <;> rw [h] <;> simp [or_comm]
  have hE : ∀ x, hasEqualityFilter { q with FieldPaths := requiredFieldPaths q } x = true
      → c.partitionKey = x ∨ fieldName fO.FieldPath = x := by
    intro x hx
    rw [hasEqualityFilter_iff] at hx
    obtain ⟨f, hf, _, hname⟩ := hx
    rcases (hmem f).mp hf with rfl | rfl
    · exact Or.inl (hfield.symm.trans hname)
    · exact Or.inr hname
  have hF : ∀ x, hasFilter { q with FieldPaths := requiredFieldPaths q } x = true
      → c.partitionKey = x ∨ fieldName fO.FieldPath = x := by
    intro x hx
    rw [hasFilter_iff] at hx
    obtain ⟨_, f, hf, hname⟩ := hx
    rcases (hmem f).mp hf with rfl | rfl
    · exact Or.inl (hfield.symm.trans hname)
    · exact Or.inr hname
  have hT : hasEqualityFilter { q with FieldPaths := requiredFieldPaths q } c.partitionKey
      = true := by
    rw [hasEqualityFilter_iff]
    exact ⟨fP, (hmem fP).mpr (Or.inl rfl), hop, hfield⟩
  have hidx : ∀ i ∈ c.LocalSecondaryIndexes ++ c.GlobalSecondaryIndexes,
      i.SortKey ≠ i.PartitionKey →
      (hasEqualityFilter { q with FieldPaths := requiredFieldPaths q } i.PartitionKey
        && hasFilter { q with FieldPaths := requiredFieldPaths q } i.SortKey) = false := by
    intro i hi hne
    rw [← Bool.not_eq_true]
    intro hp
    simp only [Bool.and_eq_true] at hp
    rcases hE _ hp.1 with h1 | h1
    · rcases hF _ hp.2 with h2 | h2
      · exact hne (h2.symm.trans h1)
      · exact (ho3 i hi).2 h2
    · exact (ho3 i hi).1 h1
  have hb := bestQueryable_table c { q with FieldPaths := requiredFieldPaths q } hT
    (fun li hli => by
      rw [hidx li (List.mem_append_left _ hli) (consistent_local c hc li hli).2,
        Bool.false_and])
    (fun gi hgi => by
      rw [hidx gi (List.mem_append_right _ hgi) (consistent_global c hc gi hgi),
        Bool.false_and])
  have hkP : isKeyCondition c.partitionKey c.sortKey fP = true := by
    simp [isKeyCondition, hfield]
  have hkO : isKeyCondition c.partitionKey c.sortKey fO = false := by
    simp [isKeyCondition, ho1, ho2]
  have hk : q.Filters.filter (isKeyCondition c.partitionKey c.sortKey) = [fP] := by
    rcases hq with h | h <;> rw [h] <;> simp [List.filter_cons, hkP, hkO]
  have hf : q.Filters.filter (fun f => !isKeyCondition c.partitionKey c.sortKey f)
      = [fO] := by
    rcases hq with h | h <;> rw [h] <;> simp [List.filter_cons, hkP, hkO]
  refine ⟨?_, rfl, ⟨_, rfl, rfl, rfl, rfl, ?_⟩, rfl⟩
  · rw [planQuery_of_table c q _ _ hb, hk, hf]
  · intro f hf2
    rcases (hmem f).mp hf2 with rfl | rfl <;> simp

/-- C9, at the table of `TestPlanQuery` with its secondary indexes, for the query
`tableP = 1 AND f <= 1`. -/
theorem planQuery_other_filter_is_native_witness :
    (exampleCollection.consistent = true ∧
      fieldName (testFilter "f" "<=").FieldPath ≠ exampleCollection.partitionKey ∧
      fieldName (testFilter "f" "<=").FieldPath ≠ exampleCollection.sortKey ∧
      ∀ i ∈ exampleCollection.LocalSecondaryIndexes ++ exampleCollection.GlobalSecondaryIndexes,
        fieldName (testFilter "f" "<=").FieldPath ≠ i.PartitionKey ∧
        fieldName (testFilter "f" "<=").FieldPath ≠ i.SortKey) ∧
    planQuery exampleCollection ⟨[], [testFilter "tableP" "=", testFilter "f" "<="], 0⟩ =
      Except.ok (tableQuery exampleCollection
        ⟨[], [testFilter "tableP" "=", testFilter "f" "<="], 0⟩
        [testFilter "tableP" "="] [testFilter "f" "<="]) :=
  ⟨⟨by decide, by decide, by decide, by decide⟩,
   (planQuery_other_filter_is_native exampleCollection
      ⟨[], [testFilter "tableP" "=", testFilter "f" "<="], 0⟩
      (testFilter "tableP" "=") (testFilter "f" "<=")
      (by decide) (Or.inl rfl) rfl rfl (by decide) (by decide) (by decide)).1⟩

/-- C10: `globalFieldsIncluded c q gi` decides projection coverage of the global
index `gi`: it is true if and only if the projection of `gi` is ALL, or the query
names its fields (`q.FieldPaths` is non-empty) and every one of them is the
partition key or the sort key of the table, the partition key or the sort key of
`gi`, or one of the non-key attributes listed by an INCLUDE projection of `gi`.
So a query for the entire document (no field paths) is covered exactly by an ALL
projection. -/
theorem globalFieldsIncluded_iff (c : collection) (q : Query) (gi : IndexDescription) :
    (globalFieldsIncluded c q gi = true ↔
      gi.Projection = Projection.ALL ∨
      (q.FieldPaths ≠ [] ∧ ∀ fp ∈ q.FieldPaths,
        fieldName fp = c.partitionKey ∨ isKey c.sortKey (fieldName fp) ∨
        fieldName fp = gi.PartitionKey ∨ isKey gi.SortKey (fieldName fp) ∨
        ∃ nka, gi.Projection = Projection.INCLUDE nka ∧ fieldName fp ∈ nka)) ∧
    (q.FieldPaths = [] →
      (globalFieldsIncluded c q gi = true ↔ gi.Projection = Projection.ALL)) := by
  have hmem : ∀ x, x ∈ indexFields c gi ↔
      (x = c.partitionKey ∨ isKey c.sortKey x ∨ x = gi.PartitionKey ∨ isKey gi.SortKey x ∨
        ∃ nka, gi.Projection = Projection.INCLUDE nka ∧ x ∈ nka) := by
    intro x
    unfold indexFields isKey
    by_cases h1 : c.sortKey = "" <;> by_cases h2 : gi.SortKey = "" <;>
      cases hp : gi.Projection <;> simp [h1, h2] <;> tauto
  constructor
  · simp only [← hmem]
    cases hq : q.FieldPaths with
    | nil => cases hp : gi.Projection <;> simp [globalFieldsIncluded, hp, hq]
    | cons a l => cases hp : gi.Projection <;> simp [globalFieldsIncluded, hp, hq]
  · intro hq
    cases hp : gi.Projection <;> simp [globalFieldsIncluded, hp, hq]

end dynamodocstore

namespace big

theorem intCmp_eq_signOf (a b : Int) :
    intCmp a b = memdocstore.signOf ((a : ℚ) - (b : ℚ)) := by
  unfold intCmp memdocstore.signOf
  by_cases h1 : a < b
  · have : (a : ℚ) - b < 0 := by
      have : (a : ℚ) < b := by exact_mod_cast h1
      linarith
    simp [h1, this]
  · by_cases h2 : a = b
    · subst h2
      simp
    · have h3 : ¬ ((a : ℚ) - b < 0) := by
        intro h
        have : (a : ℚ) < b := by linarith
        exact h1 (by exact_mod_cast this)
      have h4 : ¬ ((a : ℚ) - b = 0) := by
        intro h
        have : (a : ℚ) = b := by linarith
        exact h2 (by exact_mod_cast this)
      simp [h1, h2, h3, h4]

theorem signOf_mul_pos (r p : ℚ) (hp : 0 < p) :
    memdocstore.signOf (r * p) = memdocstore.signOf r := by
  unfold memdocstore.signOf
  have h1 : r * p < 0 ↔ r < 0 := by
    constructor
    · intro h
      by_contra hr
      push_neg at hr
      have := mul_nonneg hr hp.le
      linarith
    · intro h
      exact mul_neg_of_neg_of_pos h hp
  have h2 : r * p = 0 ↔ r = 0 := by
    constructor
    · intro h
      rcases mul_eq_zero.mp h with h | h
      · exact h
      · exact absurd h hp.ne'
    · intro h
      simp [h]
  simp only [h1, h2]

theorem zpow_split (e m : Int) (h : m ≤ e) :
    (2 : ℚ) ^ e = ((2 : Int) ^ (e - m).toNat : Int) * (2 : ℚ) ^ m := by
  have hnn : 0 ≤ e - m := by omega
  have he : e = ((e - m).toNat : Int) + m := by
    rw [Int.toNat_of_nonneg hnn]
    ring
  conv_lhs => rw [he]
  rw [zpow_add₀ (two_ne_zero), zpow_natCast]
  push_cast
  ring

/-- The comparison of two finite values gives the sign of the difference of their
exact values. -/
theorem Cmp_finite (m1 e1 m2 e2 : Int) :
    (Float.finite m1 e1).Cmp (Float.finite m2 e2) =
      memdocstore.signOf ((m1 : ℚ) * (2 : ℚ) ^ e1 - (m2 : ℚ) * (2 : ℚ) ^ e2) := by
  have hp : (0 : ℚ) < (2 : ℚ) ^ (min e1 e2) := zpow_pos (by norm_num) _
  have h1 := zpow_split e1 (min e1 e2) (min_le_left _ _)
  have h2 := zpow_split e2 (min e1 e2) (min_le_right _ _)
  have hdiff : (m1 : ℚ) * (2 : ℚ) ^ e1 - (m2 : ℚ) * (2 : ℚ) ^ e2 =
      (((m1 * 2 ^ (e1 - min e1 e2).toNat : Int) : ℚ)
        - ((m2 * 2 ^ (e2 - min e1 e2).toNat : Int) : ℚ)) * (2 : ℚ) ^ (min e1 e2) := by
    rw [h1, h2]
    push_cast
    ring
  rw [hdiff, signOf_mul_pos _ _ hp]
  simp only [Float.Cmp]
  exact intCmp_eq_signOf _ _

end big

namespace memdocstore

open driver

theorem signOf_eq_zero_iff (r : ℚ) : signOf r = 0 ↔ r = 0 := by
  unfold signOf
  by_cases h1 : r < 0
  · have : r ≠ 0 := ne_of_lt h1
    simp [h1, this]
  · by_cases h2 : r = 0 <;> simp [h1, h2]

theorem signOf_neg_iff (r : ℚ) : signOf r = -1 ↔ r < 0 := by
  unfold signOf
  by_cases h1 : r < 0
  · simp [h1]
  · by_cases h2 : r = 0 <;> simp [h1, h2]

theorem signOf_pos_iff (r : ℚ) : signOf r = 1 ↔ 0 < r := by
  unfold signOf
  by_cases h1 : r < 0
  · have : ¬ 0 < r := not_lt.mpr h1.le
    simp [h1, this]
  · by_cases h2 : r = 0
    · simp [h2]
    · have : 0 < r := lt_of_le_of_ne (not_lt.mp h1) (Ne.symm h2)
      simp [h1, h2, this]

/-- A numeric operand is converted, without a panic, to a finite `big.Float` of
the same exact value. -/
theorem toBigFloat_numeric (x : Value) (r : ℚ) (h : numericValue x = some r) :
    ∃ m e, toBigFloat x = Except.ok (some (big.Float.finite m e)) ∧
      firedocstore.toBigFloat x = Except.ok (some (big.Float.finite m e)) ∧
      (m : ℚ) * (2 : ℚ) ^ e = r ∧ ∀ s, x ≠ Value.str s := by
  cases x with
  | int i =>
    refine ⟨i, 0, rfl, rfl, ?_, fun s hs => by cases hs⟩
    simp only [numericValue, Option.some.injEq] at h
    simp [← h]
  | uint n =>
    refine ⟨n, 0, rfl, rfl, ?_, fun s hs => by cases hs⟩
    simp only [numericValue, Option.some.injEq] at h
    simp [← h]
  | float f =>
    cases f with
    | finite m e =>
      refine ⟨m, e, rfl, rfl, ?_, fun s hs => by cases hs⟩
      simp only [numericValue, Option.some.injEq] at h
      exact h
    | inf n => simp [numericValue] at h
    | nan => simp [numericValue] at h
  | definedFloat f =>
    cases f with
    | finite m e =>
      refine ⟨m, e, rfl, rfl, ?_, fun s hs => by cases hs⟩
      simp only [numericValue, Option.some.injEq] at h
      exact h
    | inf n => simp [numericValue] at h
    | nan => simp [numericValue] at h
  | null => simp [numericValue] at h
  | bool b => simp [numericValue] at h
  | str s => simp [numericValue] at h
  | bytes b => simp [numericValue] at h
  | other => simp [numericValue] at h

theorem compare_numeric (x1 x2 : Value) (r1 r2 : ℚ)
    (h1 : numericValue x1 = some r1) (h2 : numericValue x2 = some r2) :
    compare x1 x2 = Except.ok (signOf (r1 - r2), true) := by
  obtain ⟨m1, e1, ht1, _, hv1, hs1⟩ := toBigFloat_numeric x1 r1 h1
  obtain ⟨m2, e2, ht2, _, hv2, _⟩ := toBigFloat_numeric x2 r2 h2
  have hc : compare x1 x2 =
      (match toBigFloat x1 with
        | Except.error p => Except.error p
        | Except.ok bf1 =>
          match toBigFloat x2 with
          | Except.error p => Except.error p
          | Except.ok bf2 =>
            match bf1, bf2 with
            | some a, some b => Except.ok (a.Cmp b, true)
            | _, _ => Except.ok (0, false)) := by
    unfold compare
    split
    · exact absurd rfl (hs1 _)
    · rfl
  rw [hc, ht1, ht2]
  simp only [big.Cmp_finite, hv1, hv2]

/-- On a document value that is not a string, `evaluateFilter` converts both
operands and compares the conversions. -/
theorem evaluateFilter_of_not_str (f : Filter) (doc : Document) (val : Value)
    (hdoc : doc.Get f.FieldPath = Except.ok val) (hns : ∀ s, val ≠ Value.str s) :
    firedocstore.evaluateFilter f doc =
      (match firedocstore.toBigFloat val with
        | Except.error p => Except.error p
        | Except.ok lf =>
          match firedocstore.toBigFloat f.Value with
          | Except.error p => Except.error p
          | Except.ok rf =>
            match lf, rf with
            | some a, some b => firedocstore.applyComparison f.Op (a.Cmp b)
            | _, _ => Except.ok false) := by
  unfold firedocstore.evaluateFilter
  rw [hdoc]
  cases val with
  | str s => exact absurd rfl (hns s)
  | _ => rfl

theorem evaluateFilter_numeric (f : Filter) (doc : Document) (x1 : Value) (r1 r2 : ℚ)
    (hdoc : doc.Get f.FieldPath = Except.ok x1)
    (h1 : numericValue x1 = some r1) (h2 : numericValue f.Value = some r2) :
    firedocstore.evaluateFilter f doc =
      firedocstore.applyComparison f.Op (signOf (r1 - r2)) := by
  obtain ⟨m1, e1, _, ht1, hv1, hs1⟩ := toBigFloat_numeric x1 r1 h1
  obtain ⟨m2, e2, _, ht2, hv2, _⟩ := toBigFloat_numeric f.Value r2 h2
  rw [evaluateFilter_of_not_str f doc x1 hdoc hs1, ht1, ht2]
  simp only [big.Cmp_finite, hv1, hv2]

/-- C11: the comparator is numerically exact. For every pair of numeric operands,
integers of any signed or unsigned width and finite floats, with exact values `r1`
and `r2`, memdocstore `compare` returns, without a panic, ok and the sign of
`r1 - r2` as -1, 0 or +1; so it returns 0 exactly when `r1 = r2`, a negative
result exactly when `r1 < r2` and a positive one exactly when `r1 > r2`. On such
operands firedocstore `evaluateFilter` applies the operator to the same sign. -/
theorem compare_numerically_exact (x1 x2 : Value) (r1 r2 : ℚ)
    (h1 : numericValue x1 = some r1) (h2 : numericValue x2 = some r2) :
    compare x1 x2 = Except.ok (signOf (r1 - r2), true) ∧
    (signOf (r1 - r2) = 0 ↔ r1 = r2) ∧
    (signOf (r1 - r2) = -1 ↔ r1 < r2) ∧
    (signOf (r1 - r2) = 1 ↔ r2 < r1) ∧
    ∀ (fp : FieldPath) (op : String) (doc : Document), doc.Get fp = Except.ok x1 →
      firedocstore.evaluateFilter { FieldPath := fp, Op := op, Value := x2 } doc =
        firedocstore.applyComparison op (signOf (r1 - r2)) := by
  refine ⟨compare_numeric x1 x2 r1 r2 h1 h2, ?_, ?_, ?_, ?_⟩
  · rw [signOf_eq_zero_iff, sub_eq_zero]
  · rw [signOf_neg_iff, sub_neg]
  · rw [signOf_pos_iff, sub_pos]
  · intro fp op doc hdoc
    exact evaluateFilter_numeric { FieldPath := fp, Op := op, Value := x2 } doc x1 r1 r2
      hdoc h1 h2

/-- C11, at the spec's example: the int64 `2 ^ 63 - 1` compared with the float64
`2 ^ 63`, the float conversion of the largest int64, is reported as less, not as
equal. -/
theorem compare_numerically_exact_witness :
    (numericValue (Value.int (2 ^ 63 - 1)) = some ((2 : ℚ) ^ 63 - 1) ∧
      numericValue (Value.float (Float64.finite 1 63)) = some ((2 : ℚ) ^ 63)) ∧
    compare (Value.int (2 ^ 63 - 1)) (Value.float (Float64.finite 1 63)) =
      Except.ok (signOf (((2 : ℚ) ^ 63 - 1) - (2 : ℚ) ^ 63), true) ∧
    signOf (((2 : ℚ) ^ 63 - 1) - (2 : ℚ) ^ 63) = -1 ∧
    compare (Value.int (2 ^ 63 - 1)) (Value.float (Float64.finite 1 63)) =
      Except.ok (-1, true) := by
  have h1 : numericValue (Value.int (2 ^ 63 - 1)) = some ((2 : ℚ) ^ 63 - 1) := by
    simp only [numericValue]
    norm_num
  have h2 : numericValue (Value.float (Float64.finite 1 63)) = some ((2 : ℚ) ^ 63) := by
    simp only [numericValue, Int.cast_one, one_mul]
    norm_cast
  have hs : signOf (((2 : ℚ) ^ 63 - 1) - (2 : ℚ) ^ 63) = -1 := by
    rw [signOf_neg_iff]
    norm_num
  have hc := (compare_numerically_exact _ _ _ _ h1 h2).1
  refine ⟨⟨h1, h2⟩, hc, hs, ?_⟩
  rw [hc, hs]

end memdocstore

namespace gostrings

open driver

theorem less_iff_lex (s t : GoString) : less s t = true ↔ List.Lex (· < ·) s t := by
  induction s generalizing t with
  | nil =>
    cases t with
    | nil => simp [less]
    | cons b t => simp [less, List.Lex.nil]
  | cons a s ih =>
    cases t with
    | nil => simp [less]
    | cons b t =>
      by_cases h1 : a < b
      · simp only [less, if_pos h1, true_iff]
        exact List.Lex.rel h1
      · by_cases h2 : b < a
        · simp only [less, if_neg h1, if_pos h2, Bool.false_eq_true, false_iff]
          intro h
          cases h with
          | cons h => exact absurd h2 (lt_irrefl _)
          | rel h => exact h1 h
        · have hab : a = b := by omega
          subst hab
          simp only [less, if_neg h1, ih t]
          constructor
          · intro h
            exact List.Lex.cons h
          · intro h
            cases h with
            | cons h => exact h
            | rel h => exact absurd h h1

theorem less_or_greater (s t : GoString) (hne : s ≠ t) (h : less s t = false) :
    less t s = true := by
  induction s generalizing t with
  | nil =>
    cases t with
    | nil => exact absurd rfl hne
    | cons b t => simp [less] at h
  | cons a s ih =>
    cases t with
    | nil => simp [less]
    | cons b t =>
      by_cases h1 : a < b
      · simp [less, h1] at h
      · by_cases h2 : b < a
        · simp [less, h2]
        · have hab : a = b := by omega
          subst hab
          simp only [less, if_neg h1] at h ⊢
          exact ih t (fun e => hne (by rw [e])) h

theorem less_irrefl (s : GoString) : less s s = false := by
  induction s with
  | nil => rfl
  | cons a s ih => simp [less, ih]

theorem less_asymm (s t : GoString) (h : less s t = true) : less t s = false := by
  induction s generalizing t with
  | nil =>
    cases t with
    | nil => simp [less] at h
    | cons b t => simp [less]
  | cons a s ih =>
    cases t with
    | nil => simp [less] at h
    | cons b t =>
      by_cases h1 : a < b
      · have h2 : ¬ b < a := by omega
        simp [less, h1, h2]
      · by_cases h2 : b < a
        · simp [less, h1, h2] at h
        · simp only [less, if_neg h1, if_neg h2] at h ⊢
          exact ih t h

/-- The result of `strings.Compare` is negative, zero or positive as the first
string is byte-wise below, equal to or above the second. -/
theorem Compare_sign (s1 s2 : GoString) :
    (Compare s1 s2 < 0 ↔ List.Lex (· < ·) s1 s2) ∧
    (Compare s1 s2 = 0 ↔ s1 = s2) ∧
    (Compare s1 s2 > 0 ↔ List.Lex (· < ·) s2 s1) := by
  unfold Compare
  by_cases he : s1 = s2
  · subst he
    have hirr : ¬ List.Lex (· < ·) s1 s1 := by
      rw [← less_iff_lex, less_irrefl]
      simp
    simp [hirr]
  · by_cases hl : less s1 s2 = true
    · have h1 : List.Lex (· < ·) s1 s2 := (less_iff_lex s1 s2).mp hl
      have h2 : ¬ List.Lex (· < ·) s2 s1 := by
        rw [← less_iff_lex, less_asymm s1 s2 hl]
        simp
      simp [he, hl, h1, h2]
    · have hl2 : less s1 s2 = false := by simpa using hl
      have h1 : ¬ List.Lex (· < ·) s1 s2 := by
        rw [← less_iff_lex, hl2]
        simp
      have h2 : List.Lex (· < ·) s2 s1 :=
        (less_iff_lex s2 s1).mp (less_or_greater s1 s2 he hl2)
      simp [he, hl2, h1, h2]

end gostrings

namespace memdocstore

open driver

/-- C12: when both operands are strings the comparator orders them byte-wise
lexicographically. For all strings `s1` and `s2`, memdocstore `compare` returns
`(c, true)` where `c`, the result of `strings.Compare`, is negative exactly when
`s1` is byte-wise below `s2`, zero exactly when they are equal and positive
exactly when `s1` is above `s2`; and firedocstore `evaluateFilter`, on a document
value `s1` and a filter value `s2`, applies the operator to the same `c`. -/
theorem compare_strings_bytewise (s1 s2 : GoString) :
    compare (Value.str s1) (Value.str s2) = Except.ok (gostrings.Compare s1 s2, true) ∧
    (gostrings.Compare s1 s2 < 0 ↔ List.Lex (· < ·) s1 s2) ∧
    (gostrings.Compare s1 s2 = 0 ↔ s1 = s2) ∧
    (gostrings.Compare s1 s2 > 0 ↔ List.Lex (· < ·) s2 s1) ∧
    ∀ (fp : FieldPath) (op : String) (doc : Document),
      doc.Get fp = Except.ok (Value.str s1) →
      firedocstore.evaluateFilter { FieldPath := fp, Op := op, Value := Value.str s2 } doc =
        firedocstore.applyComparison op (gostrings.Compare s1 s2) := by
  obtain ⟨h1, h2, h3⟩ := gostrings.Compare_sign s1 s2
  refine ⟨rfl, h1, h2, h3, ?_⟩
  intro fp op doc hdoc
  simp only [firedocstore.evaluateFilter, hdoc]

end memdocstore

namespace memdocstore

open driver

/-- Incomparable operands give a non-match in both evaluators, whatever the
operator, as long as neither operand is a NaN. -/
theorem incomparable_without_nan_is_nonmatch (f : Filter) (doc : Document) (x : Value)
    (hdoc : doc.Get f.FieldPath = Except.ok x) (hinc : incomparable x f.Value = true)
    (hx : isNaNOfFloatKind x = false) (hy : isNaNOfFloatKind f.Value = false) :
    filterMatches f doc = Except.ok false ∧
    firedocstore.evaluateFilter f doc = Except.ok false := by
  obtain ⟨fp, op, y⟩ := f
  simp only at hdoc hinc hy
  constructor
  · simp only [filterMatches, getAtFieldPath, hdoc]
    rcases x with _ | _ | _ | _ | _ | (_ | _ | _) | (_ | _ | _) | _ | _ <;>
    rcases y with _ | _ | _ | _ | _ | (_ | _ | _) | (_ | _ | _) | _ | _ <;>
    first
      | rfl
      | exact absurd hx (by decide)
      | exact absurd hy (by decide)
      | (simp [incomparable, isString, isNumber] at hinc)
  · simp only [firedocstore.evaluateFilter, hdoc]
    rcases x with _ | _ | _ | _ | _ | (_ | _ | _) | (_ | _ | _) | _ | _ <;>
    rcases y with _ | _ | _ | _ | _ | (_ | _ | _) | (_ | _ | _) | _ | _ <;>
    first
      | rfl
      | exact absurd hx (by decide)
      | exact absurd hy (by decide)
      | (simp [incomparable, isString, isNumber] at hinc)

/-- C13, at the failing inputs: with the operator `=`, a string document value
against a NaN filter value, and a nil document value against a NaN filter value,
are incomparable pairs on which memdocstore `filterMatches` panics; a NaN
document value against a string filter value is an incomparable pair on which
firedocstore `evaluateFilter` panics. None of them returns false. -/
theorem incomparable_nan_panics :
    incomparable (Value.str [97]) (Value.float Float64.nan) = true ∧
    filterMatches { FieldPath := some ["x"], Op := "=", Value := Value.float Float64.nan }
      (constDocument (Value.str [97])) = Except.error "ErrNaN" ∧
    incomparable Value.null (Value.float Float64.nan) = true ∧
    filterMatches { FieldPath := some ["x"], Op := "=", Value := Value.float Float64.nan }
      (constDocument Value.null) = Except.error "ErrNaN" ∧
    incomparable (Value.float Float64.nan) (Value.str [97]) = true ∧
    firedocstore.evaluateFilter { FieldPath := some ["x"], Op := "=", Value := Value.str [97] }
      (constDocument (Value.float Float64.nan)) = Except.error "ErrNaN" :=
  ⟨rfl, rfl, rfl, rfl, rfl, rfl⟩

/-- C14: a missing field path is a non-match. For every filter, whatever its
operator and value, and every document in which the lookup of the field path of
the filter fails, memdocstore `filterMatches` and firedocstore `evaluateFilter`
return false, without a panic. -/
theorem missing_field_is_nonmatch (f : Filter) (doc : Document) (e : Error)
    (h : doc.Get f.FieldPath = Except.error e) :
    filterMatches f doc = Except.ok false ∧
    firedocstore.evaluateFilter f doc = Except.ok false := by
  constructor
  · simp only [filterMatches, getAtFieldPath, h]
  · simp only [firedocstore.evaluateFilter, h]

/-- C14, at the document without fields, for a filter whose operator is not one
of the five and whose value is a NaN. -/
theorem missing_field_is_nonmatch_witness :
    emptyDocument.Get (some ["x"]) = Except.error (Error.other "not found") ∧
    filterMatches { FieldPath := some ["x"], Op := "!=", Value := Value.float Float64.nan }
      emptyDocument = Except.ok false ∧
    firedocstore.evaluateFilter
      { FieldPath := some ["x"], Op := "!=", Value := Value.float Float64.nan }
      emptyDocument = Except.ok false :=
  ⟨rfl, missing_field_is_nonmatch
    { FieldPath := some ["x"], Op := "!=", Value := Value.float Float64.nan }
    emptyDocument (Error.other "not found") rfl⟩

theorem filtersMatch_true_iff (fs : List Filter) (d : Document) :
    filtersMatch fs d = Except.ok true ↔ ∀ f ∈ fs, filterMatches f d = Except.ok true := by
  induction fs with
  | nil => simp [filtersMatch]
  | cons f fs ih =>
    simp only [filtersMatch, List.mem_cons, forall_eq_or_imp]
    cases hf : filterMatches f d with
    | error p => simp
    | ok m =>
      cases m with
      | true => simpa using ih
      | false => simp

theorem evaluateFilters_true_iff (fs : List Filter) (d : Document) :
    firedocstore.evaluateFilters fs d = Except.ok true ↔
      ∀ f ∈ fs, firedocstore.evaluateFilter f d = Except.ok true := by
  induction fs with
  | nil => simp [firedocstore.evaluateFilters]
  | cons f fs ih =>
    simp only [firedocstore.evaluateFilters, List.mem_cons, forall_eq_or_imp]
    cases hf : firedocstore.evaluateFilter f d with
    | error p => simp
    | ok m =>
      cases m with
      | true => simpa using ih
      | false => simp

/-- When no filter panics, `filtersMatch` returns whether every filter matches. -/
theorem filtersMatch_of_no_panic (fs : List Filter) (d : Document)
    (h : ∀ f ∈ fs, ∃ b, filterMatches f d = Except.ok b) :
    filtersMatch fs d = Except.ok (fs.all (fun f => returnedTrue (filterMatches f d))) := by
  induction fs with
  | nil => rfl
  | cons f fs ih =>
    obtain ⟨b, hb⟩ := h f (List.mem_cons_self _ _)
    have ih2 := ih (fun g hg => h g (List.mem_cons_of_mem _ hg))
    simp only [filtersMatch, hb, List.all_cons]
    cases b with
    | true => simpa [returnedTrue] using ih2
    | false => simp [returnedTrue]

/-- Filters are AND-combined, as far as the result true goes. For every filter
list `fs` and document `d`, memdocstore `filtersMatch` returns true if and only if
every filter of `fs` matches `d`; so the empty list matches every document, and
whether the list matches does not depend on the order of its filters; when no
filter panics, the whole result does not. For firedocstore, on a backend document
that decodes to `d`, `evaluateLocalFilters` returns true if and only if every
filter of `fs` matches `d`, and the empty list matches whatever the document. -/
theorem filters_are_and_combined (fs : List Filter) (d : Document) :
    (filtersMatch fs d = Except.ok true ↔ ∀ f ∈ fs, filterMatches f d = Except.ok true) ∧
    filtersMatch [] d = Except.ok true ∧
    (∀ fs2 : List Filter, fs.Perm fs2 →
      (filtersMatch fs d = Except.ok true ↔ filtersMatch fs2 d = Except.ok true)) ∧
    (∀ fs2 : List Filter, fs.Perm fs2 →
      (∀ f ∈ fs, ∃ b, filterMatches f d = Except.ok b) →
      filtersMatch fs d = filtersMatch fs2 d) ∧
    (∀ (PDoc : Type) (decodeDoc : PDoc → Except Error Document) (pdoc : PDoc),
      decodeDoc pdoc = Except.ok d →
      (firedocstore.evaluateLocalFilters decodeDoc fs pdoc = Except.ok (Except.ok true) ↔
        ∀ f ∈ fs, firedocstore.evaluateFilter f d = Except.ok true)) ∧
    (∀ (PDoc : Type) (decodeDoc : PDoc → Except Error Document) (pdoc : PDoc),
      firedocstore.evaluateLocalFilters decodeDoc [] pdoc = Except.ok (Except.ok true)) := by
  refine ⟨filtersMatch_true_iff fs d, rfl, ?_, ?_, ?_, ?_⟩
  · intro fs2 hperm
    rw [filtersMatch_true_iff, filtersMatch_true_iff]
    constructor
    · intro h f hf
      exact h f (hperm.mem_iff.mpr hf)
    · intro h f hf
      exact h f (hperm.mem_iff.mp hf)
  · intro fs2 hperm hnp
    rw [filtersMatch_of_no_panic fs d hnp,
      filtersMatch_of_no_panic fs2 d (fun f hf => hnp f (hperm.mem_iff.mpr hf))]
    congr 1
    rw [Bool.eq_iff_iff, List.all_eq_true, List.all_eq_true]
    constructor
    · intro h f hf
      exact h f (hperm.mem_iff.mpr hf)
    · intro h f hf
      exact h f (hperm.mem_iff.mp hf)
  · intro PDoc decodeDoc pdoc hdec
    cases fs with
    | nil => simp [firedocstore.evaluateLocalFilters]
    | cons f fs =>
      rw [← evaluateFilters_true_iff]
      simp only [firedocstore.evaluateLocalFilters, List.length_cons, hdec]
      cases hev : firedocstore.evaluateFilters (f :: fs) d with
      | error p => simp
      | ok m => simp
  · intro PDoc decodeDoc pdoc
    rfl

/-- C15, at the failing input: on the document `{B: 2, C: 5}` the filter list
`[C < 2, B = NaN]` gives false in memdocstore `filtersMatch`, as `C < 2` fails
and the loop stops, while the same filters in the other order, `[B = NaN, C < 2]`,
panic in the conversion of the NaN. Likewise in firedocstore, for the local
filters `[C < 2, B < NaN]` and `[B < NaN, C < 2]` of `evaluateLocalFilters`. The
result depends on the order of the filters. -/
theorem filtersMatch_order_dependent_at_nan :
    List.Perm
      [({ FieldPath := some ["C"], Op := "<", Value := Value.int 2 } : Filter),
       { FieldPath := some ["B"], Op := "=", Value := Value.float Float64.nan }]
      [{ FieldPath := some ["B"], Op := "=", Value := Value.float Float64.nan },
       { FieldPath := some ["C"], Op := "<", Value := Value.int 2 }] ∧
    filtersMatch
      [{ FieldPath := some ["C"], Op := "<", Value := Value.int 2 },
       { FieldPath := some ["B"], Op := "=", Value := Value.float Float64.nan }]
      (documentBC (Value.int 2) (Value.int 5)) = Except.ok false ∧
    filtersMatch
      [{ FieldPath := some ["B"], Op := "=", Value := Value.float Float64.nan },
       { FieldPath := some ["C"], Op := "<", Value := Value.int 2 }]
      (documentBC (Value.int 2) (Value.int 5)) = Except.error "ErrNaN" ∧
    List.Perm
      [({ FieldPath := some ["C"], Op := "<", Value := Value.int 2 } : Filter),
       { FieldPath := some ["B"], Op := "<", Value := Value.float Float64.nan }]
      [{ FieldPath := some ["B"], Op := "<", Value := Value.float Float64.nan },
       { FieldPath := some ["C"], Op := "<", Value := Value.int 2 }] ∧
    firedocstore.evaluateLocalFilters (fun d : Document => Except.ok d)
      [{ FieldPath := some ["C"], Op := "<", Value := Value.int 2 },
       { FieldPath := some ["B"], Op := "<", Value := Value.float Float64.nan }]
      (documentBC (Value.int 2) (Value.int 5)) = Except.ok (Except.ok false) ∧
    firedocstore.evaluateLocalFilters (fun d : Document => Except.ok d)
      [{ FieldPath := some ["B"], Op := "<", Value := Value.float Float64.nan },
       { FieldPath := some ["C"], Op := "<", Value := Value.int 2 }]
      (documentBC (Value.int 2) (Value.int 5)) = Except.error "ErrNaN" :=
  ⟨List.Perm.swap _ _ _, rfl, rfl, List.Perm.swap _ _ _, rfl, rfl⟩

end memdocstore

namespace memdocstore

open driver

/-- The loop of `RunGetQuery`, when no evaluation panics: it adds to the
documents collected so far the matching documents still to visit, and stops at
the limit. -/
theorem runGetLoop_spec (q : Query) (rest : List Document) :
    ∀ acc : List Document,
      (∀ d ∈ rest, ∃ b, filtersMatch q.Filters d = Except.ok b) →
      (q.Limit > 0 → (acc.length : Int) ≤ q.Limit) →
      runGetLoop q rest acc = Except.ok
        (if q.Limit > 0 then
          (acc ++ rest.filter (fun d => returnedTrue (filtersMatch q.Filters d))).take
            q.Limit.toNat
         else acc ++ rest.filter (fun d => returnedTrue (filtersMatch q.Filters d))) := by
  induction rest with
  | nil =>
    intro acc _ hlen
    by_cases hl : q.Limit > 0
    · have : acc.length ≤ q.Limit.toNat := by
        have := hlen hl
        omega
      simp [runGetLoop, hl, List.take_of_length_le this]
    · simp [runGetLoop, hl]
  | cons d rest ih =>
    intro acc hnp hlen
    obtain ⟨b, hb⟩ := hnp d (List.mem_cons_self _ _)
    have hrest : ∀ d2 ∈ rest, ∃ b, filtersMatch q.Filters d2 = Except.ok b :=
      fun d2 hd2 => hnp d2 (List.mem_cons_of_mem _ hd2)
    by_cases hbreak : q.Limit > 0 ∧ (acc.length : Int) = q.Limit
    · have hn : acc.length = q.Limit.toNat := by omega
      simp only [runGetLoop, if_pos hbreak, if_pos hbreak.1]
      rw [List.take_append_of_le_length (le_of_eq hn.symm), List.take_of_length_le (le_of_eq hn)]
    · simp only [runGetLoop, if_neg hbreak, hb]
      have hlen2 : q.Limit > 0 →
          (((if b then acc ++ [d] else acc).length : Nat) : Int) ≤ q.Limit := by
        intro hl
        have h1 := hlen hl
        have h2 : (acc.length : Int) ≠ q.Limit := fun e => hbreak ⟨hl, e⟩
        cases b <;> simp <;> omega
      rw [ih _ hrest hlen2]
      cases b with
      | true => simp [List.filter_cons, hb, returnedTrue]
      | false => simp [List.filter_cons, hb, returnedTrue]

/-- The loop of `RunGetQuery`, whenever it returns: it has added to the documents
collected so far the matching documents still to visit, up to the limit. -/
theorem runGetLoop_of_ok (q : Query) (rest : List Document) :
    ∀ acc res : List Document,
      (q.Limit > 0 → (acc.length : Int) ≤ q.Limit) →
      runGetLoop q rest acc = Except.ok res →
      res =
        (if q.Limit > 0 then
          (acc ++ rest.filter (fun d => returnedTrue (filtersMatch q.Filters d))).take
            q.Limit.toNat
         else acc ++ rest.filter (fun d => returnedTrue (filtersMatch q.Filters d))) := by
  induction rest with
  | nil =>
    intro acc res hlen hres
    have hnil := runGetLoop_spec q [] acc (fun d hd => by cases hd) hlen
    rw [hnil] at hres
    exact (Except.ok.inj hres).symm
  | cons d rest ih =>
    intro acc res hlen hres
    by_cases hbreak : q.Limit > 0 ∧ (acc.length : Int) = q.Limit
    · have hn : acc.length = q.Limit.toNat := by omega
      simp only [runGetLoop, if_pos hbreak] at hres
      rw [← Except.ok.inj hres, if_pos hbreak.1,
        List.take_append_of_le_length (le_of_eq hn.symm), List.take_of_length_le (le_of_eq hn)]
    · simp only [runGetLoop, if_neg hbreak] at hres
      cases hb : filtersMatch q.Filters d with
      | error p =>
        rw [hb] at hres
        cases hres
      | ok b =>
        rw [hb] at hres
        have hlen2 : q.Limit > 0 →
            (((if b then acc ++ [d] else acc).length : Nat) : Int) ≤ q.Limit := by
          intro hl
          have h1 := hlen hl
          have h2 : (acc.length : Int) ≠ q.Limit := fun e => hbreak ⟨hl, e⟩
          cases b <;> simp <;> omega
        rw [ih _ res hlen2 hres]
        cases b with
        | true => simp [List.filter_cons, hb, returnedTrue]
        | false => simp [List.filter_cons, hb, returnedTrue]

/-- Whenever `RunGetQuery` returns, on any collection and query, its iterator
holds the matching documents, up to the limit. -/
theorem RunGetQuery_of_ok (c : collection) (q : Query) (it : docIterator)
    (h : RunGetQuery c q = Except.ok it) :
    it.docs = (if q.Limit > 0 then (matchingDocs c q).take q.Limit.toNat
               else matchingDocs c q) ∧
    it.fieldPaths = q.FieldPaths ∧ it.err = none := by
  unfold RunGetQuery at h
  cases hl : runGetLoop q (c.docs.map Prod.snd) [] with
  | error p =>
    rw [hl] at h
    cases h
  | ok docs =>
    rw [hl] at h
    have hd := runGetLoop_of_ok q (c.docs.map Prod.snd) [] docs
      (fun hlim => by simpa using hlim.le) hl
    rw [← Except.ok.inj h]
    refine ⟨?_, rfl, rfl⟩
    simpa [matchingDocs] using hd

/-- When no evaluation panics, memdocstore `RunGetQuery` honours filters and
`Limit`. For every collection, taken in its iteration order, and every query
whose filters are evaluated without a panic on the documents of the collection,
`RunGetQuery` returns an iterator, with a nil error, that holds exactly the
documents that match every filter, in order: the first `Limit` of them when
`Limit > 0` and all of them when `Limit <= 0`. A document that fails a filter is
not in the iterator and takes no place among the first `Limit`. -/
theorem RunGetQuery_filters_and_limit (c : collection) (q : Query)
    (h : ∀ kd ∈ c.docs, ∃ b, filtersMatch q.Filters kd.2 = Except.ok b) :
    RunGetQuery c q = Except.ok
      { docs := if q.Limit > 0 then (matchingDocs c q).take q.Limit.toNat
                else matchingDocs c q
        fieldPaths := q.FieldPaths
        err := none } ∧
    (∀ d ∈ matchingDocs c q, filtersMatch q.Filters d = Except.ok true) ∧
    (∀ kd ∈ c.docs, filtersMatch q.Filters kd.2 = Except.ok true → kd.2 ∈ matchingDocs c q) := by
  have hnp : ∀ d ∈ c.docs.map Prod.snd, ∃ b, filtersMatch q.Filters d = Except.ok b := by
    intro d hd
    obtain ⟨kd, hkd, rfl⟩ := List.mem_map.mp hd
    exact h kd hkd
  have hloop := runGetLoop_spec q (c.docs.map Prod.snd) [] hnp
    (fun hl => by simpa using hl.le)
  have htrue : ∀ d, returnedTrue (filtersMatch q.Filters d) = true ↔
      filtersMatch q.Filters d = Except.ok true := by
    intro d
    cases hr : filtersMatch q.Filters d with
    | error p => simp [returnedTrue]
    | ok m => cases m <;> simp [returnedTrue]
  refine ⟨?_, ?_, ?_⟩
  · simp only [RunGetQuery, hloop, List.nil_append, matchingDocs]
  · intro d hd
    simp only [matchingDocs, List.mem_filter] at hd
    exact (htrue d).mp hd.2
  · intro kd hkd hm
    simp only [matchingDocs, List.mem_filter]
    exact ⟨List.mem_map.mpr ⟨kd, hkd, rfl⟩, (htrue _).mpr hm⟩

/-- C16, at the failing input: on the collection that holds the one document
`{B: NaN, C: 1}`, for the query `B > 1 AND C < 2`, no document matches every
filter, so that the iterator should be empty; `RunGetQuery` panics in the
conversion of the NaN and returns no iterator. With a limit of 1 and the matching
document `{B: 2, C: 1}` before that document, the loop stops at the limit and the
call returns the iterator over `{B: 2, C: 1}`. -/
theorem RunGetQuery_panics_on_nan_document :
    matchingDocs { docs := [("k1", documentBC (Value.float Float64.nan) (Value.int 1))] }
      (exampleQuery [] 0) = [] ∧
    RunGetQuery { docs := [("k1", documentBC (Value.float Float64.nan) (Value.int 1))] }
      (exampleQuery [] 0) = Except.error "ErrNaN" ∧
    RunGetQuery
      { docs := [("k1", documentBC (Value.int 2) (Value.int 1)),
                 ("k2", documentBC (Value.float Float64.nan) (Value.int 1))] }
      (exampleQuery [] 1) =
      Except.ok { docs := [documentBC (Value.int 2) (Value.int 1)], fieldPaths := [],
                  err := none } ∧
    RunGetQuery
      { docs := [("k1", documentBC (Value.int 2) (Value.int 1)),
                 ("k2", documentBC (Value.float Float64.nan) (Value.int 1))] }
      (exampleQuery [] 0) = Except.error "ErrNaN" :=
  ⟨rfl, rfl, rfl, rfl⟩

end memdocstore

namespace firedocstore

open driver

/-- What `queryToProto` puts in the structured query besides the filters,
whenever it returns one: the projection is made of the field paths of the query
and of nothing else, the limit is the limit of the query, and the local filters
are those of `splitFilters`. -/
theorem queryToProto_of_ok {PValue : Type} (codec : Codec PValue) (collID : String)
    (q : Query) (sq : StructuredQuery PValue) (localFilters : List Filter)
    (h : queryToProto codec collID q = Except.ok (sq, localFilters)) :
    sq.Select = (if q.FieldPaths.length > 0 then some (q.FieldPaths.map (fieldRef codec))
                 else none) ∧
    sq.Limit = (if q.Limit > 0 then some (int32 q.Limit) else none) ∧
    localFilters = (splitFilters q.Filters).2 := by
  unfold queryToProto at h
  simp only [] at h
  cases hp : filtersToProto codec (splitFilters q.Filters).1 with
  | error e =>
    rw [hp] at h
    cases h
  | ok pfs =>
    rw [hp] at h
    have h2 := Except.ok.inj h
    have hsq := (Prod.mk.inj h2).1
    have hl := (Prod.mk.inj h2).2
    rw [← hsq, ← hl]
    exact ⟨rfl, rfl, rfl⟩

/-- The list `responses` is what repeated calls of `nextResponse` give: a call
that panics makes the list panic, a call that returns an error ends the list, and
a call that returns a document puts it before the documents of the rest of the
stream. -/
theorem responses_eq_nextResponse {PDoc : Type} (decodeDoc : PDoc → Except Error Document)
    (localFilters : List Filter) (stream : List (Recv PDoc)) :
    responses decodeDoc localFilters stream =
      (match nextResponse decodeDoc localFilters stream with
        | Except.error p => Except.error p
        | Except.ok (_, Except.error _) => Except.ok []
        | Except.ok (rest, Except.ok pdoc) =>
          match responses decodeDoc localFilters rest with
          | Except.error p => Except.error p
          | Except.ok ds => Except.ok (pdoc :: ds)) := by
  induction stream with
  | nil => rfl
  | cons r stream ih =>
    cases r with
    | err e => rfl
    | progress =>
      simp only [responses, nextResponse]
      exact ih
    | document pdoc =>
      simp only [responses, nextResponse]
      cases hev : evaluateLocalFilters decodeDoc localFilters pdoc with
      | error p => rfl
      | ok r =>
        cases r with
        | error e => rfl
        | ok m =>
          cases m with
          | true => simp
          | false =>
            simp only [Bool.false_eq_true, if_false]
            rw [← ih]
            cases responses decodeDoc localFilters stream <;> rfl

/-- C17, at the failing input: the query `B > 1 AND C < 2` with limit 1 on a
collection whose first document fails the local filter `C < 2` and whose second
document satisfies both filters. `queryToProto` sends the limit 1 with the native
filter `B > 1` and keeps `C < 2` as local filter; the backend returns the first
document; the iterator rejects it, so that its first `nextResponse` returns
`io.EOF` and it yields no document, whereas the first document of the collection
that satisfies the full filter set is the second one. -/
theorem limit_counts_locally_rejected_candidates :
    (∃ sq : StructuredQuery Value,
      queryToProto exampleCodec "docs" (exampleQuery [] 1) =
        Except.ok (sq, [{ FieldPath := some ["C"], Op := "<", Value := Value.int 2 }]) ∧
      sq.Limit = some 1) ∧
    (splitFilters (exampleQuery [] 1).Filters).1 =
      [{ FieldPath := some ["B"], Op := ">", Value := Value.int 1 }] ∧
    backendRunQuery [{ FieldPath := some ["B"], Op := ">", Value := Value.int 1 }] (some 1)
      [documentBC (Value.int 2) (Value.int 5), documentBC (Value.int 2) (Value.int 1)] =
      [documentBC (Value.int 2) (Value.int 5)] ∧
    nextResponse (fun d : Document => Except.ok d)
      [{ FieldPath := some ["C"], Op := "<", Value := Value.int 2 }]
      [Recv.document (documentBC (Value.int 2) (Value.int 5))] =
        Except.ok ([], Except.error Error.EOF) ∧
    responses (fun d : Document => Except.ok d)
      [{ FieldPath := some ["C"], Op := "<", Value := Value.int 2 }]
      [Recv.document (documentBC (Value.int 2) (Value.int 5))] = Except.ok [] ∧
    fullQueryResult (exampleQuery [] 1)
      [documentBC (Value.int 2) (Value.int 5), documentBC (Value.int 2) (Value.int 1)] =
      [documentBC (Value.int 2) (Value.int 1)] :=
  ⟨⟨_, rfl, rfl⟩, rfl, rfl, rfl, rfl, rfl⟩

/-- C18, at the failing input: the query `B > 1 AND C < 2` that asks for the field
`A`. `queryToProto` keeps `C < 2` as local filter and selects the field `A` only:
the field path `C` of the local filter is not among the selected fields. -/
theorem projection_misses_local_filter_fields :
    ∃ sq : StructuredQuery Value,
      queryToProto exampleCodec "docs" (exampleQuery [some ["A"]] 0) =
        Except.ok (sq, [{ FieldPath := some ["C"], Op := "<", Value := Value.int 2 }]) ∧
      sq.Select = some [{ FieldPath := "A" }] ∧
      ∀ fields, sq.Select = some fields →
        fieldRef exampleCodec (some ["C"]) ∉ fields :=
  ⟨_, rfl, rfl, fun fields h => by
    have h2 : fields = [{ FieldPath := "A" }] := (Option.some.inj h).symm
    rw [h2]
    decide⟩

end firedocstore

namespace memdocstore

open driver

theorem Next_of_err (decodeDoc : Document → List FieldPath → Option Error)
    (it : docIterator) (e : Error) (h : it.err = some e) :
    it.Next decodeDoc = (it, { err := some e, decoded := none }) := by
  simp only [docIterator.Next, h]

/-- The error that `Next` returns is the error the iterator keeps. -/
theorem Next_keeps_err (decodeDoc : Document → List FieldPath → Option Error)
    (it : docIterator) (e : Error) (h : (it.Next decodeDoc).2.err = some e) :
    (it.Next decodeDoc).1.err = some e := by
  unfold docIterator.Next at h ⊢
  cases he : it.err with
  | some e2 =>
    simp only [he] at h ⊢
    exact h
  | none =>
    cases hd : it.docs with
    | nil =>
      simp only [he, hd] at h ⊢
      exact h
    | cons d rest =>
      cases hdec : decodeDoc d it.fieldPaths with
      | some e2 =>
        simp only [he, hd, hdec] at h ⊢
        exact h
      | none =>
        simp only [he, hd, hdec] at h
        cases h

/-- Once the iterator keeps an error, calls change nothing but the error, which
`Stop` sets to `io.EOF`: every `Next` returns the kept error or `io.EOF`, decodes
nothing and leaves the documents in place. -/
theorem run_of_err (decodeDoc : Document → List FieldPath → Option Error) (cs : List Call) :
    ∀ (it : docIterator) (e : Error), it.err = some e →
      (docIterator.run decodeDoc cs it).1.docs = it.docs ∧
      (docIterator.run decodeDoc cs it).1.fieldPaths = it.fieldPaths ∧
      ((docIterator.run decodeDoc cs it).1.err = some e ∨
        (docIterator.run decodeDoc cs it).1.err = some Error.EOF) ∧
      ∀ r ∈ (docIterator.run decodeDoc cs it).2,
        (r.err = some e ∨ r.err = some Error.EOF) ∧ r.decoded = none := by
  induction cs with
  | nil =>
    intro it e h
    exact ⟨rfl, rfl, Or.inl h, fun r hr => by cases hr⟩
  | cons c cs ih =>
    intro it e h
    cases c with
    | next =>
      simp only [docIterator.run, Next_of_err decodeDoc it e h]
      obtain ⟨h1, h2, h3, h4⟩ := ih it e h
      refine ⟨h1, h2, h3, ?_⟩
      intro r hr
      rcases List.mem_cons.mp hr with rfl | hr
      · exact ⟨Or.inl rfl, rfl⟩
      · exact h4 r hr
    | stop =>
      simp only [docIterator.run]
      obtain ⟨h1, h2, h3, h4⟩ := ih it.Stop Error.EOF rfl
      refine ⟨h1, h2, Or.inr (h3.elim id id), ?_⟩
      intro r hr
      exact ⟨Or.inr ((h4 r hr).1.elim id id), (h4 r hr).2⟩

/-- C19: after `Stop` the iterator is inert. For every iterator, one or more
calls of `Stop` leave it in the state of one call, with its remaining documents
in place; from that state, whatever calls of `Next` and `Stop` follow, the
iterator stays in that state and every `Next` returns `io.EOF` and decodes no
document. -/
theorem stop_makes_iterator_inert (decodeDoc : Document → List FieldPath → Option Error)
    (it : docIterator) :
    (∀ k : Nat, docIterator.Stop^[k + 1] it = it.Stop) ∧
    it.Stop.docs = it.docs ∧
    it.Stop.Stop = it.Stop ∧
    it.Stop.Next decodeDoc = (it.Stop, { err := some Error.EOF, decoded := none }) ∧
    ∀ cs : List Call,
      (docIterator.run decodeDoc cs it.Stop).1 = it.Stop ∧
      ∀ r ∈ (docIterator.run decodeDoc cs it.Stop).2,
        r.err = some Error.EOF ∧ r.decoded = none := by
  have hss : ∀ s : docIterator, s.Stop.Stop = s.Stop := fun s => rfl
  refine ⟨?_, rfl, rfl, rfl, ?_⟩
  · intro k
    induction k with
    | zero => rfl
    | succ n ih =>
      rw [Function.iterate_succ_apply', ih]
      rfl
  · intro cs
    obtain ⟨h1, h2, h3, h4⟩ := run_of_err decodeDoc cs it.Stop Error.EOF rfl
    constructor
    · have herr : (docIterator.run decodeDoc cs it.Stop).1.err = some Error.EOF :=
        h3.elim id id
      cases hr : (docIterator.run decodeDoc cs it.Stop).1 with
      | mk docs fps err =>
        rw [hr] at h1 h2 herr
        simp only at h1 h2 herr
        rw [h1, h2, herr]
        rfl
    · intro r hr
      exact ⟨(h4 r hr).1.elim id id, (h4 r hr).2⟩

/-- C20: a terminal signal is permanent. Once `Next` has returned a non-nil error
`e`, `io.EOF` on exhaustion or the error of `decodeDoc`, every later `Next`
returns the same `e`, decodes no document and leaves the iterator as it is; and
if calls of `Stop` come in between, every later `Next` still returns an error,
`e` or the `io.EOF` of `Stop`, decodes no document and consumes none. -/
theorem terminal_error_is_permanent (decodeDoc : Document → List FieldPath → Option Error)
    (it : docIterator) (e : Error) (h : (it.Next decodeDoc).2.err = some e) :
    (∀ n : Nat,
      docIterator.run decodeDoc (List.replicate n Call.next) (it.Next decodeDoc).1 =
        ((it.Next decodeDoc).1, List.replicate n { err := some e, decoded := none })) ∧
    ∀ cs : List Call,
      (docIterator.run decodeDoc cs (it.Next decodeDoc).1).1.docs = (it.Next decodeDoc).1.docs ∧
      ∀ r ∈ (docIterator.run decodeDoc cs (it.Next decodeDoc).1).2,
        (r.err = some e ∨ r.err = some Error.EOF) ∧ r.decoded = none := by
  have herr := Next_keeps_err decodeDoc it e h
  constructor
  · intro n
    induction n with
    | zero => rfl
    | succ n ih =>
      simp only [List.replicate_succ, docIterator.run,
        Next_of_err decodeDoc (it.Next decodeDoc).1 e herr, ih]
  · intro cs
    obtain ⟨h1, _, _, h4⟩ := run_of_err decodeDoc cs (it.Next decodeDoc).1 e herr
    exact ⟨h1, h4⟩

/-- C20, at an iterator over one document whose decoding fails: the first `Next`
returns the decode error, and so does every later one. -/
theorem terminal_error_is_permanent_witness :
    (docIterator.Next (fun _ _ => some (Error.other "decode"))
      { docs := [emptyDocument], fieldPaths := [], err := none }).2.err
        = some (Error.other "decode") ∧
    ∀ n : Nat,
      docIterator.run (fun _ _ => some (Error.other "decode")) (List.replicate n Call.next)
        (docIterator.Next (fun _ _ => some (Error.other "decode"))
          { docs := [emptyDocument], fieldPaths := [], err := none }).1 =
      ((docIterator.Next (fun _ _ => some (Error.other "decode"))
          { docs := [emptyDocument], fieldPaths := [], err := none }).1,
        List.replicate n { err := some (Error.other "decode"), decoded := none }) :=
  ⟨rfl, (terminal_error_is_permanent (fun _ _ => some (Error.other "decode"))
    { docs := [emptyDocument], fieldPaths := [], err := none } (Error.other "decode") rfl).1⟩

end memdocstore


namespace memdocstore

open driver

/-- The calls of `Next` on an iterator without error whose documents all decode:
as many calls as there are documents deliver them in order and empty the
iterator. -/
theorem run_next_delivers (decodeDoc : Document → List FieldPath → Option Error)
    (fps : List FieldPath) (ds : List Document) (h : ∀ d ∈ ds, decodeDoc d fps = none) :
    docIterator.run decodeDoc (List.replicate ds.length Call.next)
        { docs := ds, fieldPaths := fps, err := none } =
      ({ docs := [], fieldPaths := fps, err := none },
        ds.map (fun d => { err := none, decoded := some d })) := by
  induction ds with
  | nil => rfl
  | cons d ds ih =>
    have hd : decodeDoc d fps = none := h d (List.mem_cons_self _ _)
    have ih2 := ih (fun x hx => h x (List.mem_cons_of_mem _ hx))
    simp only [List.length_cons, List.replicate_succ, docIterator.run, docIterator.Next, hd,
      ih2, List.map_cons]

theorem run_append (decodeDoc : Document → List FieldPath → Option Error)
    (cs1 cs2 : List Call) :
    ∀ it : docIterator,
      docIterator.run decodeDoc (cs1 ++ cs2) it =
        ((docIterator.run decodeDoc cs2 (docIterator.run decodeDoc cs1 it).1).1,
          (docIterator.run decodeDoc cs1 it).2 ++
            (docIterator.run decodeDoc cs2 (docIterator.run decodeDoc cs1 it).1).2) := by
  induction cs1 with
  | nil => intro it; rfl
  | cons c cs1 ih =>
    intro it
    cases c with
    | next =>
      rw [List.cons_append]
      simp only [docIterator.run]
      rw [ih]
      rfl
    | stop =>
      rw [List.cons_append]
      simp only [docIterator.run]
      rw [ih]

/-- C21: the memdocstore iterator is a finite forward-only sequence. For an
iterator created over a list of `n` documents whose decoding succeeds, the first
`n` calls of `Next` return no error and deliver the documents in list order, each
once, leaving no document; and the call `n + 1` returns `io.EOF` and decodes
nothing. -/
theorem iterator_is_finite_forward_sequence
    (decodeDoc : Document → List FieldPath → Option Error)
    (fps : List FieldPath) (ds : List Document) (h : ∀ d ∈ ds, decodeDoc d fps = none) :
    docIterator.run decodeDoc (List.replicate ds.length Call.next)
        { docs := ds, fieldPaths := fps, err := none } =
      ({ docs := [], fieldPaths := fps, err := none },
        ds.map (fun d => { err := none, decoded := some d })) ∧
    docIterator.run decodeDoc (List.replicate (ds.length + 1) Call.next)
        { docs := ds, fieldPaths := fps, err := none } =
      ({ docs := [], fieldPaths := fps, err := some Error.EOF },
        ds.map (fun d => { err := none, decoded := some d })
          ++ [{ err := some Error.EOF, decoded := none }]) := by
  have h1 := run_next_delivers decodeDoc fps ds h
  refine ⟨h1, ?_⟩
  have hsplit : List.replicate (ds.length + 1) Call.next =
      List.replicate ds.length Call.next ++ [Call.next] := by
    rw [List.replicate_succ']
  rw [hsplit, run_append, h1]
  rfl

/-- C21, at an iterator over two documents that decode: two calls of `Next`
deliver them in order and the third returns `io.EOF`. -/
theorem iterator_is_finite_forward_sequence_witness :
    (∀ d ∈ [constDocument (Value.int 1), constDocument (Value.int 2)],
      (fun (_ : Document) (_ : List FieldPath) => (none : Option Error)) d [] = none) ∧
    docIterator.run (fun _ _ => none) [Call.next, Call.next, Call.next]
        { docs := [constDocument (Value.int 1), constDocument (Value.int 2)],
          fieldPaths := [], err := none } =
      ({ docs := [], fieldPaths := [], err := some Error.EOF },
        [{ err := none, decoded := some (constDocument (Value.int 1)) },
         { err := none, decoded := some (constDocument (Value.int 2)) },
         { err := some Error.EOF, decoded := none }]) :=
  ⟨fun _ _ => rfl,
   (iterator_is_finite_forward_sequence (fun _ _ => none) []
      [constDocument (Value.int 1), constDocument (Value.int 2)] (fun _ _ => rfl)).2⟩

end memdocstore


namespace driver

theorem items_appendItem (alerr : ActionListError) (x : ActionListErrorItem) :
    (appendItem alerr x).items = alerr.items ++ [x] := rfl

/-- The loop of `NewActionListError` appends the items of the non-nil errors to
the slice built so far, and leaves a slice nil only if it appends nothing. -/
theorem newActionListErrorLoop_spec (errs : List (Option Error)) :
    ∀ (i : Nat) (alerr : ActionListError),
      (newActionListErrorLoop i errs alerr).items = alerr.items ++ nonNilItems i errs ∧
      (newActionListErrorLoop i errs alerr = none ↔
        alerr = none ∧ ∀ e ∈ errs, e = none) := by
  induction errs with
  | nil =>
    intro i alerr
    simp [newActionListErrorLoop, nonNilItems]
  | cons err rest ih =>
    intro i alerr
    cases err with
    | none =>
      obtain ⟨h1, h2⟩ := ih (i + 1) alerr
      simp only [newActionListErrorLoop, nonNilItems, h1, h2, List.mem_cons, forall_eq_or_imp,
        true_and]
    | some e =>
      obtain ⟨h1, h2⟩ := ih (i + 1) (appendItem alerr { Index := i, Err := e })
      simp only [newActionListErrorLoop, nonNilItems, h1, h2, items_appendItem,
        List.append_assoc, List.singleton_append, List.mem_cons, forall_eq_or_imp, true_and]
      constructor
      · intro h
        cases h.1
      · intro h
        cases h.2.1

theorem mem_nonNilItems (errs : List (Option Error)) :
    ∀ (i j : Nat) (e : Error),
      ({ Index := j, Err := e } : ActionListErrorItem) ∈ nonNilItems i errs ↔
        i ≤ j ∧ errs[j - i]? = some (some e) := by
  induction errs with
  | nil =>
    intro i j e
    simp [nonNilItems]
  | cons err rest ih =>
    intro i j e
    have hstep : ∀ (hle : i + 1 ≤ j), (err :: rest)[j - i]? = rest[j - (i + 1)]? := by
      intro hle
      have : j - i = (j - (i + 1)) + 1 := by omega
      rw [this, List.getElem?_cons_succ]
    cases err with
    | none =>
      simp only [nonNilItems, ih]
      constructor
      · rintro ⟨hle, hget⟩
        exact ⟨by omega, by rw [hstep hle]; exact hget⟩
      · rintro ⟨hle, hget⟩
        by_cases hij : i = j
        · subst hij
          simp at hget
        · have hle2 : i + 1 ≤ j := by omega
          exact ⟨hle2, by rw [← hstep hle2]; exact hget⟩
    | some e2 =>
      simp only [nonNilItems, List.mem_cons, ih, ActionListErrorItem.mk.injEq]
      constructor
      · rintro (⟨rfl, rfl⟩ | ⟨hle, hget⟩)
        · simp
        · exact ⟨by omega, by rw [hstep hle]; exact hget⟩
      · rintro ⟨hle, hget⟩
        by_cases hij : i = j
        · subst hij
          simp only [Nat.sub_self, List.getElem?_cons_zero, Option.some.injEq] at hget
          exact Or.inl ⟨rfl, hget.symm⟩
        · have hle2 : i + 1 ≤ j := by omega
          exact Or.inr ⟨hle2, by rw [← hstep hle2]; exact hget⟩

theorem index_ge_of_mem_nonNilItems (errs : List (Option Error)) (i : Nat)
    (x : ActionListErrorItem) (h : x ∈ nonNilItems i errs) : i ≤ x.Index := by
  obtain ⟨j, e⟩ := x
  exact ((mem_nonNilItems errs i j e).mp h).1

theorem nonNilItems_pairwise (errs : List (Option Error)) :
    ∀ i : Nat, (nonNilItems i errs).Pairwise (fun x y => x.Index < y.Index) := by
  induction errs with
  | nil => intro i; simp [nonNilItems]
  | cons err rest ih =>
    intro i
    cases err with
    | none => exact ih (i + 1)
    | some e =>
      simp only [nonNilItems, List.pairwise_cons]
      refine ⟨?_, ih (i + 1)⟩
      intro y hy
      have := index_ge_of_mem_nonNilItems rest (i + 1) y hy
      omega

theorem nonNilItems_length (errs : List (Option Error)) :
    ∀ i : Nat, (nonNilItems i errs).length = errs.countP (fun e => e.isSome) := by
  induction errs with
  | nil => intro i; rfl
  | cons err rest ih =>
    intro i
    cases err with
    | none => simp [nonNilItems, ih]
    | some e => simp [nonNilItems, ih]

/-- C22: `NewActionListError(errs)` is made of one item `{i, errs[i]}` for every
index `i` at which `errs[i]` is non-nil and of nothing else: an item is in it if
and only if it is such an item; the items come in strictly increasing index
order, so that no index occurs twice; the length is the number of non-nil errors;
and the result is the nil slice if and only if every error is nil. -/
theorem NewActionListError_items (errs : List (Option Error)) :
    (NewActionListError errs).items = nonNilItems 0 errs ∧
    (∀ (i : Nat) (e : Error),
      ({ Index := i, Err := e } : ActionListErrorItem) ∈ (NewActionListError errs).items ↔
        errs[i]? = some (some e)) ∧
    (NewActionListError errs).items.Pairwise (fun x y => x.Index < y.Index) ∧
    (NewActionListError errs).items.length = errs.countP (fun e => e.isSome) ∧
    (NewActionListError errs = none ↔ ∀ e ∈ errs, e = none) := by
  obtain ⟨h1, h2⟩ := newActionListErrorLoop_spec errs 0 none
  have hitems : (NewActionListError errs).items = nonNilItems 0 errs := by
    simpa [NewActionListError, ActionListError.items] using h1
  refine ⟨hitems, ?_, ?_, ?_, ?_⟩
  · intro i e
    rw [hitems, mem_nonNilItems]
    simp
  · rw [hitems]
    exact nonNilItems_pairwise errs 0
  · rw [hitems]
    exact nonNilItems_length errs 0
  · simpa [NewActionListError] using h2

end driver


namespace memdocstore

open driver

theorem returnedTrue_iff (r : Except String Bool) :
    returnedTrue r = true ↔ r = Except.ok true := by
  cases r with
  | error p => simp [returnedTrue]
  | ok m => cases m <;> simp [returnedTrue]

/-- The loop of `RunDeleteQuery`, when no evaluation panics: it removes from the
map the entries whose key is the key of a matching entry still to visit. -/
theorem runDeleteLoop_spec (q : Query) (rest : List (String × Document)) :
    ∀ docs : List (String × Document),
      (∀ kd ∈ rest, ∃ b, filtersMatch q.Filters kd.2 = Except.ok b) →
      runDeleteLoop q rest docs = Except.ok
        (docs.filter (fun kd => !(rest.any (fun e =>
          e.1 == kd.1 && returnedTrue (filtersMatch q.Filters e.2))))) := by
  induction rest with
  | nil =>
    intro docs _
    simp [runDeleteLoop]
  | cons entry rest ih =>
    intro docs hnp
    obtain ⟨key, doc⟩ := entry
    obtain ⟨b, hb⟩ := hnp (key, doc) (List.mem_cons_self _ _)
    have hrest : ∀ kd ∈ rest, ∃ b, filtersMatch q.Filters kd.2 = Except.ok b :=
      fun kd hkd => hnp kd (List.mem_cons_of_mem _ hkd)
    have hb2 : filtersMatch q.Filters doc = Except.ok b := hb
    simp only [runDeleteLoop, hb2]
    rw [ih _ hrest]
    congr 1
    cases b with
    | true =>
      have hrt : returnedTrue (filtersMatch q.Filters doc) = true := by rw [hb2]; rfl
      simp only [if_true, deleteKey, List.filter_filter, List.any_cons, hrt, Bool.and_true]
      apply List.filter_congr
      intro kd _
      by_cases hk : kd.1 = key
      · simp [hk]
      · have h1 : (kd.1 != key) = true := by simpa using hk
        have h2 : (key == kd.1) = false := by simpa using fun e : key = kd.1 => hk e.symm
        rw [Bool.and_comm, h1, h2]
        simp
    | false =>
      have hrt : returnedTrue (filtersMatch q.Filters doc) = false := by rw [hb2]; rfl
      simp only [Bool.false_eq_true, if_false, List.any_cons, hrt, Bool.and_false,
        Bool.false_or]

theorem entry_eq_of_key_eq (docs : List (String × Document))
    (hkeys : (docs.map Prod.fst).Nodup) (a b : String × Document)
    (ha : a ∈ docs) (hb : b ∈ docs) (h : a.1 = b.1) : a = b :=
  List.inj_on_of_nodup_map hkeys ha hb h

/-- The loop of `RunDeleteQuery` returns only if no evaluation of the filters on
an entry still to visit panics. -/
theorem runDeleteLoop_returns (q : Query) (rest : List (String × Document)) :
    ∀ docs r : List (String × Document),
      runDeleteLoop q rest docs = Except.ok r →
      ∀ kd ∈ rest, ∃ b, filtersMatch q.Filters kd.2 = Except.ok b := by
  induction rest with
  | nil =>
    intro docs r _ kd hkd
    cases hkd
  | cons entry rest ih =>
    intro docs r hret kd hkd
    obtain ⟨key, doc⟩ := entry
    cases hm : filtersMatch q.Filters doc with
    | error p =>
      have hm2 : filtersMatch q.Filters doc = Except.error p := hm
      simp only [runDeleteLoop, hm2] at hret
      cases hret
    | ok m =>
      have hm2 : filtersMatch q.Filters doc = Except.ok m := hm
      simp only [runDeleteLoop, hm2] at hret
      rcases List.mem_cons.mp hkd with rfl | hkd
      · exact ⟨m, hm⟩
      · exact ih _ r hret kd hkd

/-- A filter list that gives false has a filter that gives false. -/
theorem filtersMatch_false_exists (fs : List Filter) (d : Document)
    (h : filtersMatch fs d = Except.ok false) :
    ∃ f ∈ fs, filterMatches f d = Except.ok false := by
  induction fs with
  | nil => simp [filtersMatch] at h
  | cons f fs ih =>
    cases hf : filterMatches f d with
    | error p => simp [filtersMatch, hf] at h
    | ok m =>
      cases m with
      | false => exact ⟨f, List.mem_cons_self _ _, hf⟩
      | true =>
        simp only [filtersMatch, hf, Bool.not_true, Bool.false_eq_true, if_false] at h
        obtain ⟨g, hg, hgf⟩ := ih h
        exact ⟨g, List.mem_cons_of_mem _ hg, hgf⟩

/-- The call of `RunDeleteQuery` returns if and only if the filters are evaluated
without a panic on every document of the collection. -/
theorem RunDeleteQuery_returns_iff (c : collection) (q : Query) :
    (∃ r, RunDeleteQuery c q = Except.ok r) ↔
      ∀ kd ∈ c.docs, ∃ b, filtersMatch q.Filters kd.2 = Except.ok b := by
  constructor
  · rintro ⟨r, hr⟩
    unfold RunDeleteQuery at hr
    cases hl : runDeleteLoop q c.docs c.docs with
    | error p =>
      rw [hl] at hr
      cases hr
    | ok docs => exact runDeleteLoop_returns q c.docs c.docs docs hl
  · intro h
    refine ⟨({ docs := c.docs.filter (fun kd => !(c.docs.any (fun e =>
      e.1 == kd.1 && returnedTrue (filtersMatch q.Filters e.2)))) }, none), ?_⟩
    simp only [RunDeleteQuery, runDeleteLoop_spec q c.docs c.docs h]

/-- C23: memdocstore `RunDeleteQuery` deletes every document matched by the
filters of the query and nothing else. For every collection, a map whose keys are
distinct, and every query, after `RunDeleteQuery` returns, its error is nil and
the collection holds exactly the entries whose document failed at least one
filter, with their keys and documents as they were and in their order; no
remaining document matches all the filters; and the result is the same for every
query with the same filters, whatever its `Limit` and `FieldPaths`. -/
theorem RunDeleteQuery_deletes_matching (c : collection) (q : Query)
    (r : collection × Option Error)
    (hkeys : (c.docs.map Prod.fst).Nodup)
    (hret : RunDeleteQuery c q = Except.ok r) :
    r = ({ docs := remainingDocs c q }, none) ∧
    (remainingDocs c q).Sublist c.docs ∧
    (∀ kd ∈ c.docs, kd ∈ remainingDocs c q ↔
      ∃ f ∈ q.Filters, filterMatches f kd.2 = Except.ok false) ∧
    (∀ kd ∈ c.docs, kd ∉ remainingDocs c q ↔
      ∀ f ∈ q.Filters, filterMatches f kd.2 = Except.ok true) ∧
    (∀ kd ∈ remainingDocs c q, filtersMatch q.Filters kd.2 = Except.ok false) ∧
    (∀ q2 : Query, q2.Filters = q.Filters → RunDeleteQuery c q2 = RunDeleteQuery c q) := by
  have hnp2 : ∀ kd ∈ c.docs, ∃ b, filtersMatch q.Filters kd.2 = Except.ok b :=
    (RunDeleteQuery_returns_iff c q).mp ⟨r, hret⟩
  have hloop := runDeleteLoop_spec q c.docs c.docs hnp2
  have hpred : c.docs.filter (fun kd => !(c.docs.any (fun e =>
        e.1 == kd.1 && returnedTrue (filtersMatch q.Filters e.2)))) = remainingDocs c q := by
    unfold remainingDocs
    apply List.filter_congr
    intro kd hkd
    congr 1
    rw [Bool.eq_iff_iff, List.any_eq_true]
    constructor
    · rintro ⟨e, he, hp⟩
      simp only [Bool.and_eq_true, beq_iff_eq] at hp
      rw [← entry_eq_of_key_eq c.docs hkeys e kd he hkd hp.1]
      exact hp.2
    · intro hm
      exact ⟨kd, hkd, by simp [hm]⟩
  have hfalse : ∀ kd ∈ c.docs, (returnedTrue (filtersMatch q.Filters kd.2) = false ↔
      ∃ f ∈ q.Filters, filterMatches f kd.2 = Except.ok false) := by
    intro kd hkd
    obtain ⟨b, hb⟩ := hnp2 kd hkd
    rw [← Bool.not_eq_true, returnedTrue_iff]
    constructor
    · intro h
      cases b with
      | true => exact absurd hb h
      | false => exact filtersMatch_false_exists _ _ hb
    · rintro ⟨f, hf, hff⟩ htrue
      have := (filtersMatch_true_iff q.Filters kd.2).mp htrue f hf
      rw [this] at hff
      cases hff
  have hmem : ∀ kd ∈ c.docs, kd ∈ remainingDocs c q ↔
      ∃ f ∈ q.Filters, filterMatches f kd.2 = Except.ok false := by
    intro kd hkd
    simp only [remainingDocs, List.mem_filter, hkd, true_and, Bool.not_eq_true']
    exact hfalse kd hkd
  refine ⟨?_, List.filter_sublist _, hmem, ?_, ?_, ?_⟩
  · have h := hret
    simp only [RunDeleteQuery, hloop, hpred] at h
    cases h
    rfl
  · intro kd hkd
    obtain ⟨b, hb⟩ := hnp2 kd hkd
    rw [← filtersMatch_true_iff, hmem kd hkd]
    constructor
    · intro h
      cases b with
      | true => exact hb
      | false => exact absurd (filtersMatch_false_exists _ _ hb) h
    · rintro htrue ⟨f, hf, hff⟩
      have := (filtersMatch_true_iff q.Filters kd.2).mp htrue f hf
      rw [this] at hff
      cases hff
  · intro kd hkd
    simp only [remainingDocs, List.mem_filter, Bool.not_eq_true'] at hkd
    obtain ⟨b, hb⟩ := hnp2 kd hkd.1
    cases b with
    | true =>
      have := hkd.2
      rw [hb] at this
      cases this
    | false => exact hb
  · intro q2 hq2
    simp only [RunDeleteQuery]
    have : ∀ (rest docs : List (String × Document)),
        runDeleteLoop q2 rest docs = runDeleteLoop q rest docs := by
      intro rest
      induction rest with
      | nil => intro docs; rfl
      | cons e rest ih =>
        intro docs
        obtain ⟨key, doc⟩ := e
        simp only [runDeleteLoop, hq2, ih]
    rw [this]

/-- C23, at a collection of two documents, for the query `C < 2 AND B > 1` with
limit 1: the document `{B: NaN, C: 5}` fails the filter `C < 2`, so that its
filter `B > 1`, which would panic, is not evaluated; the call returns, the
matching document `{B: 2, C: 1}` is deleted and the other one stays. -/
theorem RunDeleteQuery_deletes_matching_witness :
    ((nanCollection.docs.map Prod.fst).Nodup ∧
      RunDeleteQuery nanCollection (exampleQueryCB [] 1) =
        Except.ok ({ docs := [("k1", documentBC (Value.float Float64.nan) (Value.int 5))] },
          none)) ∧
    (({ docs := [("k1", documentBC (Value.float Float64.nan) (Value.int 5))] }, none) :
        collection × Option Error) =
      ({ docs := remainingDocs nanCollection (exampleQueryCB [] 1) }, none) ∧
    filterMatches { FieldPath := some ["B"], Op := ">", Value := Value.int 1 }
      (documentBC (Value.float Float64.nan) (Value.int 5)) = Except.error "ErrNaN" :=
  ⟨⟨by decide, rfl⟩,
   (RunDeleteQuery_deletes_matching nanCollection (exampleQueryCB [] 1) _ (by decide) rfl).1,
   rfl⟩

end memdocstore


namespace firedocstore

open driver

theorem unaryOpFor_null : unaryOpFor Value.null = (UnaryOperator.IS_NULL, true) := rfl

theorem unaryOpFor_nan :
    unaryOpFor (Value.float Float64.nan) = (UnaryOperator.IS_NAN, true) := rfl

theorem unaryOpFor_other (v : Value) (h1 : v ≠ Value.null)
    (h2 : v ≠ Value.float Float64.nan) :
    unaryOpFor v = (UnaryOperator.OPERATOR_UNSPECIFIED, false) := by
  have hn : isNaN v = false := by
    cases v with
    | float f =>
      cases f with
      | nan => exact absurd rfl h2
      | finite m e => rfl
      | inf n => rfl
    | _ => rfl
  simp [unaryOpFor, h1, hn]

/-- The operator that the `switch` of `filterToProto` chooses is the Firestore
operator that matches the operator of the filter. -/
theorem switch_eq_matchingOperator (op : String) :
    (if op = "<" then some FieldOperator.LESS_THAN
     else if op = "<=" then some FieldOperator.LESS_THAN_OR_EQUAL
     else if op = ">" then some FieldOperator.GREATER_THAN
     else if op = ">=" then some FieldOperator.GREATER_THAN_OR_EQUAL
     else if op = EqualOp then some FieldOperator.EQUAL
     else none) = matchingOperator op := by
  unfold matchingOperator EqualOp
  by_cases h1 : op = "<"
  · subst h1; decide
  · by_cases h2 : op = "<="
    · subst h2; decide
    · by_cases h3 : op = ">"
      · subst h3; decide
      · by_cases h4 : op = ">="
        · subst h4; decide
        · by_cases h5 : op = "="
          · subst h5; decide
          · simp [h1, h2, h3, h4, h5]

theorem matchingOperator_none_iff (op : String) :
    matchingOperator op = none ↔ op ∉ fiveOperators := by
  unfold matchingOperator fiveOperators
  by_cases h1 : op = "="
  · simp [h1]
  · by_cases h2 : op = ">"
    · simp [h2]
    · by_cases h3 : op = "<"
      · simp [h3]
      · by_cases h4 : op = ">="
        · simp [h4]
        · by_cases h5 : op = "<="
          · simp [h5]
          · simp [h1, h2, h3, h4, h5]

/-- On a value that is neither nil nor a NaN, `filterToProto` looks up the
operator and then encodes the value. -/
theorem filterToProto_other {PValue : Type} (codec : Codec PValue) (f : Filter)
    (h1 : f.Value ≠ Value.null) (h2 : f.Value ≠ Value.float Float64.nan) :
    filterToProto codec f =
      (match matchingOperator f.Op with
        | none => Except.error (Error.other "invalid operator")
        | some op =>
          match codec.encodeValue f.Value with
          | Except.error e => Except.error e
          | Except.ok pv =>
            Except.ok (ProtoFilter.FieldFilter (fieldRef codec f.FieldPath) op pv)) := by
  unfold filterToProto
  rw [unaryOpFor_other f.Value h1 h2]
  simp only [switch_eq_matchingOperator]

theorem filtersToProto_error_of_mem {PValue : Type} (codec : Codec PValue)
    (fs : List Filter) (f : Filter) (e : Error) (hf : f ∈ fs)
    (herr : filterToProto codec f = Except.error e) :
    ∃ e2, filtersToProto codec fs = Except.error e2 := by
  induction fs with
  | nil => cases hf
  | cons g fs ih =>
    cases hg : filterToProto codec g with
    | error e2 => exact ⟨e2, by simp only [filtersToProto, hg]⟩
    | ok pf =>
      rcases List.mem_cons.mp hf with rfl | hmem
      · rw [herr] at hg
        cases hg
      · obtain ⟨e2, he2⟩ := ih hmem
        exact ⟨e2, by simp only [filtersToProto, hg, he2]⟩

/-- A filter that `filterToProto` refuses and that `splitFilters` sends to the
backend makes `queryToProto` return an error, and `newDocIterator` return it
without calling `RunQuery`. -/
theorem queryToProto_error_of_native {PValue : Type} (codec : Codec PValue)
    (collID : String) (q : Query) (f : Filter) (e : Error)
    (hf : f ∈ (splitFilters q.Filters).1)
    (herr : filterToProto codec f = Except.error e) :
    (∃ e2, queryToProto codec collID q = Except.error e2) ∧
    ∀ (beforeQuery : Option (StructuredQuery PValue → Option Error))
      (runQuery : StructuredQuery PValue → Option Error),
      (newDocIterator codec collID beforeQuery runQuery q).runQueryRequest = none ∧
      ∃ e2, (newDocIterator codec collID beforeQuery runQuery q).result = Except.error e2 := by
  obtain ⟨e2, he2⟩ := filtersToProto_error_of_mem codec _ f e hf herr
  have hq : queryToProto codec collID q = Except.error e2 := by
    simp only [queryToProto, he2]
  refine ⟨⟨e2, hq⟩, ?_⟩
  intro beforeQuery runQuery
  simp only [newDocIterator, hq]
  exact ⟨trivial, e2, rfl⟩

/-- C24, at the failing inputs: in the query `B > 1 AND C < NaN` the filter
`C < NaN` has an operator that `filterToProto` refuses for a NaN, and in the
query `B > 1 AND C != 2` the filter `C != 2` has an operator outside the five;
`splitFilters` keeps either filter for local evaluation, so that `queryToProto`
returns no error and `newDocIterator` calls `RunQuery` and returns an iterator. -/
theorem unsupported_local_filter_is_not_surfaced :
    filterToProto exampleCodec
        { FieldPath := some ["C"], Op := "<", Value := Value.float Float64.nan } =
      Except.error (Error.other "firestore: must use = when comparing") ∧
    (∃ sq : StructuredQuery Value,
      queryToProto exampleCodec "docs"
          { FieldPaths := [], Limit := 0
            Filters := [{ FieldPath := some ["B"], Op := ">", Value := Value.int 1 },
                        { FieldPath := some ["C"], Op := "<",
                          Value := Value.float Float64.nan }] } =
        Except.ok (sq, [{ FieldPath := some ["C"], Op := "<",
                          Value := Value.float Float64.nan }]) ∧
      newDocIterator exampleCodec "docs" none (fun _ => none)
          { FieldPaths := [], Limit := 0
            Filters := [{ FieldPath := some ["B"], Op := ">", Value := Value.int 1 },
                        { FieldPath := some ["C"], Op := "<",
                          Value := Value.float Float64.nan }] } =
        { runQueryRequest := some sq
          result := Except.ok [{ FieldPath := some ["C"], Op := "<",
                                 Value := Value.float Float64.nan }] }) ∧
    filterToProto exampleCodec
        { FieldPath := some ["C"], Op := "!=", Value := Value.int 2 } =
      Except.error (Error.other "invalid operator") ∧
    (∃ sq : StructuredQuery Value,
      queryToProto exampleCodec "docs"
          { FieldPaths := [], Limit := 0
            Filters := [{ FieldPath := some ["B"], Op := ">", Value := Value.int 1 },
                        { FieldPath := some ["C"], Op := "!=", Value := Value.int 2 }] } =
        Except.ok (sq, [{ FieldPath := some ["C"], Op := "!=", Value := Value.int 2 }]) ∧
      newDocIterator exampleCodec "docs" none (fun _ => none)
          { FieldPaths := [], Limit := 0
            Filters := [{ FieldPath := some ["B"], Op := ">", Value := Value.int 1 },
                        { FieldPath := some ["C"], Op := "!=", Value := Value.int 2 }] } =
        { runQueryRequest := some sq
          result := Except.ok [{ FieldPath := some ["C"], Op := "!=",
                                 Value := Value.int 2 }] }) :=
  ⟨rfl, ⟨_, rfl, rfl⟩, rfl, ⟨_, rfl, rfl⟩⟩

/-- C25: `applyComparison(op, c)` implements the five permitted operators on a
three-way comparison result. For every integer `c` it returns `c == 0` for `=`,
`c > 0` for `>`, `c < 0` for `<`, `c >= 0` for `>=` and `c <= 0` for `<=`, it
panics for every other operator, and the copy of memdocstore and the copy of
firedocstore are the same function. -/
theorem applyComparison_five_operators (c : Int) :
    memdocstore.applyComparison "=" c = Except.ok (decide (c = 0)) ∧
    memdocstore.applyComparison ">" c = Except.ok (decide (c > 0)) ∧
    memdocstore.applyComparison "<" c = Except.ok (decide (c < 0)) ∧
    memdocstore.applyComparison ">=" c = Except.ok (decide (c ≥ 0)) ∧
    memdocstore.applyComparison "<=" c = Except.ok (decide (c ≤ 0)) ∧
    (∀ op : String, op ∉ fiveOperators →
      memdocstore.applyComparison op c = Except.error "bad op") ∧
    (∀ op : String, op ∈ fiveOperators →
      ∃ b, memdocstore.applyComparison op c = Except.ok b) ∧
    applyComparison = memdocstore.applyComparison := by
  have hne : ∀ op : String, op ∉ fiveOperators →
      memdocstore.applyComparison op c = Except.error "bad op" := by
    intro op hop
    simp only [fiveOperators, List.mem_cons, List.mem_singleton, List.not_mem_nil, or_false,
      not_or] at hop
    obtain ⟨h1, h2, h3, h4, h5⟩ := hop
    simp [memdocstore.applyComparison, EqualOp, h1, h2, h3, h4, h5]
  refine ⟨?_, ?_, ?_, ?_, ?_, hne, ?_, rfl⟩
  · simp [memdocstore.applyComparison, EqualOp]
  · simp [memdocstore.applyComparison, EqualOp]
  · simp [memdocstore.applyComparison, EqualOp]
  · simp [memdocstore.applyComparison, EqualOp]
  · simp [memdocstore.applyComparison, EqualOp]
  · intro op hop
    simp only [fiveOperators, List.mem_cons, List.mem_singleton, List.not_mem_nil,
      or_false] at hop
    rcases hop with rfl | rfl | rfl | rfl | rfl <;>
      simp [memdocstore.applyComparison, EqualOp]

/-- What `filterToProto` does for nil and for a NaN of the type `float32` or
`float64`. For a filter whose value is nil or such a NaN it returns a unary filter
on the field, `IS_NULL` for nil and `IS_NAN` for NaN, when the operator is `=`,
and an error for every other operator. For every other value, a NaN of a defined
float type included, it returns a field filter on the field with the Firestore
operator that matches the operator of the filter and with the encoded value, and
it fails exactly when the operator is not one of the five or the value cannot be
encoded. -/
theorem filterToProto_nil_and_nan {PValue : Type} (codec : Codec PValue) (f : Filter) :
    (f.Value = Value.null → f.Op = EqualOp →
      filterToProto codec f =
        Except.ok (ProtoFilter.UnaryFilter (fieldRef codec f.FieldPath)
          UnaryOperator.IS_NULL)) ∧
    (f.Value = Value.float Float64.nan → f.Op = EqualOp →
      filterToProto codec f =
        Except.ok (ProtoFilter.UnaryFilter (fieldRef codec f.FieldPath)
          UnaryOperator.IS_NAN)) ∧
    (f.Value = Value.null ∨ f.Value = Value.float Float64.nan → f.Op ≠ EqualOp →
      ∃ e, filterToProto codec f = Except.error e) ∧
    (f.Value ≠ Value.null → f.Value ≠ Value.float Float64.nan →
      (∀ (op : FieldOperator) (pv : PValue), matchingOperator f.Op = some op →
        codec.encodeValue f.Value = Except.ok pv →
        filterToProto codec f =
          Except.ok (ProtoFilter.FieldFilter (fieldRef codec f.FieldPath) op pv)) ∧
      ((∃ e, filterToProto codec f = Except.error e) ↔
        (f.Op ∉ fiveOperators ∨ ∃ e, codec.encodeValue f.Value = Except.error e))) := by
  refine ⟨?_, ?_, ?_, ?_⟩
  · intro hv hop
    simp only [filterToProto, hv, unaryOpFor_null, hop, ne_eq, not_true_eq_false, if_false]
  · intro hv hop
    simp only [filterToProto, hv, unaryOpFor_nan, hop, ne_eq, not_true_eq_false, if_false]
  · intro hv hop
    rcases hv with hv | hv
    · exact ⟨Error.other "firestore: must use = when comparing",
        by simp only [filterToProto, hv, unaryOpFor_null, ne_eq, hop,
          not_false_eq_true, if_true]⟩
    · exact ⟨Error.other "firestore: must use = when comparing",
        by simp only [filterToProto, hv, unaryOpFor_nan, ne_eq, hop,
          not_false_eq_true, if_true]⟩
  · intro h1 h2
    have hf := filterToProto_other codec f h1 h2
    constructor
    · intro op pv hop henc
      rw [hf, hop, henc]
    · rw [hf, ← matchingOperator_none_iff]
      cases hop : matchingOperator f.Op with
      | none => simp
      | some op =>
        cases henc : codec.encodeValue f.Value with
        | error e => simp
        | ok pv => simp

/-- C26, at the failing input: a NaN of a defined float type (`type myFloat
float64`) is a floating-point NaN that `isNaN` does not recognise, as its type
switch names the types `float32` and `float64` only. `unaryOpFor` reports no
unary operator for it, and `filterToProto` returns a field filter that compares
with the encoded NaN: `EQUAL` for the operator `=`, in place of the unary filter
`IS_NAN`, and `LESS_THAN` for the operator `<`, in place of an error. -/
theorem filterToProto_misses_nan_of_defined_type :
    memdocstore.isNaNOfFloatKind (Value.definedFloat Float64.nan) = true ∧
    isNaN (Value.definedFloat Float64.nan) = false ∧
    unaryOpFor (Value.definedFloat Float64.nan) =
      (UnaryOperator.OPERATOR_UNSPECIFIED, false) ∧
    filterToProto exampleCodec
        { FieldPath := some ["x"], Op := "=", Value := Value.definedFloat Float64.nan } =
      Except.ok (ProtoFilter.FieldFilter { FieldPath := "x" } FieldOperator.EQUAL
        (Value.definedFloat Float64.nan)) ∧
    filterToProto exampleCodec
        { FieldPath := some ["x"], Op := "<", Value := Value.definedFloat Float64.nan } =
      Except.ok (ProtoFilter.FieldFilter { FieldPath := "x" } FieldOperator.LESS_THAN
        (Value.definedFloat Float64.nan)) ∧
    filterToProto exampleCodec
        { FieldPath := some ["x"], Op := "=", Value := Value.float Float64.nan } =
      Except.ok (ProtoFilter.UnaryFilter { FieldPath := "x" } UnaryOperator.IS_NAN) :=
  ⟨rfl, rfl, rfl, rfl, rfl, rfl⟩

end firedocstore

namespace memdocstore

open driver

/-- With one of the five operators `applyComparison` returns a boolean. -/
theorem applyComparison_returns (op : String) (c : Int)
    (hop : op ∈ firedocstore.fiveOperators) :
    ∃ b, applyComparison op c = Except.ok b := by
  simp only [firedocstore.fiveOperators, List.mem_cons, List.mem_singleton,
    List.not_mem_nil, or_false] at hop
  rcases hop with rfl | rfl | rfl | rfl | rfl <;> simp [applyComparison, EqualOp]

/-- Without a NaN on either side `compare` returns. -/
theorem compare_without_nan (x y : Value) (hx : isNaNOfFloatKind x = false)
    (hy : isNaNOfFloatKind y = false) :
    ∃ c ok, compare x y = Except.ok (c, ok) := by
  rcases x with _ | _ | _ | _ | _ | (_ | _ | _) | (_ | _ | _) | _ | _ <;>
  rcases y with _ | _ | _ | _ | _ | (_ | _ | _) | (_ | _ | _) | _ | _ <;>
  first
    | exact ⟨_, _, rfl⟩
    | exact absurd hx (by decide)
    | exact absurd hy (by decide)

/-- Without a NaN on either side, a document value that is not a string is
evaluated by firedocstore to the boolean that the operator gives, or to false. -/
theorem evaluateFilter_without_nan (f : Filter) (doc : Document) (x : Value)
    (hop : f.Op ∈ firedocstore.fiveOperators)
    (hdoc : doc.Get f.FieldPath = Except.ok x)
    (hx : isNaNOfFloatKind x = false) (hy : isNaNOfFloatKind f.Value = false) :
    ∃ b, firedocstore.evaluateFilter f doc = Except.ok b := by
  obtain ⟨fp, op, y⟩ := f
  simp only at hdoc hy hop
  have hap : ∀ c, ∃ b, firedocstore.applyComparison op c = Except.ok b :=
    fun c => applyComparison_returns op c hop
  simp only [firedocstore.evaluateFilter, hdoc]
  rcases x with _ | _ | _ | _ | _ | (_ | _ | _) | (_ | _ | _) | _ | _ <;>
  rcases y with _ | _ | _ | _ | _ | (_ | _ | _) | (_ | _ | _) | _ | _ <;>
  first
    | exact ⟨false, rfl⟩
    | exact hap _
    | exact absurd hx (by decide)
    | exact absurd hy (by decide)

/-- Local evaluation returns a boolean as long as no operand is a NaN: for a
filter with one of the five operators whose value is not a NaN, and a document in
which the lookup fails or gives a value that is not a NaN, memdocstore
`filterMatches` and firedocstore `evaluateFilter` return a boolean. -/
theorem local_evaluation_without_nan_returns (f : Filter) (doc : Document)
    (hop : f.Op ∈ firedocstore.fiveOperators)
    (hdoc : ∀ x, doc.Get f.FieldPath = Except.ok x → isNaNOfFloatKind x = false)
    (hy : isNaNOfFloatKind f.Value = false) :
    (∃ b, filterMatches f doc = Except.ok b) ∧
    ∃ b, firedocstore.evaluateFilter f doc = Except.ok b := by
  cases hget : doc.Get f.FieldPath with
  | error e =>
    constructor
    · exact ⟨false, by simp only [filterMatches, getAtFieldPath, hget]⟩
    · exact ⟨false, by simp only [firedocstore.evaluateFilter, hget]⟩
  | ok x =>
    have hx : isNaNOfFloatKind x = false := hdoc x hget
    constructor
    · obtain ⟨c, ok, hc⟩ := compare_without_nan x f.Value hx hy
      simp only [filterMatches, getAtFieldPath, hget, hc]
      cases ok with
      | false => exact ⟨false, rfl⟩
      | true => exact applyComparison_returns f.Op c hop
    · exact evaluateFilter_without_nan f doc x hop hget hx hy

/-- C27, at the failing inputs: with the operator `=`, the document value 1
against a NaN filter value makes memdocstore `filterMatches` and firedocstore
`evaluateFilter` panic, and so does, with the operator `<`, a NaN document value
against the filter value 1. Neither evaluator returns a boolean. -/
theorem local_evaluation_panics_on_nan :
    "=" ∈ firedocstore.fiveOperators ∧ "<" ∈ firedocstore.fiveOperators ∧
    filterMatches { FieldPath := some ["x"], Op := "=", Value := Value.float Float64.nan }
      (constDocument (Value.int 1)) = Except.error "ErrNaN" ∧
    firedocstore.evaluateFilter
      { FieldPath := some ["x"], Op := "=", Value := Value.float Float64.nan }
      (constDocument (Value.int 1)) = Except.error "ErrNaN" ∧
    filterMatches { FieldPath := some ["x"], Op := "<", Value := Value.int 1 }
      (constDocument (Value.float Float64.nan)) = Except.error "ErrNaN" ∧
    firedocstore.evaluateFilter { FieldPath := some ["x"], Op := "<", Value := Value.int 1 }
      (constDocument (Value.float Float64.nan)) = Except.error "ErrNaN" :=
  ⟨by simp [firedocstore.fiveOperators], by simp [firedocstore.fiveOperators],
    rfl, rfl, rfl, rfl⟩

theorem signOf_gt_zero_iff (r : ℚ) : signOf r > 0 ↔ r > 0 := by
  unfold signOf
  by_cases h1 : r < 0
  · have : ¬ r > 0 := not_lt.mpr h1.le
    simp [h1, this]
  · by_cases h2 : r = 0
    · simp [h2]
    · have : r > 0 := lt_of_le_of_ne (not_lt.mp h1) (Ne.symm h2)
      simp [h1, h2, this]

theorem signOf_lt_zero_iff (r : ℚ) : signOf r < 0 ↔ r < 0 := by
  unfold signOf
  by_cases h1 : r < 0
  · simp [h1]
  · by_cases h2 : r = 0 <;> simp [h1, h2]

theorem signOf_ge_zero_iff (r : ℚ) : signOf r ≥ 0 ↔ r ≥ 0 := by
  have h := signOf_lt_zero_iff r
  constructor
  · intro hs
    by_contra hr
    exact absurd (h.mpr (not_le.mp hr)) (not_lt.mpr hs)
  · intro hr
    by_contra hs
    exact absurd (h.mp (not_le.mp hs)) (not_lt.mpr hr)

theorem signOf_le_zero_iff (r : ℚ) : signOf r ≤ 0 ↔ r ≤ 0 := by
  have h := signOf_gt_zero_iff r
  constructor
  · intro hs
    by_contra hr
    exact absurd (h.mpr (not_le.mp hr)) (not_lt.mpr hs)
  · intro hr
    by_contra hs
    exact absurd (h.mp (not_le.mp hs)) (not_lt.mpr hr)

/-- Applied to the sign of `x - v`, `applyComparison` returns what the operator
states between `x` and `v`. -/
theorem applyComparison_signOf (op : String) (x v : ℚ) (b : Bool) :
    applyComparison op (signOf (x - v)) = Except.ok b ↔ relationHolds op x v = some b := by
  have e0 : decide (signOf (x - v) = 0) = decide (x = v) := by
    rw [decide_eq_decide, signOf_eq_zero_iff, sub_eq_zero]
  have e1 : decide (signOf (x - v) > 0) = decide (x > v) := by
    rw [decide_eq_decide, signOf_gt_zero_iff, gt_iff_lt, sub_pos]
  have e2 : decide (signOf (x - v) < 0) = decide (x < v) := by
    rw [decide_eq_decide, signOf_lt_zero_iff, sub_neg]
  have e3 : decide (signOf (x - v) ≥ 0) = decide (x ≥ v) := by
    rw [decide_eq_decide, signOf_ge_zero_iff, ge_iff_le, sub_nonneg]
  have e4 : decide (signOf (x - v) ≤ 0) = decide (x ≤ v) := by
    rw [decide_eq_decide, signOf_le_zero_iff, sub_nonpos]
  unfold applyComparison relationHolds EqualOp
  rw [e0, e1, e2, e3, e4]
  by_cases h1 : op = "="
  · simp [h1]
  · by_cases h2 : op = ">"
    · simp [h1, h2]
    · by_cases h3 : op = "<"
      · simp [h1, h2, h3]
      · by_cases h4 : op = ">="
        · simp [h1, h2, h3, h4]
        · by_cases h5 : op = "<="
          · simp [h1, h2, h3, h4, h5]
          · simp [h1, h2, h3, h4, h5]

theorem int64_of_lt (x : Nat) (h : x < 2 ^ 63) : int64 (x : Int) = (x : Int) := by
  unfold int64
  omega

theorem int64_of_ge (x : Nat) (h1 : 2 ^ 63 ≤ x) (h2 : x < 2 ^ 64) :
    int64 (x : Int) = (x : Int) - 2 ^ 64 := by
  unfold int64
  omega

/-- A document field stored through `EncodeUint(x)` is compared as the signed
integer `int64(x)`: against a numeric filter value of exact value `r`,
`filterMatches` applies the operator to the sign of `int64(x) - r`. -/
theorem filterMatches_EncodeUint (x : Nat) (f : Filter) (doc : Document) (r : ℚ)
    (hdoc : doc.Get f.FieldPath = Except.ok (encoder.EncodeUint x))
    (hv : numericValue f.Value = some r) :
    filterMatches f doc = applyComparison f.Op (signOf (((int64 (x : Int) : Int) : ℚ) - r)) := by
  have hc := compare_numeric (Value.int (int64 (x : Int))) f.Value _ r rfl hv
  simp only [filterMatches, getAtFieldPath, hdoc, encoder.EncodeUint, hc]
  rfl

/-- Below `2 ^ 63` an unsigned value stored through `EncodeUint` is compared
numerically: the document matches the filter exactly when `x` stands in the
relation of the operator to the filter value. -/
theorem EncodeUint_below_sign_bit_compares_numerically (x : Nat) (hx : x < 2 ^ 63)
    (f : Filter) (doc : Document) (r : ℚ) (b : Bool)
    (hdoc : doc.Get f.FieldPath = Except.ok (encoder.EncodeUint x))
    (hv : numericValue f.Value = some r) :
    filterMatches f doc = Except.ok b ↔ relationHolds f.Op (x : ℚ) r = some b := by
  rw [filterMatches_EncodeUint x f doc r hdoc hv, int64_of_lt x hx]
  exact applyComparison_signOf f.Op (x : ℚ) r b

/-- From `2 ^ 63` on, an unsigned value stored through `EncodeUint` is compared
as `x - 2 ^ 64`. -/
theorem EncodeUint_from_sign_bit_compares_shifted (x : Nat) (h1 : 2 ^ 63 ≤ x)
    (h2 : x < 2 ^ 64) (f : Filter) (doc : Document) (r : ℚ) (b : Bool)
    (hdoc : doc.Get f.FieldPath = Except.ok (encoder.EncodeUint x))
    (hv : numericValue f.Value = some r) :
    filterMatches f doc = Except.ok b ↔
      relationHolds f.Op ((x : ℚ) - 2 ^ 64) r = some b := by
  rw [filterMatches_EncodeUint x f doc r hdoc hv, int64_of_ge x h1 h2]
  have h := applyComparison_signOf f.Op ((x : ℚ) - 2 ^ 64) r b
  push_cast
  exact h

/-- C28, at the failing input: `EncodeUint(2 ^ 63)` stores the int64 `-2 ^ 63`,
so that the stored field does not match the filter `field = 2 ^ 63`, whose value
is the uint64 `2 ^ 63`, although `2 ^ 63 = 2 ^ 63`; and it does not match the
filter `field > 0`, although `2 ^ 63 > 0`. -/
theorem EncodeUint_sign_bit_compares_wrongly :
    encoder.EncodeUint (2 ^ 63) = Value.int (-(2 ^ 63)) ∧
    filterMatches { FieldPath := some ["x"], Op := "=", Value := Value.uint (2 ^ 63) }
      (constDocument (encoder.EncodeUint (2 ^ 63))) = Except.ok false ∧
    relationHolds "=" (2 ^ 63) (2 ^ 63) = some true ∧
    filterMatches { FieldPath := some ["x"], Op := ">", Value := Value.int 0 }
      (constDocument (encoder.EncodeUint (2 ^ 63))) = Except.ok false ∧
    relationHolds ">" (2 ^ 63) 0 = some true := by
  have henc : encoder.EncodeUint (2 ^ 63) = Value.int (-(2 ^ 63)) := by
    simp only [encoder.EncodeUint, int64]
    norm_num
  refine ⟨henc, ?_, ?_, ?_, ?_⟩
  · rw [henc]
    rfl
  · simp [relationHolds, EqualOp]
  · rw [henc]
    rfl
  · simp [relationHolds, EqualOp]

/-- The two local evaluators agree, panics included, unless the document value is
a string and the filter value a NaN. -/
theorem evaluators_agree_unless_string_against_nan (f : Filter) (doc : Document)
    (h : ∀ s, doc.Get f.FieldPath = Except.ok (Value.str s) →
      isNaNOfFloatKind f.Value = false) :
    firedocstore.evaluateFilter f doc = filterMatches f doc := by
  obtain ⟨fp, op, y⟩ := f
  simp only at h
  cases hget : doc.Get fp with
  | error e => simp only [firedocstore.evaluateFilter, filterMatches, getAtFieldPath, hget]
  | ok x =>
    simp only [firedocstore.evaluateFilter, filterMatches, getAtFieldPath, hget]
    rcases x with _ | _ | s | _ | _ | (_ | _ | _) | (_ | _ | _) | _ | _ <;>
    rcases y with _ | _ | _ | _ | _ | (_ | _ | _) | (_ | _ | _) | _ | _ <;>
    first
      | rfl
      | exact absurd (h s hget) (by decide)

/-- C29, at the failing input: on the string document value `a` and a NaN filter
value, with the operator `=`, firedocstore `evaluateFilter` returns false, as it
tests the string case on the document value alone, while memdocstore
`filterMatches` converts the NaN and panics. -/
theorem evaluators_disagree_on_string_against_nan :
    firedocstore.evaluateFilter
      { FieldPath := some ["x"], Op := "=", Value := Value.float Float64.nan }
      (constDocument (Value.str [97])) = Except.ok false ∧
    filterMatches { FieldPath := some ["x"], Op := "=", Value := Value.float Float64.nan }
      (constDocument (Value.str [97])) = Except.error "ErrNaN" ∧
    firedocstore.evaluateFilter
      { FieldPath := some ["x"], Op := "=", Value := Value.float Float64.nan }
      (constDocument (Value.str [97])) ≠
    filterMatches { FieldPath := some ["x"], Op := "=", Value := Value.float Float64.nan }
      (constDocument (Value.str [97])) :=
  ⟨rfl, rfl, fun h => by cases h⟩

theorem uint64_int64 (x : Nat) (hx : x < 2 ^ 64) : uint64 (int64 (x : Int)) = x := by
  unfold uint64 int64
  omega

/-- C30: the memdocstore codec round-trips scalars. For every bool, int64,
uint64 (a natural number below `2 ^ 64`), float64, string and byte slice, the
decoder accessor of the same kind, applied to the value that the matching encoder
method stores, returns the value and true; for a uint64 this holds for every
value, although the value is stored as an int64. -/
theorem codec_round_trips_scalars (x : Nat) (hx : x < 2 ^ 64) :
    (∀ b : Bool, decoder.AsBool (encoder.EncodeBool b) = (b, true)) ∧
    (∀ i : Int, decoder.AsInt (encoder.EncodeInt i) = (i, true)) ∧
    decoder.AsUint (encoder.EncodeUint x) = (x, true) ∧
    (∀ f : Float64, decoder.AsFloat (encoder.EncodeFloat f) = (f, true)) ∧
    (∀ s : GoString, decoder.AsString (encoder.EncodeString s) = (s, true)) ∧
    (∀ b : List Nat, decoder.AsBytes (encoder.EncodeBytes b) = (b, true)) := by
  refine ⟨fun _ => rfl, fun _ => rfl, ?_, fun _ => rfl, fun _ => rfl, fun _ => rfl⟩
  simp only [encoder.EncodeUint, decoder.AsUint, uint64_int64 x hx]

/-- C30, at the uint64 values `2 ^ 63` and `2 ^ 64 - 1`, which are stored as
negative int64 values. -/
theorem codec_round_trips_scalars_witness :
    ((2 : Nat) ^ 63 < 2 ^ 64 ∧
      encoder.EncodeUint (2 ^ 63) = Value.int (-(2 ^ 63)) ∧
      decoder.AsUint (encoder.EncodeUint (2 ^ 63)) = (2 ^ 63, true)) ∧
    ((2 : Nat) ^ 64 - 1 < 2 ^ 64 ∧
      decoder.AsUint (encoder.EncodeUint (2 ^ 64 - 1)) = (2 ^ 64 - 1, true)) :=
  ⟨⟨by norm_num, by simp only [encoder.EncodeUint, int64]; norm_num,
      (codec_round_trips_scalars (2 ^ 63) (by norm_num)).2.2.1⟩,
    ⟨by norm_num, (codec_round_trips_scalars (2 ^ 64 - 1) (by norm_num)).2.2.1⟩⟩

end memdocstore
